import Mathlib

/-!
# Hoarfrost: attack oracle, move generator, move ordering and search

A shallow embedding of `attacked.cpp`, `movegen.cpp`, `movesort.cpp` and `search.c`.

* A bitboard (`uint64_t`) is a natural number; the operations that can leave the 64-bit range
  (`~`, `<<`) are reduced modulo `2 ^ 64`.
* `int` values (scores, window bounds, ply) are unbounded integers; squares are naturals.
* The board is mutated in place by the C code; here every function that receives the
  `struct Board *` returns the board it leaves behind.
* The headers `board.h` and `functions.h` are not part of the sources at hand. What they
  declare (attack tables, masks, `lsb`, the enumerations, the ordering of `struct Move`) is
  modelled from the specification, and the collaborators `Eval`, `MakeMove`, `UnmakeMove`,
  `pst`, `piecevals` and `MATE` are fields of an environment `Env`.
* `Quies` recurses as long as captures are playable; it carries a budget for the nesting of
  its calls and answers `none` when the budget is used up. `Search` recurses on the depth and
  hands the budget to `Quies`.
* Behaviour that C leaves undefined (signed overflow, shifts by a negative amount or by 64 and
  more, `lsb` of the empty bitboard, writes past the 256 entries of the move buffer) is not
  modelled; the definitions say where they fix a value in such a case.
-/

namespace Hoarfrost

/-! ## Bitboard primitives -/

/-- The operator `~` on a `uint64_t`. -/
def bnot (x : Nat) : Nat := (x ^^^ (2 ^ 64 - 1)) % 2 ^ 64

/-- The operator `<<` on a `uint64_t`: bits shifted past bit 63 are lost. -/
def shl (x k : Nat) : Nat := (x <<< k) % 2 ^ 64

/-- The operator `>>` on a `uint64_t`. -/
def shr (x k : Nat) : Nat := x >>> k

/-- Scan for the first set bit at index `i` or above, looking at no more than `n` positions. -/
def lsbFrom (x : Nat) : Nat → Nat → Nat
  | 0, i => i
  | n + 1, i => if x.testBit i then i else lsbFrom x n (i + 1)

/-- Modelled from the spec: `lsb` (declared in `functions.h`) is the index of the least
significant set bit of a bitboard. On the empty bitboard, where the C primitive is undefined,
this model answers 64. -/
def lsb (x : Nat) : Nat := lsbFrom x 64 0

/-- The loop `while (x) { d = lsb(x); body(d); x &= x - 1; }`, which runs at most 64 times
on a 64-bit word. -/
def bitLoop {σ : Type} (body : Nat → σ → σ) : Nat → Nat → σ → σ
  | 0, _, s => s
  | n + 1, x, s => if x = 0 then s else bitLoop body n (x &&& (x - 1)) (body (lsb x) s)

/-- The squares visited by `bitLoop`, in the order of the visit. -/
def bitSquares : Nat → Nat → List Nat
  | 0, _ => []
  | n + 1, x => if x = 0 then [] else lsb x :: bitSquares n (x &&& (x - 1))

/-- Modelled from the spec: `FileAMask`, the eight squares of file A. -/
def FileAMask : Nat := 0x0101010101010101
/-- Modelled from the spec: `FileHMask`, the eight squares of file H. -/
def FileHMask : Nat := 0x8080808080808080
/-- Modelled from the spec: `Rank1Mask`, the eight squares of rank 1. -/
def Rank1Mask : Nat := 0x00000000000000FF
/-- Modelled from the spec: `Rank2Mask`, the eight squares of rank 2. -/
def Rank2Mask : Nat := 0x000000000000FF00
/-- Modelled from the spec: `Rank7Mask`, the eight squares of rank 7. -/
def Rank7Mask : Nat := 0x00FF000000000000
/-- Modelled from the spec: `Rank8Mask`, the eight squares of rank 8. -/
def Rank8Mask : Nat := 0xFF00000000000000

/-! ## Data model -/

/-- Modelled from the spec: the two colours, `WHITE = 0` and `BLACK = 1`. -/
inductive Color where
  | WHITE
  | BLACK
  deriving DecidableEq, Repr

/-- The operator `!` on a colour. -/
def Color.opp : Color → Color
  | .WHITE => .BLACK
  | .BLACK => .WHITE

/-- Modelled from the spec: the piece kinds, in the order the specification lists them. -/
inductive Piece where
  | PAWN
  | KNIGHT
  | BISHOP
  | ROOK
  | QUEEN
  | KING
  | NO_PIECE
  deriving DecidableEq, Repr

/-- Modelled from the spec: the integer behind a piece kind (its position in the enumeration
of `board.h`, which is not among the sources). -/
def Piece.code : Piece → Int
  | .PAWN => 0
  | .KNIGHT => 1
  | .BISHOP => 2
  | .ROOK => 3
  | .QUEEN => 4
  | .KING => 5
  | .NO_PIECE => 6

/-- Modelled from the spec: the move types. -/
inductive MoveType where
  | QUIET
  | DOUBLE_PUSH
  | CAPTURE
  | CAPTURE_PROMOTION
  | PROMOTION
  | ENPASSANT
  | CASTLE
  deriving DecidableEq, Repr

/-- The record `struct Move`; `from_` is the field `from`. -/
structure Move where
  from_ : Nat
  dest : Nat
  type : MoveType
  prom : Piece
  color : Color
  piece : Piece
  score : Int
  deriving DecidableEq, Repr

/-- The record `struct Board`: `pieces[PAWN] .. pieces[KING]`, `colors[WHITE]`,
`colors[BLACK]`, `side`, `castle` and `ep`. -/
structure Board where
  pawns : Nat
  knights : Nat
  bishops : Nat
  rooks : Nat
  queens : Nat
  kings : Nat
  white : Nat
  black : Nat
  side : Color
  castle : Nat
  ep : Nat
  deriving DecidableEq, Repr

/-- The array access `b->pieces[k]`. -/
def Board.pieces (b : Board) : Piece → Nat
  | .PAWN => b.pawns
  | .KNIGHT => b.knights
  | .BISHOP => b.bishops
  | .ROOK => b.rooks
  | .QUEEN => b.queens
  | .KING => b.kings
  | .NO_PIECE => 0

/-- The array access `b->colors[c]`. -/
def Board.colors (b : Board) : Color → Nat
  | .WHITE => b.white
  | .BLACK => b.black

/-- The occupancy `b->colors[WHITE] | b->colors[BLACK]`. -/
def Board.occ (b : Board) : Nat := b.colors .WHITE ||| b.colors .BLACK

/-- The eight bitboards of a board are 64-bit words, as their C type `uint64_t` says. -/
def Board.ok (b : Board) : Prop :=
  b.pawns < 2 ^ 64 ∧ b.knights < 2 ^ 64 ∧ b.bishops < 2 ^ 64 ∧ b.rooks < 2 ^ 64 ∧
  b.queens < 2 ^ 64 ∧ b.kings < 2 ^ 64 ∧ b.white < 2 ^ 64 ∧ b.black < 2 ^ 64

instance (b : Board) : Decidable b.ok := by
  unfold Board.ok
  infer_instance

/-! ## Attack tables

The tables are filled by code that is not among the sources; they are modelled from the
specification, over file and rank coordinates (`square = file + 8 * rank`). -/

/-- File of a square. -/
def fileOf (s : Nat) : Int := ((s % 8 : Nat) : Int)

/-- Rank of a square. -/
def rankOf (s : Nat) : Int := ((s / 8 : Nat) : Int)

/-- Whether the coordinates name one of the 64 squares. -/
def onBoard (f r : Int) : Bool :=
  decide (0 ≤ f) && decide (f < 8) && decide (0 ≤ r) && decide (r < 8)

/-- Index of the square with the given coordinates. -/
def sqOf (f r : Int) : Nat := (f + 8 * r).toNat

/-- The one-square bitboard at the given coordinates, empty when they are off the board. -/
def bitAt (f r : Int) : Nat := if onBoard f r then 2 ^ sqOf f r else 0

/-- Modelled from the spec: `PawnAttacks(c, s)` is the bitboard of the two diagonally forward
squares from `s` for colour `c`, clipped at the board edges. -/
def PawnAttacks (c : Color) (s : Nat) : Nat :=
  let dr : Int := match c with
    | .WHITE => 1
    | .BLACK => -1
  bitAt (fileOf s - 1) (rankOf s + dr) ||| bitAt (fileOf s + 1) (rankOf s + dr)

/-- The eight knight jumps. -/
def knightJumps : List (Int × Int) :=
  [(1, 2), (2, 1), (2, -1), (1, -2), (-1, -2), (-2, -1), (-2, 1), (-1, 2)]

/-- The eight king steps. -/
def kingSteps : List (Int × Int) :=
  [(1, 0), (1, 1), (0, 1), (-1, 1), (-1, 0), (-1, -1), (0, -1), (1, -1)]

/-- Union of the one-square bitboards reached from `s` by the given jumps. -/
def jumpSet (js : List (Int × Int)) (s : Nat) : Nat :=
  js.foldr (fun j acc => bitAt (fileOf s + j.1) (rankOf s + j.2) ||| acc) 0

/-- Modelled from the spec: `KnightAttacks(s)` is the edge-clipped knight jump set. -/
def KnightAttacks (s : Nat) : Nat := jumpSet knightJumps s

/-- Modelled from the spec: `KingAttacks(s)` is the edge-clipped king jump set. -/
def KingAttacks (s : Nat) : Nat := jumpSet kingSteps s

/-- One ray of a sliding piece: starting next to `(f, r)` and walking by `(df, dr)` for at
most `n` steps, the squares up to and including the first blocker in `occ`. -/
def ray (occ : Nat) (df dr : Int) : Nat → Int → Int → Nat
  | 0, _, _ => 0
  | n + 1, f, r =>
    if onBoard (f + df) (r + dr) then
      if occ.testBit (sqOf (f + df) (r + dr)) then 2 ^ sqOf (f + df) (r + dr)
      else 2 ^ sqOf (f + df) (r + dr) ||| ray occ df dr n (f + df) (r + dr)
    else 0

/-- Modelled from the spec: `BishopAttacks(s, occ)` is the sliding attack along the four
diagonals, stopping at (and including) the first blocker on each ray. -/
def BishopAttacks (s occ : Nat) : Nat :=
  ray occ 1 1 7 (fileOf s) (rankOf s) ||| ray occ 1 (-1) 7 (fileOf s) (rankOf s) |||
  ray occ (-1) 1 7 (fileOf s) (rankOf s) ||| ray occ (-1) (-1) 7 (fileOf s) (rankOf s)

/-- Modelled from the spec: `RookAttacks(s, occ)` is the sliding attack along the rank and the
file, stopping at (and including) the first blocker on each ray. -/
def RookAttacks (s occ : Nat) : Nat :=
  ray occ 1 0 7 (fileOf s) (rankOf s) ||| ray occ (-1) 0 7 (fileOf s) (rankOf s) |||
  ray occ 0 1 7 (fileOf s) (rankOf s) ||| ray occ 0 (-1) 7 (fileOf s) (rankOf s)

/-- Modelled from the spec: `QueenAttacks(s, occ)` is the union of the bishop and the rook
attacks. -/
def QueenAttacks (s occ : Nat) : Nat := BishopAttacks s occ ||| RookAttacks s occ

/-! ## Attack oracle (`attacked.cpp`) -/

/-- The function `IsAttacked(b, side, square)`. -/
def IsAttacked (b : Board) (side : Color) (square : Nat) : Bool :=
  let pawns := b.pieces .PAWN &&& b.colors side
  if PawnAttacks side.opp square &&& pawns ≠ 0 then true else
  let knights := b.pieces .KNIGHT &&& b.colors side
  if KnightAttacks square &&& knights ≠ 0 then true else
  let kings := b.pieces .KING &&& b.colors side
  if KingAttacks square &&& kings ≠ 0 then true else
  let bishopsqueens := (b.pieces .BISHOP ||| b.pieces .QUEEN) &&& b.colors side
  if BishopAttacks square (b.colors .WHITE ||| b.colors .BLACK) &&& bishopsqueens ≠ 0 then true
  else
  let rooksqueens := (b.pieces .ROOK ||| b.pieces .QUEEN) &&& b.colors side
  if RookAttacks square (b.colors .WHITE ||| b.colors .BLACK) &&& rooksqueens ≠ 0 then true
  else false

/-- The function `IsIllegal(b)`: the side that has just moved left its king attacked. -/
def IsIllegal (b : Board) : Bool :=
  IsAttacked b b.side (lsb (b.pieces .KING &&& b.colors b.side.opp))

/-- The function `IsInCheck(b)`. -/
def IsInCheck (b : Board) : Bool :=
  IsAttacked b b.side.opp (lsb (b.pieces .KING &&& b.colors b.side))

/-! ## External collaborators -/

/-- Modelled from the spec: the undo record written by `MakeMove` (previous castling rights,
previous en-passant square, previous side, captured piece kind, originating piece kind). -/
structure Undo where
  castle : Nat
  ep : Nat
  side : Color
  captured : Piece
  piece : Piece
  deriving DecidableEq, Repr

/-- The record `struct PV`: a count and an array of moves. -/
structure PV where
  count : Nat
  moves : Nat → Move

/-- The process-wide counters `nodes`, `first` and `cuts`. -/
structure Counters where
  nodes : Int
  first : Int
  cuts : Int
  deriving DecidableEq, Repr

/-- What the core takes from the rest of the program: the evaluator, make and unmake, the
phase-0 slices of the tables `pst` and `piecevals`, the constant `MATE`, and the bytes found in
the uninitialised local `childpv` of a `Search` frame (indexed by the ply of the frame). -/
structure Env where
  Eval : Board → Int
  MakeMove : Board → Move → Board × Undo
  UnmakeMove : Board → Undo → Move → Board
  pst : Piece → Nat → Int
  piecevals : Piece → Int
  MATE : Int
  stackPV : Int → PV

/-- Modelled from the spec: the sentinel `INVALID` of the en-passant field, a value above 63. -/
def INVALID : Nat := 64

/-! ## Move scoring (`movesort.cpp`, `MoveValue`) -/

/-- The function `MoveValue(b, m)`. The mask `m.piece & 7` keeps every piece kind as it is. -/
def MoveValue (env : Env) (b : Board) (m : Move) : Int :=
  let from_ := m.from_ &&& 63
  let dest := m.dest &&& 63
  let piece := m.piece
  let destbb := shl 1 dest
  let value : Int :=
    if b.side = .WHITE then env.pst piece dest - env.pst piece from_
    else env.pst piece (dest ^^^ 56) - env.pst piece (from_ ^^^ 56)
  let cap : Piece :=
    if destbb &&& b.pieces .PAWN ≠ 0 then .PAWN
    else if destbb &&& b.pieces .KNIGHT ≠ 0 then .KNIGHT
    else if destbb &&& b.pieces .BISHOP ≠ 0 then .BISHOP
    else if destbb &&& b.pieces .ROOK ≠ 0 then .ROOK
    else if destbb &&& b.pieces .QUEEN ≠ 0 then .QUEEN
    else if destbb &&& b.pieces .KING ≠ 0 then .KING
    else .NO_PIECE
  value + (env.piecevals cap - piece.code)

/-! ## Move generator (`movegen.cpp`)

The buffer `m` together with `movecount` is the list of the moves written so far; `AddMove`
appends to it. -/

/-- The move built by `AddMove`: the constructor call with score 0, then the score computed
by `MoveValue` on it. -/
def mkMove (env : Env) (b : Board) (from_ dest : Nat) (type : MoveType) (prompiece : Piece)
    (color : Color) (piece : Piece) : Move :=
  let n : Move :=
    { from_ := from_, dest := dest, type := type, prom := prompiece, color := color,
      piece := piece, score := 0 }
  { n with score := MoveValue env b n }

/-- The function `AddMove`: the move is written at index `movecount`, which then grows by
one. -/
def AddMove (env : Env) (b : Board) (m : List Move) (from_ dest : Nat) (type : MoveType)
    (prompiece : Piece) (color : Color) (piece : Piece) : List Move :=
  m ++ [mkMove env b from_ dest type prompiece color piece]

/-- The four `AddMove` calls of a promotion, in the order QUEEN, ROOK, BISHOP, KNIGHT. -/
def addPromotions (env : Env) (b : Board) (m : List Move) (from_ dest : Nat) (type : MoveType)
    (color : Color) : List Move :=
  let m := AddMove env b m from_ dest type .QUEEN color .PAWN
  let m := AddMove env b m from_ dest type .ROOK color .PAWN
  let m := AddMove env b m from_ dest type .BISHOP color .PAWN
  AddMove env b m from_ dest type .KNIGHT color .PAWN

/-- The loop shared by knights, bishops, rooks, queens and kings: for every square `from` of
`pcs` (taken by `lsb`), for every square `dest` of `attacksOf from & target`, add one move. -/
def genPiece (env : Env) (b : Board) (pcs : Nat) (attacksOf : Nat → Nat) (target : Nat)
    (type : MoveType) (piece : Piece) (m : List Move) : List Move :=
  bitLoop
    (fun from_ m =>
      bitLoop (fun dest m => AddMove env b m from_ dest type .NO_PIECE b.side piece) 64
        (attacksOf from_ &&& target) m)
    64 pcs m

/-- The pawn part of `GenerateQuiets`. -/
def genPawnQuiets (env : Env) (b : Board) (m : List Move) : List Move :=
  let empty := bnot b.occ
  match b.side with
  | .WHITE =>
    let pawns := b.pieces .PAWN &&& b.colors .WHITE
    let singles := (shl pawns 8 &&& empty) &&& bnot Rank8Mask
    let m := bitLoop (fun dest m => AddMove env b m (dest - 8) dest .QUIET .NO_PIECE .WHITE .PAWN)
      64 singles m
    let singles := shl (pawns &&& Rank2Mask) 8 &&& empty
    let doubles := shl singles 8 &&& empty
    let m := bitLoop
      (fun dest m => AddMove env b m (dest - 16) dest .DOUBLE_PUSH .NO_PIECE .WHITE .PAWN)
      64 doubles m
    let singles := shl (pawns &&& Rank7Mask) 8 &&& empty
    bitLoop (fun dest m => addPromotions env b m (dest - 8) dest .PROMOTION .WHITE) 64 singles m
  | .BLACK =>
    let pawns := b.pieces .PAWN &&& b.colors .BLACK
    let singles := (shr pawns 8 &&& empty) &&& bnot Rank1Mask
    let m := bitLoop (fun dest m => AddMove env b m (dest + 8) dest .QUIET .NO_PIECE .BLACK .PAWN)
      64 singles m
    let singles := shr (pawns &&& Rank7Mask) 8 &&& empty
    let doubles := shr singles 8 &&& empty
    let m := bitLoop
      (fun dest m => AddMove env b m (dest + 16) dest .DOUBLE_PUSH .NO_PIECE .BLACK .PAWN)
      64 doubles m
    let singles := shr (pawns &&& Rank2Mask) 8 &&& empty
    bitLoop (fun dest m => addPromotions env b m (dest + 8) dest .PROMOTION .BLACK) 64 singles m

/-- The piece part of `GenerateQuiets`: knights, bishops, rooks, queens, kings. -/
def genPieceQuiets (env : Env) (b : Board) (m : List Move) : List Move :=
  let occ := b.occ
  let empty := bnot occ
  let m := genPiece env b (b.pieces .KNIGHT &&& b.colors b.side) KnightAttacks empty
    .QUIET .KNIGHT m
  let m := genPiece env b (b.pieces .BISHOP &&& b.colors b.side) (fun s => BishopAttacks s occ)
    empty .QUIET .BISHOP m
  let m := genPiece env b (b.pieces .ROOK &&& b.colors b.side) (fun s => RookAttacks s occ)
    empty .QUIET .ROOK m
  let m := genPiece env b (b.pieces .QUEEN &&& b.colors b.side) (fun s => QueenAttacks s occ)
    empty .QUIET .QUEEN m
  genPiece env b (b.pieces .KING &&& b.colors b.side) KingAttacks empty .QUIET .KING m

/-- The integer `2*(b->side == BLACK)`. -/
def castleShift (side : Color) : Nat :=
  match side with
  | .WHITE => 0
  | .BLACK => 2

/-- The castling part of `GenerateQuiets`. The C code computes `from - 1`, `from - 2` and
`from - 3` in `int` and shifts by them; here the subtraction is truncated at 0, which agrees
with C whenever the king stands on square 3 or above. -/
def genCastle (env : Env) (b : Board) (m : List Move) : List Move :=
  let empty := bnot b.occ
  if !IsInCheck b then
    let from_ := lsb (b.pieces .KING &&& b.colors b.side)
    let m :=
      if b.castle &&& (1 <<< castleShift b.side) ≠ 0 then
        if !IsAttacked b b.side.opp (from_ + 1) && !IsAttacked b b.side.opp (from_ + 2) &&
            decide (shl 1 (from_ + 1) &&& empty ≠ 0) && decide (shl 1 (from_ + 2) &&& empty ≠ 0)
        then AddMove env b m from_ (from_ + 2) .CASTLE .NO_PIECE b.side .KING
        else m
      else m
    if b.castle &&& (2 <<< castleShift b.side) ≠ 0 then
      if !IsAttacked b b.side.opp (from_ - 1) && !IsAttacked b b.side.opp (from_ - 2) &&
          decide (shl 1 (from_ - 1) &&& empty ≠ 0) && decide (shl 1 (from_ - 2) &&& empty ≠ 0) &&
          decide (shl 1 (from_ - 3) &&& empty ≠ 0)
      then AddMove env b m from_ (from_ - 2) .CASTLE .NO_PIECE b.side .KING
      else m
    else m
  else m

/-- The function `GenerateQuiets(b, m, movecount)`; the result is the buffer with the new moves
appended (its length is the returned count). -/
def GenerateQuiets (env : Env) (b : Board) (m : List Move) : List Move :=
  genCastle env b (genPieceQuiets env b (genPawnQuiets env b m))

/-- The four capture loops of one pawn direction: plain captures off the last rank and
capture-promotions on it; `back dest` is the origin square of a capture landing on `dest`. -/
def genPawnDir (env : Env) (b : Board) (color : Color) (shifted lastRank : Nat)
    (back : Nat → Nat) (m : List Move) : List Move :=
  let attacks := (shifted &&& b.colors color.opp) &&& bnot lastRank
  let m := bitLoop (fun dest m => AddMove env b m (back dest) dest .CAPTURE .NO_PIECE color .PAWN)
    64 attacks m
  let attacks := (shifted &&& b.colors color.opp) &&& lastRank
  bitLoop (fun dest m => addPromotions env b m (back dest) dest .CAPTURE_PROMOTION color)
    64 attacks m

/-- The en-passant block of `GenerateCaptures`. -/
def genEnPassant (env : Env) (b : Board) (color : Color) (m : List Move) : List Move :=
  if b.ep ≠ INVALID ∧ b.ep ≤ 63 then
    let attacks := (PawnAttacks color.opp b.ep &&& b.pieces .PAWN) &&& b.colors color
    bitLoop (fun from_ m => AddMove env b m from_ b.ep .ENPASSANT .NO_PIECE color .PAWN)
      64 attacks m
  else m

/-- The pawn part of `GenerateCaptures`. -/
def genPawnCaptures (env : Env) (b : Board) (m : List Move) : List Move :=
  match b.side with
  | .WHITE =>
    let pawns := b.pieces .PAWN &&& b.colors .WHITE
    let m := genPawnDir env b .WHITE (shl (pawns &&& bnot FileAMask) 7) Rank8Mask
      (fun dest => dest - 7) m
    let m := genPawnDir env b .WHITE (shl (pawns &&& bnot FileHMask) 9) Rank8Mask
      (fun dest => dest - 9) m
    genEnPassant env b .WHITE m
  | .BLACK =>
    let pawns := b.pieces .PAWN &&& b.colors .BLACK
    let m := genPawnDir env b .BLACK (shr (pawns &&& bnot FileAMask) 9) Rank1Mask
      (fun dest => dest + 9) m
    let m := genPawnDir env b .BLACK (shr (pawns &&& bnot FileHMask) 7) Rank1Mask
      (fun dest => dest + 7) m
    genEnPassant env b .BLACK m

/-- The piece part of `GenerateCaptures`: knights, bishops, rooks, queens, kings. -/
def genPieceCaptures (env : Env) (b : Board) (m : List Move) : List Move :=
  let occ := b.occ
  let them := b.colors b.side.opp
  let m := genPiece env b (b.pieces .KNIGHT &&& b.colors b.side) KnightAttacks them
    .CAPTURE .KNIGHT m
  let m := genPiece env b (b.pieces .BISHOP &&& b.colors b.side) (fun s => BishopAttacks s occ)
    them .CAPTURE .BISHOP m
  let m := genPiece env b (b.pieces .ROOK &&& b.colors b.side) (fun s => RookAttacks s occ)
    them .CAPTURE .ROOK m
  let m := genPiece env b (b.pieces .QUEEN &&& b.colors b.side) (fun s => QueenAttacks s occ)
    them .CAPTURE .QUEEN m
  genPiece env b (b.pieces .KING &&& b.colors b.side) KingAttacks them .CAPTURE .KING m

/-- The function `GenerateCaptures(b, m, movecount)`. -/
def GenerateCaptures (env : Env) (b : Board) (m : List Move) : List Move :=
  genPieceCaptures env b (genPawnCaptures env b m)

/-! ## Move ordering (`movesort.cpp`) -/

/-- The record `struct Sort` (a reserved word here, hence the longer name): the buffer `m`
(its populated entries), `movecount` and the cursor `i`. -/
structure SortBuf where
  m : List Move
  movecount : Nat
  i : Nat
  deriving DecidableEq, Repr

/-- Modelled from the spec: the hint that stands for "no TT move", a move whose `from` equals
its `dest`; `Search` passes it to `InitSort`. -/
def nullMove : Move :=
  { from_ := 0, dest := 0, type := .QUIET, prom := .NO_PIECE, color := .WHITE, piece := .PAWN,
    score := 0 }

instance : Inhabited Move := ⟨nullMove⟩

/-- Modelled from the spec: the ordering `operator<` of `struct Move` used by
`std::stable_sort` (declared in `board.h`); a move comes first when its score is higher. -/
def Move.lt (a b : Move) : Bool := decide (a.score > b.score)

/-- Insertion of `x` in front of a sorted run that followed it: `x` passes the entries that
come strictly before it in the ordering and stops at the first one that does not. -/
def insertSorted (x : Move) : List Move → List Move
  | [] => [x]
  | y :: ys => if Move.lt y x then y :: insertSorted x ys else x :: y :: ys

/-- The library routine `std::stable_sort`: the entries in the order of `Move.lt`, entries
that compare equal staying in their original order. -/
def stable_sort : List Move → List Move
  | [] => []
  | x :: xs => insertSorted x (stable_sort xs)

/-- The `for` loop of `InitSort` that looks for the hint: the first entry with the hint's
`from`, `dest` and `type` gets the score 4000, and the loop breaks. -/
def markHint (ttm : Move) : List Move → List Move
  | [] => []
  | x :: xs =>
    if x.from_ = ttm.from_ ∧ x.dest = ttm.dest ∧ x.type = ttm.type then
      { x with score := 4000 } :: xs
    else x :: markHint ttm xs

/-- The function `InitSort(b, s, ttm)`. -/
def InitSort (env : Env) (b : Board) (ttm : Move) : SortBuf :=
  let m := GenerateCaptures env b []
  let m := GenerateQuiets env b m
  let m := if ttm.from_ ≠ ttm.dest then markHint ttm m else m
  { m := stable_sort m, movecount := m.length, i := 0 }

/-- The function `InitSortQuies(b, s)`. -/
def InitSortQuies (env : Env) (b : Board) : SortBuf :=
  let m := GenerateCaptures env b []
  { m := stable_sort m, movecount := m.length, i := 0 }

/-- The function `NextMove(s, m)`: `none` stands for the return value 0, and `some` carries
the move written through `m` and the advanced sort record. -/
def NextMove (s : SortBuf) : Option (Move × SortBuf) :=
  if s.i < s.movecount then some (s.m.getD s.i default, { s with i := s.i + 1 }) else none

/-- The moves handed out by at most `n` successive calls of `NextMove`, up to the first call
that returns 0. -/
def drain : Nat → SortBuf → List Move
  | 0, _ => []
  | n + 1, s =>
    match NextMove s with
    | none => []
    | some (m, s1) => m :: drain n s1

/-- The moves handed out by `while (NextMove(&s, &m))`. -/
def SortBuf.yield (s : SortBuf) : List Move := drain (s.movecount - s.i) s

/-! ## Search (`search.c`) -/

/-- What `Quies` leaves behind: the returned value, the board and the counters. -/
structure QOut where
  val : Int
  board : Board
  ctr : Counters
  deriving DecidableEq, Repr

/-- What `Search` leaves behind: the returned value, the board, the caller's PV and the
counters. -/
structure SOut where
  val : Int
  board : Board
  pv : PV
  ctr : Counters

/-- The `while` loop of `Quies` over the moves still to be handed out by `NextMove`; `self`
is the recursive call. -/
def quiesLoop (env : Env) (self : Board → Int → Int → Counters → Option QOut) :
    List Move → Board → Int → Int → Counters → Option QOut
  | [], b, alpha, _, c => some ⟨alpha, b, c⟩
  | m :: ms, b, alpha, beta, c =>
    let bu := env.MakeMove b m
    if IsIllegal bu.1 then
      quiesLoop env self ms (env.UnmakeMove bu.1 bu.2 m) alpha beta c
    else
      match self bu.1 (-beta) (-alpha) c with
      | none => none
      | some r =>
        let val := -r.val
        let b1 := env.UnmakeMove r.board bu.2 m
        if val ≥ beta then some ⟨beta, b1, r.ctr⟩
        else if val > alpha then quiesLoop env self ms b1 val beta r.ctr
        else quiesLoop env self ms b1 alpha beta r.ctr

/-- The function `Quies(b, alpha, beta)`. The first argument bounds the nesting of the
recursion: with nesting budget 0 there is no answer (`none`). The values are unbounded
integers; `Quies32` repeats the function with the arithmetic of `int`. -/
def Quies (env : Env) : Nat → Board → Int → Int → Counters → Option QOut
  | 0, _, _, _, _ => none
  | n + 1, b, alpha, beta, c =>
    let c := { c with nodes := c.nodes + 1 }
    let val := env.Eval b
    if val ≥ beta then some ⟨beta, b, c⟩
    else
      let alpha := if val > alpha then val else alpha
      let s := InitSortQuies env b
      quiesLoop env (Quies env n) s.yield b alpha beta c

/-- The PV update `pv->moves[0] = m; memcpy(pv->moves + 1, childpv.moves, childpv.count * ..);
pv->count = childpv.count + 1`. -/
def PV.update (pv : PV) (m : Move) (childpv : PV) : PV :=
  { count := childpv.count + 1,
    moves := fun i =>
      if i = 0 then m
      else if i - 1 < childpv.count then childpv.moves (i - 1)
      else pv.moves i }

/-- The `while` loop of `Search` together with the code after it; `self` is the recursive
call at `depth - 1` and `ply + 1`, `moves` the running count of legal moves, `childpv` the
frame's local PV record. -/
def searchLoop (env : Env) (self : Board → Int → Int → PV → Counters → Option SOut)
    (ply : Int) : List Move → Board → Int → Int → Nat → PV → PV → Counters → Option SOut
  | [], b, alpha, _, moves, pv, _, c =>
    if moves = 0 then
      if IsInCheck b then some ⟨-env.MATE + ply, b, pv, c⟩
      else some ⟨0, b, pv, c⟩
    else some ⟨alpha, b, pv, c⟩
  | m :: ms, b, alpha, beta, moves, pv, childpv, c =>
    let bu := env.MakeMove b m
    if IsIllegal bu.1 then
      searchLoop env self ply ms (env.UnmakeMove bu.1 bu.2 m) alpha beta moves pv childpv c
    else
      let moves := moves + 1
      match self bu.1 (-beta) (-alpha) childpv c with
      | none => none
      | some r =>
        let val := -r.val
        let b1 := env.UnmakeMove r.board bu.2 m
        if val ≥ beta then
          some ⟨beta, b1, pv,
            { r.ctr with
              first := if moves = 1 then r.ctr.first + 1 else r.ctr.first,
              cuts := r.ctr.cuts + 1 }⟩
        else if val > alpha then
          searchLoop env self ply ms b1 val beta moves (pv.update m r.pv) r.pv r.ctr
        else searchLoop env self ply ms b1 alpha beta moves pv r.pv r.ctr

/-- The function `Search(b, depth, alpha, beta, ply, pv)` for a depth that is not negative.
The first argument is the nesting budget handed to `Quies`; the result is `none` when that
budget does not suffice. The values are unbounded integers; `Search32` repeats the function
with the arithmetic of `int`, and the two agree when no `int` operation wraps. -/
def Search (env : Env) (qfuel : Nat) :
    Nat → Board → Int → Int → Int → PV → Counters → Option SOut
  | 0, b, alpha, beta, _, pv, c =>
    match Quies env qfuel b alpha beta { c with nodes := c.nodes + 1 } with
    | none => none
    | some q => some ⟨q.val, q.board, { pv with count := 0 }, q.ctr⟩
  | d + 1, b, alpha, beta, ply, pv, c =>
    let s := InitSort env b nullMove
    searchLoop env (fun b1 a1 be1 cpv c1 => Search env qfuel d b1 a1 be1 (ply + 1) cpv c1)
      ply s.yield b alpha beta 0 pv (env.stackPV ply) { c with nodes := c.nodes + 1 }

/-- The contract of the collaborators: `UnmakeMove` restores the board that preceded the
matching `MakeMove`. -/
def Restores (env : Env) : Prop :=
  ∀ (b : Board) (m : Move), env.UnmakeMove (env.MakeMove b m).1 (env.MakeMove b m).2 m = b

/-! ## Concrete positions -/

/-- White king e1, white rook h1, black king e8, white to move. -/
def wboard : Board :=
  { pawns := 0, knights := 0, bishops := 0, rooks := 2 ^ 7, queens := 0, kings := 2 ^ 4 ||| 2 ^ 60,
    white := 2 ^ 4 ||| 2 ^ 7, black := 2 ^ 60, side := .WHITE, castle := 0, ep := 64 }

/-- An environment for the concrete examples: every table entry and every evaluation is 0,
`MakeMove` and `UnmakeMove` leave the board alone, and `MATE` is 10000. -/
def env0 : Env :=
  { Eval := fun _ => 0,
    MakeMove := fun b _ => (b, ⟨0, 0, .WHITE, .NO_PIECE, .NO_PIECE⟩),
    UnmakeMove := fun b _ _ => b,
    pst := fun _ _ => 0,
    piecevals := fun _ => 0,
    MATE := 10000,
    stackPV := fun _ => ⟨0, fun _ => nullMove⟩ }

/-- White king e1 with rooks a1 and h1, black king e8, white to move with both castling
rights. -/
def cboard : Board :=
  { pawns := 0, knights := 0, bishops := 0, rooks := 2 ^ 0 ||| 2 ^ 7, queens := 0,
    kings := 2 ^ 4 ||| 2 ^ 60, white := 2 ^ 0 ||| 2 ^ 4 ||| 2 ^ 7, black := 2 ^ 60,
    side := .WHITE, castle := 3, ep := 64 }

/-- The attack set of a knight, bishop, rook, queen or king standing on `f` under the
occupancy `occ` (empty for the other piece kinds). -/
def attackSet (k : Piece) (f occ : Nat) : Nat :=
  match k with
  | .KNIGHT => KnightAttacks f
  | .BISHOP => BishopAttacks f occ
  | .ROOK => RookAttacks f occ
  | .QUEEN => QueenAttacks f occ
  | .KING => KingAttacks f
  | _ => 0

/-- White king e1, white rook h1, black king e8 and a black knight on h5, white to move. -/
def rboard : Board :=
  { pawns := 0, knights := 2 ^ 39, bishops := 0, rooks := 2 ^ 7, queens := 0,
    kings := 2 ^ 4 ||| 2 ^ 60, white := 2 ^ 4 ||| 2 ^ 7, black := 2 ^ 39 ||| 2 ^ 60,
    side := .WHITE, castle := 0, ep := 64 }

/-- Number of squares of a bitboard (`popcount`). -/
def popcount (x : Nat) : Nat := (bitSquares 64 x).length

/-- The data-model invariants of the specification: 64-bit bitboards, disjoint colour sets
whose union is the union of the piece sets, no pawn on rank 1 or rank 8, one king per colour,
and an en-passant square that is either the sentinel or lies behind a pawn of the side that is
not to move. -/
def Board.valid (b : Board) : Prop :=
  b.ok ∧ b.colors .WHITE &&& b.colors .BLACK = 0 ∧
  (b.pieces .PAWN ||| b.pieces .KNIGHT ||| b.pieces .BISHOP ||| b.pieces .ROOK |||
    b.pieces .QUEEN ||| b.pieces .KING) = b.occ ∧
  b.pieces .PAWN &&& (Rank1Mask ||| Rank8Mask) = 0 ∧
  popcount (b.pieces .KING &&& b.colors .WHITE) = 1 ∧
  popcount (b.pieces .KING &&& b.colors .BLACK) = 1 ∧
  (b.ep ≠ INVALID →
    b.ep ≤ 63 ∧
      (b.pieces .PAWN &&& b.colors b.side.opp).testBit
        (match b.side with
          | .WHITE => b.ep - 8
          | .BLACK => b.ep + 8) = true)

instance (b : Board) : Decidable b.valid := by
  unfold Board.valid
  infer_instance

/-- A position without any pseudo-legal move for white, who is to move: the white king on a1,
the black king on h8, white bishops on g8 and h7 and white rooks on the other 60 squares. -/
def blocked : Board :=
  { pawns := 0, knights := 0, bishops := 2 ^ 62 ||| 2 ^ 55,
    rooks := 2 ^ 63 - 1 - 1 - 2 ^ 62 - 2 ^ 55, queens := 0, kings := 1 ||| 2 ^ 63,
    white := 2 ^ 63 - 1, black := 2 ^ 63, side := .WHITE, castle := 0, ep := 64 }

/-- White king e1, white rook h1, black king h8, white to move: the rook attacks the black
king along the open h-file. -/
def iboard : Board :=
  { pawns := 0, knights := 0, bishops := 0, rooks := 2 ^ 7, queens := 0,
    kings := 2 ^ 4 ||| 2 ^ 63, white := 2 ^ 4 ||| 2 ^ 7, black := 2 ^ 63,
    side := .WHITE, castle := 0, ep := 64 }

/-- An empty PV record. -/
def pv0 : PV := ⟨0, fun _ => nullMove⟩

/-- The counters at zero. -/
def c0 : Counters := ⟨0, 0, 0⟩

/-! ## Make and unmake, modelled from the specification

`MakeMove` and `UnmakeMove` are not among the sources. The model below follows the contract
of the specification (the moved piece leaves `from` and lands on `dest`, a captured piece is
removed from `pieces` and `colors`, a promotion replaces the pawn, castling also moves the
rook, the side is flipped, castling rights and the en-passant square are updated) and changes
the bitboards by exclusive-or, so that unmaking applies the same masks again. -/

/-- Modelled from the spec: the kind of the piece standing on square `s`, scanning the kinds
in the order PAWN .. KING as `MoveValue` does; NO_PIECE when none holds the square. -/
def Board.kindAt (b : Board) (s : Nat) : Piece :=
  if (b.pieces .PAWN).testBit s then .PAWN
  else if (b.pieces .KNIGHT).testBit s then .KNIGHT
  else if (b.pieces .BISHOP).testBit s then .BISHOP
  else if (b.pieces .ROOK).testBit s then .ROOK
  else if (b.pieces .QUEEN).testBit s then .QUEEN
  else if (b.pieces .KING).testBit s then .KING
  else .NO_PIECE

/-- Modelled from the spec: the kind of the piece a move removes from the board: the piece on
`dest` for CAPTURE and CAPTURE_PROMOTION, a pawn for ENPASSANT, none otherwise. -/
def capturedKind (b : Board) (m : Move) : Piece :=
  match m.type with
  | .CAPTURE => b.kindAt m.dest
  | .CAPTURE_PROMOTION => b.kindAt m.dest
  | .ENPASSANT => .PAWN
  | _ => .NO_PIECE

/-- Modelled from the spec: the square a move empties of an opposing piece: `dest`, or for
ENPASSANT the square behind `dest` seen from the capturing side. -/
def victimSquare (m : Move) : Nat :=
  match m.type, m.color with
  | .ENPASSANT, .WHITE => m.dest - 8
  | .ENPASSANT, .BLACK => m.dest + 8
  | _, _ => m.dest

/-- Modelled from the spec: the two squares between which a CASTLE move carries the rook
(from the corner to the square the king passes over), as a bitboard; empty for other moves. -/
def rookMask (m : Move) : Nat :=
  match m.type with
  | .CASTLE =>
    if m.from_ < m.dest then shl 1 (m.from_ + 3) ^^^ shl 1 (m.from_ + 1)
    else shl 1 (m.from_ - 4) ^^^ shl 1 (m.from_ - 1)
  | _ => 0

/-- Whether the move takes a piece off the board. -/
def takes (m : Move) : Bool :=
  match m.type with
  | .CAPTURE => true
  | .CAPTURE_PROMOTION => true
  | .ENPASSANT => true
  | _ => false

/-- Whether the move promotes the pawn. -/
def promotes (m : Move) : Bool :=
  match m.type with
  | .PROMOTION => true
  | .CAPTURE_PROMOTION => true
  | _ => false

/-- Modelled from the spec: the squares of `pieces[k]` that playing `m` changes, `cap` being
the kind of the piece taken: the moved piece leaves `from` and lands on `dest`, the victim
leaves its square, a promoted pawn on `dest` is replaced by the chosen piece, a castling rook
changes squares. -/
def pieceMask (m : Move) (cap k : Piece) : Nat :=
  (if m.piece = k then shl 1 m.from_ ^^^ shl 1 m.dest else 0) ^^^
  (if takes m = true ∧ cap = k then shl 1 (victimSquare m) else 0) ^^^
  (if promotes m = true ∧ k = .PAWN then shl 1 m.dest else 0) ^^^
  (if promotes m = true ∧ k = m.prom then shl 1 m.dest else 0) ^^^
  (if k = .ROOK then rookMask m else 0)

/-- Modelled from the spec: the squares of `colors[c]` that playing `m` changes. -/
def colorMask (m : Move) (c : Color) : Nat :=
  (if m.color = c then shl 1 m.from_ ^^^ shl 1 m.dest ^^^ rookMask m else 0) ^^^
  (if takes m = true ∧ m.color.opp = c then shl 1 (victimSquare m) else 0)

/-- The bitboards of `b` with the squares changed by `m` flipped. -/
def Board.toggle (b : Board) (m : Move) (cap : Piece) : Board :=
  { b with
    pawns := b.pawns ^^^ pieceMask m cap .PAWN,
    knights := b.knights ^^^ pieceMask m cap .KNIGHT,
    bishops := b.bishops ^^^ pieceMask m cap .BISHOP,
    rooks := b.rooks ^^^ pieceMask m cap .ROOK,
    queens := b.queens ^^^ pieceMask m cap .QUEEN,
    kings := b.kings ^^^ pieceMask m cap .KING,
    white := b.white ^^^ colorMask m .WHITE,
    black := b.black ^^^ colorMask m .BLACK }

/-- Modelled from the spec: the castling rights that survive a move touching square `s`
(standard chess rules: a move from or to e1 or e8 ends both rights of that side, a move from
or to a corner ends the right of that corner). -/
def castleKeep (s : Nat) : Nat :=
  if s = 4 then 12
  else if s = 60 then 3
  else if s = 0 then 13
  else if s = 7 then 14
  else if s = 56 then 7
  else if s = 63 then 11
  else 15

/-- Modelled from the spec: `MakeMove(b, u, m)`, which the sources only call. The board is
changed to reflect playing `m`, the side is flipped, the castling rights and the en-passant
square (the square passed over by a DOUBLE_PUSH, the sentinel otherwise) are updated, and the
undo record keeps the previous rights, en-passant square and side with the captured kind. -/
def MakeMoveSpec (b : Board) (m : Move) : Board × Undo :=
  let cap := capturedKind b m
  ({ b.toggle m cap with
      side := b.side.opp,
      castle := (b.castle &&& castleKeep m.from_) &&& castleKeep m.dest,
      ep := if m.type = .DOUBLE_PUSH then (m.from_ + m.dest) / 2 else INVALID },
   { castle := b.castle, ep := b.ep, side := b.side, captured := cap, piece := m.piece })

/-- Modelled from the spec: `UnmakeMove(b, u, m)`, which the sources only call: the squares
changed by the matching `MakeMove` are flipped back and the side, castling rights and
en-passant square are taken from the undo record. -/
def UnmakeMoveSpec (b : Board) (u : Undo) (m : Move) : Board :=
  { b.toggle m u.captured with side := u.side, castle := u.castle, ep := u.ep }

/-- The environment `env` with make and unmake replaced by the model of the specification. -/
def withSpecMoves (env : Env) : Env :=
  { env with MakeMove := MakeMoveSpec, UnmakeMove := UnmakeMoveSpec }

/-- Modelled from the spec: the perft node count, the number of lines of `d` legal moves from
`b` (the driver that computes it is not among the sources). -/
def perft (env : Env) : Nat → Board → Nat
  | 0, _ => 1
  | d + 1, b =>
    ((GenerateQuiets env b (GenerateCaptures env b [])).map (fun m =>
      if IsIllegal (env.MakeMove b m).1 then 0 else perft env d (env.MakeMove b m).1)).sum

/-! ## Concrete chess positions -/

/-- The bitboard holding the listed squares. -/
def bitsOf (l : List Nat) : Nat := l.foldr (fun s acc => 2 ^ s ||| acc) 0

/-- The concrete environment `env0` with make and unmake as modelled from the specification. -/
def env1 : Env := withSpecMoves env0

/-- The environment `env1` in which every uninitialised `childpv` holds the count 1000. -/
def envG : Env := { env1 with stackPV := fun _ => ⟨1000, fun _ => nullMove⟩ }

/-- The standard initial position: white to move, all four castling rights, no en-passant
square. -/
def startpos : Board :=
  { pawns := 0x00FF00000000FF00, knights := 0x4200000000000042,
    bishops := 0x2400000000000024, rooks := 0x8100000000000081,
    queens := 0x0800000000000008, kings := 0x1000000000000010,
    white := 0x000000000000FFFF, black := 0xFFFF000000000000,
    side := .WHITE, castle := 15, ep := INVALID }

/-- The position `8/8/8/8/8/4k3/4q3/4K3 w - -`: white king e1, black queen e2, black king e3,
white to move. -/
def matePos : Board :=
  { pawns := 0, knights := 0, bishops := 0, rooks := 0, queens := 2 ^ 12,
    kings := 2 ^ 4 ||| 2 ^ 20, white := 2 ^ 4, black := 2 ^ 12 ||| 2 ^ 20,
    side := .WHITE, castle := 0, ep := INVALID }

/-- The position `7k/8/6KP/8/8/8/8/8 w - -`: white king g6, white pawn h6, black king h8,
white to move; the pawn push to h7 stalemates black. -/
def stalePos : Board :=
  { pawns := 2 ^ 47, knights := 0, bishops := 0, rooks := 0, queens := 0,
    kings := 2 ^ 46 ||| 2 ^ 63, white := 2 ^ 46 ||| 2 ^ 47, black := 2 ^ 63,
    side := .WHITE, castle := 0, ep := INVALID }

/-- A hint for the initial position: the double push of the e-pawn, e2 to e4. -/
def hintE4 : Move :=
  { from_ := 12, dest := 28, type := .DOUBLE_PUSH, prom := .NO_PIECE, color := .WHITE,
    piece := .PAWN, score := 0 }

/-! ## Notions used in the statements -/

/-- The square `d` lies on the last rank of colour `c`: rank 8 for white, rank 1 for black. -/
def onLastRank (c : Color) (d : Nat) : Prop :=
  match c with
  | .WHITE => d / 8 = 7
  | .BLACK => d / 8 = 0

instance (c : Color) (d : Nat) : Decidable (onLastRank c d) := by
  unfold onLastRank
  cases c <;> infer_instance

/-- The four moves that the promotion loops write for one pawn step from `f` to `d`, in the
order of the four `AddMove` calls: QUEEN, ROOK, BISHOP, KNIGHT. -/
def promotionMoves (env : Env) (b : Board) (f d : Nat) (t : MoveType) (c : Color) : List Move :=
  [mkMove env b f d t .QUEEN c .PAWN, mkMove env b f d t .ROOK c .PAWN,
    mkMove env b f d t .BISHOP c .PAWN, mkMove env b f d t .KNIGHT c .PAWN]

/-- The square `d` is one step ahead of `f` for a pawn of colour `c`. -/
def pawnStep (c : Color) (f d : Nat) : Prop :=
  match c with
  | .WHITE => d = f + 8
  | .BLACK => f = d + 8

instance (c : Color) (f d : Nat) : Decidable (pawnStep c f d) := by
  unfold pawnStep
  cases c <;> infer_instance

/-! ## Lines of play -/

/-- The PST difference that `MoveValue` takes as the base score of a move: the table entry of
the moving piece on `dest` minus its entry on `from`, the squares mirrored for black. -/
def pstDelta (env : Env) (b : Board) (m : Move) : Int :=
  if b.side = .WHITE then env.pst m.piece (m.dest &&& 63) - env.pst m.piece (m.from_ &&& 63)
  else env.pst m.piece ((m.dest &&& 63) ^^^ 56) - env.pst m.piece ((m.from_ &&& 63) ^^^ 56)

/-- The environment `env1` with the usual material values in `piecevals` (pawn 100, knight and
bishop 300, rook 500, queen 900) and a PST that is 0 everywhere. -/
def envV : Env :=
  { env1 with
    piecevals := fun k =>
      match k with
      | .PAWN => 100
      | .KNIGHT => 300
      | .BISHOP => 300
      | .ROOK => 500
      | .QUEEN => 900
      | _ => 0 }

/-- The environment `envV` with a PST that gives a knight 10 points per rank (seen from the
side to move) and nothing to the other pieces. -/
def envP : Env :=
  { envV with pst := fun k s => if k = .KNIGHT then 10 * ((s / 8 : Nat) : Int) else 0 }

/-- White: king e1, knight c3, pawn e4; black: king e8, pawn d5; white to move. The pawn on
d5 can be taken by the pawn and by the knight. -/
def lvaPos : Board :=
  { pawns := bitsOf [28, 35], knights := bitsOf [18], bishops := 0, rooks := 0, queens := 0,
    kings := bitsOf [4, 60], white := bitsOf [4, 18, 28], black := bitsOf [35, 60],
    side := .WHITE, castle := 0, ep := INVALID }

/-- White: king e1, knight f3, pawn e5; black: king e8, pawns d5 and g5; white to move, the
black d-pawn has just advanced two squares (en-passant square d6). The pawn on d5 can be taken
en passant, the pawn on g5 by the knight. -/
def epPos : Board :=
  { pawns := bitsOf [35, 36, 38], knights := bitsOf [21], bishops := 0, rooks := 0,
    queens := 0, kings := bitsOf [4, 60], white := bitsOf [4, 21, 36],
    black := bitsOf [35, 38, 60], side := .WHITE, castle := 0, ep := 43 }

/-! ## Reference: negamax without pruning

The plain recursion that the search is compared with: no window and no cutoff, the moves
taken in generation order, stand-pat quiescence at the leaves, and `-MATE + ply` or 0 at a
position without a legal move. Boards are passed by value, so nothing is unmade. -/

/-- The loop of the reference quiescence: the best of `acc` and the negated values of the
positions after the legal moves of the list; `self` is the recursive call. -/
def quiesRefLoop (env : Env) (self : Board → Option Int) :
    List Move → Board → Int → Option Int
  | [], _, acc => some acc
  | m :: ms, b, acc =>
    if IsIllegal (env.MakeMove b m).1 then quiesRefLoop env self ms b acc
    else
      match self (env.MakeMove b m).1 with
      | none => none
      | some v => quiesRefLoop env self ms b (max acc (-v))

/-- The reference quiescence value: the maximum of the static evaluation (stand pat) and the
negated values of the positions after the legal captures. The first argument bounds the
nesting of the recursion, as in `Quies`. -/
def quiesRef (env : Env) : Nat → Board → Option Int
  | 0, _ => none
  | n + 1, b => quiesRefLoop env (quiesRef env n) (GenerateCaptures env b []) b (env.Eval b)

/-- The loop of the reference negamax: the best negated value of the positions after the
legal moves of the list, `none` as long as no legal move has been met. -/
def negamaxLoop (env : Env) (self : Board → Option Int) :
    List Move → Board → Option Int → Option (Option Int)
  | [], _, best => some best
  | m :: ms, b, best =>
    if IsIllegal (env.MakeMove b m).1 then negamaxLoop env self ms b best
    else
      match self (env.MakeMove b m).1 with
      | none => none
      | some v =>
        negamaxLoop env self ms b
          (some (match best with
            | none => -v
            | some a => max a (-v)))

/-- The reference value of `b` at remaining depth `d`: the quiescence value at depth 0;
otherwise `-MATE + ply` or 0 when there is no legal move, and the maximum of the negated
values of the positions after the legal moves when there is one. -/
def negamax (env : Env) (qfuel : Nat) : Nat → Board → Int → Option Int
  | 0, b, _ => quiesRef env qfuel b
  | d + 1, b, ply =>
    match negamaxLoop env (fun b1 => negamax env qfuel d b1 (ply + 1))
        (GenerateQuiets env b (GenerateCaptures env b [])) b none with
    | none => none
    | some none => some (if IsInCheck b then -env.MATE + ply else 0)
    | some (some v) => some v

/-- The value `v` clamped into the window `[alpha, beta]`. -/
def clamp (alpha beta v : Int) : Int := max alpha (min beta v)

/-- An evaluation for the examples: the material balance (pawn 100, knight and bishop 300,
rook 500, queen 900) seen from the side to move. -/
def materialEval (b : Board) : Int :=
  let count := fun (c : Nat) =>
    (100 * popcount (b.pawns &&& c) + 300 * popcount (b.knights &&& c) +
      300 * popcount (b.bishops &&& c) + 500 * popcount (b.rooks &&& c) +
      900 * popcount (b.queens &&& c) : Nat)
  if b.side = .WHITE then (count b.white : Int) - (count b.black : Int)
  else (count b.black : Int) - (count b.white : Int)

/-- The environment `envV` with the material balance as evaluation. -/
def envM : Env := { envV with Eval := materialEval }

/-! ## The search with the arithmetic of `int`

`Quies` and `Search` above compute with unbounded integers. The definitions below repeat
them with every `int` operation of `search.c` reduced to 32 bits in two's complement: the
negations `-beta`, `-alpha`, `-Quies(..)`, `-Search(..)`, `-MATE`, the sums `-MATE + ply` and
`ply + 1`, and the increments of the counters. -/

/-- The value of type `int` (32 bits, two's complement) that an integer wraps to. -/
def wrap32 (x : Int) : Int := (x + 2147483648) % 4294967296 - 2147483648

/-- Unary minus on `int`: `-INT_MIN` is `INT_MIN`. -/
def neg32 (x : Int) : Int := wrap32 (-x)

/-- The largest `int`. -/
def INT_MAX : Int := 2147483647

/-- The smallest `int`. -/
def INT_MIN : Int := -2147483648

/-- An `int` whose negation is again an `int`: every `int` but `INT_MIN`. -/
def negatable (x : Int) : Prop := -INT_MAX ≤ x ∧ x ≤ INT_MAX

instance (x : Int) : Decidable (negatable x) := by
  unfold negatable
  infer_instance

/-- The `while` loop of `Quies` with `int` arithmetic; `self` is the recursive call. -/
def quiesLoop32 (env : Env) (self : Board → Int → Int → Counters → Option QOut) :
    List Move → Board → Int → Int → Counters → Option QOut
  | [], b, alpha, _, c => some ⟨alpha, b, c⟩
  | m :: ms, b, alpha, beta, c =>
    let bu := env.MakeMove b m
    if IsIllegal bu.1 then
      quiesLoop32 env self ms (env.UnmakeMove bu.1 bu.2 m) alpha beta c
    else
      match self bu.1 (neg32 beta) (neg32 alpha) c with
      | none => none
      | some r =>
        let val := neg32 r.val
        let b1 := env.UnmakeMove r.board bu.2 m
        if val ≥ beta then some ⟨beta, b1, r.ctr⟩
        else if val > alpha then quiesLoop32 env self ms b1 val beta r.ctr
        else quiesLoop32 env self ms b1 alpha beta r.ctr

/-- The function `Quies(b, alpha, beta)` with `int` arithmetic. The first argument bounds the
nesting of the recursion. -/
def Quies32 (env : Env) : Nat → Board → Int → Int → Counters → Option QOut
  | 0, _, _, _, _ => none
  | n + 1, b, alpha, beta, c =>
    let c := { c with nodes := wrap32 (c.nodes + 1) }
    let val := env.Eval b
    if val ≥ beta then some ⟨beta, b, c⟩
    else
      let alpha := if val > alpha then val else alpha
      let s := InitSortQuies env b
      quiesLoop32 env (Quies32 env n) s.yield b alpha beta c

/-- The `while` loop of `Search` and the code after it, with `int` arithmetic; `self` is the
recursive call at `depth - 1` and `ply + 1`. -/
def searchLoop32 (env : Env) (self : Board → Int → Int → PV → Counters → Option SOut)
    (ply : Int) : List Move → Board → Int → Int → Nat → PV → PV → Counters → Option SOut
  | [], b, alpha, _, moves, pv, _, c =>
    if moves = 0 then
      if IsInCheck b then some ⟨wrap32 (neg32 env.MATE + ply), b, pv, c⟩
      else some ⟨0, b, pv, c⟩
    else some ⟨alpha, b, pv, c⟩
  | m :: ms, b, alpha, beta, moves, pv, childpv, c =>
    let bu := env.MakeMove b m
    if IsIllegal bu.1 then
      searchLoop32 env self ply ms (env.UnmakeMove bu.1 bu.2 m) alpha beta moves pv childpv c
    else
      let moves := moves + 1
      match self bu.1 (neg32 beta) (neg32 alpha) childpv c with
      | none => none
      | some r =>
        let val := neg32 r.val
        let b1 := env.UnmakeMove r.board bu.2 m
        if val ≥ beta then
          some ⟨beta, b1, pv,
            { r.ctr with
              first := if moves = 1 then wrap32 (r.ctr.first + 1) else r.ctr.first,
              cuts := wrap32 (r.ctr.cuts + 1) }⟩
        else if val > alpha then
          searchLoop32 env self ply ms b1 val beta moves (pv.update m r.pv) r.pv r.ctr
        else searchLoop32 env self ply ms b1 alpha beta moves pv r.pv r.ctr

/-- The function `Search(b, depth, alpha, beta, ply, pv)` with `int` arithmetic, for a depth
that is not negative. The first argument is the nesting budget handed to `Quies32`. -/
def Search32 (env : Env) (qfuel : Nat) :
    Nat → Board → Int → Int → Int → PV → Counters → Option SOut
  | 0, b, alpha, beta, _, pv, c =>
    match Quies32 env qfuel b alpha beta { c with nodes := wrap32 (c.nodes + 1) } with
    | none => none
    | some q => some ⟨q.val, q.board, { pv with count := 0 }, q.ctr⟩
  | d + 1, b, alpha, beta, ply, pv, c =>
    let s := InitSort env b nullMove
    searchLoop32 env
      (fun b1 a1 be1 cpv c1 => Search32 env qfuel d b1 a1 be1 (wrap32 (ply + 1)) cpv c1)
      ply s.yield b alpha beta 0 pv (env.stackPV ply) { c with nodes := wrap32 (c.nodes + 1) }

/-- What a caller of `Search` observes apart from the counters: the value, the board and the
PV. -/
def SOut.core (r : SOut) : Int × Board × PV := (r.val, r.board, r.pv)

/-- What a caller of `Quies` observes apart from the counters: the value and the board. -/
def QOut.core (r : QOut) : Int × Board := (r.val, r.board)

/-! ## The positions a search visits -/

/-- The part of the data-model invariants that the capture search relies on: 64-bit
bitboards, and an en-passant square that, when set, lies behind a piece of the side that is
not to move. -/
def Board.epOk (b : Board) : Prop :=
  b.ok ∧
  (b.ep ≠ INVALID →
    (b.colors b.side.opp).testBit
      (match b.side with
        | .WHITE => b.ep - 8
        | .BLACK => b.ep + 8) = true)

instance (b : Board) : Decidable b.epOk := by
  unfold Board.epOk
  infer_instance

/-- The number of pieces on the board: the white squares plus the black squares. -/
def pieceCount (b : Board) : Nat := popcount b.white + popcount b.black

/-! # Theorems -/

/-! ## Bit-level lemmas -/

theorem and_ne_zero_iff (x y : Nat) :
    x &&& y ≠ 0 ↔ ∃ i, x.testBit i = true ∧ y.testBit i = true := by
  constructor
  · intro h
    obtain ⟨i, hi⟩ := Nat.ne_zero_implies_bit_true h
    rw [Nat.testBit_and, Bool.and_eq_true] at hi
    exact ⟨i, hi⟩
  · rintro ⟨i, hx, hy⟩ h0
    have : (x &&& y).testBit i = true := by
      rw [Nat.testBit_and, hx, hy]; rfl
    rw [h0, Nat.zero_testBit] at this
    exact Bool.false_ne_true this

theorem lt_of_testBit {x n i : Nat} (hx : x < 2 ^ n) (hi : x.testBit i = true) : i < n := by
  by_contra hn
  have h2 : x < 2 ^ i := lt_of_lt_of_le hx (Nat.pow_le_pow_right (by decide) (by omega))
  rw [Nat.testBit_lt_two_pow h2] at hi
  exact Bool.false_ne_true hi

theorem onBoard_iff (f r : Int) : onBoard f r = true ↔ 0 ≤ f ∧ f < 8 ∧ 0 ≤ r ∧ r < 8 := by
  simp [onBoard, and_assoc]

theorem testBit_bitAt (f r : Int) (q : Nat) :
    (bitAt f r).testBit q = true ↔ onBoard f r = true ∧ q = sqOf f r := by
  unfold bitAt
  by_cases h : onBoard f r = true
  · simp [h, Nat.testBit_two_pow, eq_comm]
  · simp [h]

theorem fileOf_sqOf {f r : Int} (h : onBoard f r = true) : fileOf (sqOf f r) = f := by
  rw [onBoard_iff] at h
  unfold fileOf sqOf
  omega

theorem rankOf_sqOf {f r : Int} (h : onBoard f r = true) : rankOf (sqOf f r) = r := by
  rw [onBoard_iff] at h
  unfold rankOf sqOf
  omega

theorem sqOf_lt {f r : Int} (h : onBoard f r = true) : sqOf f r < 64 := by
  rw [onBoard_iff] at h
  unfold sqOf
  omega

theorem sqOf_coords (s : Nat) : sqOf (fileOf s) (rankOf s) = s := by
  unfold fileOf rankOf sqOf
  omega

theorem onBoard_coords {s : Nat} (h : s < 64) : onBoard (fileOf s) (rankOf s) = true := by
  rw [onBoard_iff]
  unfold fileOf rankOf
  omega

/-! ## The attack tables are symmetric -/

theorem ray_testBit (occ : Nat) (df dr : Int) (n : Nat) (f r : Int) (q : Nat) :
    (ray occ df dr n f r).testBit q = true ↔
      ∃ k : Nat, 1 ≤ k ∧ k ≤ n ∧ q = sqOf (f + k * df) (r + k * dr) ∧
        (∀ j : Nat, 1 ≤ j → j ≤ k → onBoard (f + j * df) (r + j * dr) = true) ∧
        (∀ j : Nat, 1 ≤ j → j < k → occ.testBit (sqOf (f + j * df) (r + j * dr)) = false) := by
  induction n generalizing f r with
  | zero =>
    simp only [ray, Nat.zero_testBit]
    constructor
    · intro h; exact absurd h Bool.false_ne_true
    · rintro ⟨k, h1, h2, _⟩; omega
  | succ n ih =>
    have step : ∀ j : Nat, f + df + (j : Int) * df = f + ((j + 1 : Nat) : Int) * df := by
      intro j; push_cast; ring
    have step2 : ∀ j : Nat, r + dr + (j : Int) * dr = r + ((j + 1 : Nat) : Int) * dr := by
      intro j; push_cast; ring
    have one1 : f + ((1 : Nat) : Int) * df = f + df := by simp
    have one2 : r + ((1 : Nat) : Int) * dr = r + dr := by simp
    unfold ray
    by_cases hb : onBoard (f + df) (r + dr) = true
    · rw [if_pos hb]
      by_cases ho : occ.testBit (sqOf (f + df) (r + dr)) = true
      · rw [if_pos ho, Nat.testBit_two_pow]
        constructor
        · intro h
          have hq : sqOf (f + df) (r + dr) = q := by simpa using h
          refine ⟨1, le_refl _, by omega, ?_, ?_, ?_⟩
          · rw [one1, one2]; exact hq.symm
          · intro j hj1 hj2
            have : j = 1 := by omega
            subst this; rw [one1, one2]; exact hb
          · intro j hj1 hj2; omega
        · rintro ⟨k, hk1, hk2, hq, hon, hclr⟩
          by_cases hk : k = 1
          · subst hk; rw [one1, one2] at hq; simp [hq]
          · have := hclr 1 (le_refl _) (by omega)
            rw [one1, one2, ho] at this
            exact absurd this (by simp)
      · rw [if_neg ho, Nat.testBit_or, Bool.or_eq_true, Nat.testBit_two_pow, ih]
        constructor
        · rintro (h | ⟨k, hk1, hk2, hq, hon, hclr⟩)
          · have hq : sqOf (f + df) (r + dr) = q := by simpa using h
            refine ⟨1, le_refl _, by omega, ?_, ?_, ?_⟩
            · rw [one1, one2]; exact hq.symm
            · intro j hj1 hj2
              have : j = 1 := by omega
              subst this; rw [one1, one2]; exact hb
            · intro j hj1 hj2; omega
          · refine ⟨k + 1, by omega, by omega, ?_, ?_, ?_⟩
            · rw [← step, ← step2]; exact hq
            · intro j hj1 hj2
              obtain ⟨i, rfl⟩ : ∃ i, j = i + 1 := ⟨j - 1, by omega⟩
              rw [← step, ← step2]
              by_cases hi : i = 0
              · subst hi; simpa using hb
              · exact hon i (by omega) (by omega)
            · intro j hj1 hj2
              obtain ⟨i, rfl⟩ : ∃ i, j = i + 1 := ⟨j - 1, by omega⟩
              rw [← step, ← step2]
              by_cases hi : i = 0
              · subst hi; simpa using ho
              · exact hclr i (by omega) (by omega)
        · rintro ⟨k, hk1, hk2, hq, hon, hclr⟩
          by_cases hk : k = 1
          · subst hk; rw [one1, one2] at hq; left; simp [hq]
          · right
            obtain ⟨i, rfl⟩ : ∃ i, k = i + 1 := ⟨k - 1, by omega⟩
            refine ⟨i, by omega, by omega, ?_, ?_, ?_⟩
            · rw [step, step2]; exact hq
            · intro j hj1 hj2
              rw [step, step2]; exact hon (j + 1) (by omega) (by omega)
            · intro j hj1 hj2
              rw [step, step2]; exact hclr (j + 1) (by omega) (by omega)
    · rw [if_neg hb, Nat.zero_testBit]
      constructor
      · intro h; exact absurd h Bool.false_ne_true
      · rintro ⟨k, hk1, hk2, hq, hon, hclr⟩
        have := hon 1 (le_refl _) hk1
        rw [one1, one2] at this
        exact absurd this hb

theorem ray_lt (occ : Nat) (df dr : Int) (n : Nat) (f r : Int) (q : Nat)
    (h : (ray occ df dr n f r).testBit q = true) : q < 64 := by
  rw [ray_testBit] at h
  obtain ⟨k, hk1, _, hq, hon, _⟩ := h
  rw [hq]
  exact sqOf_lt (hon k hk1 (le_refl _))

theorem ray_symm_aux (occ : Nat) (df dr : Int) (s q : Nat) (hs : s < 64)
    (h : (ray occ df dr 7 (fileOf s) (rankOf s)).testBit q = true) :
    (ray occ (-df) (-dr) 7 (fileOf q) (rankOf q)).testBit s = true := by
  rw [ray_testBit] at h ⊢
  obtain ⟨k, hk1, hk2, hq, hon, hclr⟩ := h
  have hfq : fileOf q = fileOf s + k * df := by
    rw [hq]; exact fileOf_sqOf (hon k hk1 (le_refl _))
  have hrq : rankOf q = rankOf s + k * dr := by
    rw [hq]; exact rankOf_sqOf (hon k hk1 (le_refl _))
  have back : ∀ j : Nat, j ≤ k →
      fileOf q + (j : Int) * (-df) = fileOf s + ((k - j : Nat) : Int) * df ∧
      rankOf q + (j : Int) * (-dr) = rankOf s + ((k - j : Nat) : Int) * dr := by
    intro j hj
    rw [hfq, hrq, Nat.cast_sub hj]
    constructor <;> ring
  refine ⟨k, hk1, hk2, ?_, ?_, ?_⟩
  · rw [(back k (le_refl _)).1, (back k (le_refl _)).2]
    simp [sqOf_coords]
  · intro j hj1 hj2
    rw [(back j hj2).1, (back j hj2).2]
    by_cases hjk : j = k
    · subst hjk; simpa using onBoard_coords hs
    · exact hon (k - j) (by omega) (by omega)
  · intro j hj1 hj2
    rw [(back j (by omega)).1, (back j (by omega)).2]
    exact hclr (k - j) (by omega) (by omega)

theorem ray_symm (occ : Nat) (df dr : Int) (s q : Nat) (hs : s < 64) (hq : q < 64) :
    (ray occ df dr 7 (fileOf s) (rankOf s)).testBit q =
      (ray occ (-df) (-dr) 7 (fileOf q) (rankOf q)).testBit s := by
  rw [Bool.eq_iff_iff]
  constructor
  · exact ray_symm_aux occ df dr s q hs
  · intro h
    have := ray_symm_aux occ (-df) (-dr) q s hq h
    simpa using this

theorem BishopAttacks_symm (occ s q : Nat) (hs : s < 64) (hq : q < 64) :
    (BishopAttacks s occ).testBit q = (BishopAttacks q occ).testBit s := by
  unfold BishopAttacks
  simp only [Nat.testBit_or]
  rw [ray_symm occ 1 1 s q hs hq, ray_symm occ 1 (-1) s q hs hq,
    ray_symm occ (-1) 1 s q hs hq, ray_symm occ (-1) (-1) s q hs hq]
  simp only [neg_neg]
  cases (ray occ 1 1 7 (fileOf q) (rankOf q)).testBit s <;>
  cases (ray occ 1 (-1) 7 (fileOf q) (rankOf q)).testBit s <;>
  cases (ray occ (-1) 1 7 (fileOf q) (rankOf q)).testBit s <;>
  cases (ray occ (-1) (-1) 7 (fileOf q) (rankOf q)).testBit s <;> rfl

theorem RookAttacks_symm (occ s q : Nat) (hs : s < 64) (hq : q < 64) :
    (RookAttacks s occ).testBit q = (RookAttacks q occ).testBit s := by
  unfold RookAttacks
  simp only [Nat.testBit_or]
  rw [ray_symm occ 1 0 s q hs hq, ray_symm occ (-1) 0 s q hs hq,
    ray_symm occ 0 1 s q hs hq, ray_symm occ 0 (-1) s q hs hq]
  simp only [neg_neg, neg_zero]
  cases (ray occ 1 0 7 (fileOf q) (rankOf q)).testBit s <;>
  cases (ray occ (-1) 0 7 (fileOf q) (rankOf q)).testBit s <;>
  cases (ray occ 0 1 7 (fileOf q) (rankOf q)).testBit s <;>
  cases (ray occ 0 (-1) 7 (fileOf q) (rankOf q)).testBit s <;> rfl

theorem BishopAttacks_lt (occ s q : Nat) (h : (BishopAttacks s occ).testBit q = true) :
    q < 64 := by
  unfold BishopAttacks at h
  simp only [Nat.testBit_or, Bool.or_eq_true] at h
  rcases h with ((h | h) | h) | h <;> exact ray_lt _ _ _ _ _ _ _ h

theorem RookAttacks_lt (occ s q : Nat) (h : (RookAttacks s occ).testBit q = true) :
    q < 64 := by
  unfold RookAttacks at h
  simp only [Nat.testBit_or, Bool.or_eq_true] at h
  rcases h with ((h | h) | h) | h <;> exact ray_lt _ _ _ _ _ _ _ h

theorem jumpSet_testBit (js : List (Int × Int)) (s q : Nat) :
    (jumpSet js s).testBit q = true ↔
      ∃ j ∈ js, onBoard (fileOf s + j.1) (rankOf s + j.2) = true ∧
        q = sqOf (fileOf s + j.1) (rankOf s + j.2) := by
  unfold jumpSet
  induction js with
  | nil => simp
  | cons j js ih =>
    simp only [List.foldr_cons, Nat.testBit_or, Bool.or_eq_true, ih, testBit_bitAt,
      List.mem_cons, exists_eq_or_imp]

theorem jumpSet_lt (js : List (Int × Int)) (s q : Nat)
    (h : (jumpSet js s).testBit q = true) : q < 64 := by
  rw [jumpSet_testBit] at h
  obtain ⟨j, _, hon, hq⟩ := h
  rw [hq]; exact sqOf_lt hon

theorem PawnAttacks_lt (c : Color) (s q : Nat) (h : (PawnAttacks c s).testBit q = true) :
    q < 64 := by
  unfold PawnAttacks at h
  simp only [Nat.testBit_or, Bool.or_eq_true, testBit_bitAt] at h
  rcases h with ⟨hon, hq⟩ | ⟨hon, hq⟩ <;> (rw [hq]; exact sqOf_lt hon)

theorem KnightAttacks_symm : ∀ s < 64, ∀ q < 64,
    (KnightAttacks s).testBit q = (KnightAttacks q).testBit s := by decide

theorem KingAttacks_symm : ∀ s < 64, ∀ q < 64,
    (KingAttacks s).testBit q = (KingAttacks q).testBit s := by decide

theorem PawnAttacks_symm : ∀ s < 64, ∀ q < 64,
    (PawnAttacks .WHITE s).testBit q = (PawnAttacks .BLACK q).testBit s := by decide

theorem PawnAttacks_opp (c : Color) (s q : Nat) (hs : s < 64) (hq : q < 64) :
    (PawnAttacks c s).testBit q = (PawnAttacks c.opp q).testBit s := by
  cases c
  · exact PawnAttacks_symm s hs q hq
  · exact (PawnAttacks_symm q hq s hs).symm

theorem probe_iff (T T1 : Nat → Nat) (hlt : ∀ s i, (T s).testBit i = true → i < 64)
    (hsym : ∀ s, s < 64 → ∀ q, q < 64 → (T1 s).testBit q = (T q).testBit s)
    (set q : Nat) (hq : q < 64) :
    T q &&& set ≠ 0 ↔ ∃ f, f < 64 ∧ set.testBit f = true ∧ (T1 f).testBit q = true := by
  rw [and_ne_zero_iff]
  constructor
  · rintro ⟨f, h1, h2⟩
    have hf := hlt q f h1
    exact ⟨f, hf, h2, by rw [hsym f hf q hq]; exact h1⟩
  · rintro ⟨f, hf, h2, h3⟩
    exact ⟨f, by rw [← hsym f hf q hq]; exact h3, h2⟩

theorem IsAttacked_eq_true (b : Board) (c : Color) (q : Nat) :
    IsAttacked b c q = true ↔
      PawnAttacks c.opp q &&& (b.pieces .PAWN &&& b.colors c) ≠ 0 ∨
      KnightAttacks q &&& (b.pieces .KNIGHT &&& b.colors c) ≠ 0 ∨
      KingAttacks q &&& (b.pieces .KING &&& b.colors c) ≠ 0 ∨
      BishopAttacks q b.occ &&& ((b.pieces .BISHOP ||| b.pieces .QUEEN) &&& b.colors c) ≠ 0 ∨
      RookAttacks q b.occ &&& ((b.pieces .ROOK ||| b.pieces .QUEEN) &&& b.colors c) ≠ 0 := by
  unfold IsAttacked Board.occ
  simp only []
  split_ifs <;> simp_all

theorem IsAttacked_attacker (b : Board) (c : Color) (q : Nat) (hq : q < 64) :
    IsAttacked b c q = true ↔
      ∃ f, f < 64 ∧ (b.colors c).testBit f = true ∧
        (((b.pieces .PAWN).testBit f = true ∧ (PawnAttacks c f).testBit q = true) ∨
         ((b.pieces .KNIGHT).testBit f = true ∧ (KnightAttacks f).testBit q = true) ∨
         ((b.pieces .KING).testBit f = true ∧ (KingAttacks f).testBit q = true) ∨
         (((b.pieces .BISHOP).testBit f = true ∨ (b.pieces .QUEEN).testBit f = true) ∧
            (BishopAttacks f (b.colors .WHITE ||| b.colors .BLACK)).testBit q = true) ∨
         (((b.pieces .ROOK).testBit f = true ∨ (b.pieces .QUEEN).testBit f = true) ∧
            (RookAttacks f (b.colors .WHITE ||| b.colors .BLACK)).testBit q = true)) := by
  rw [IsAttacked_eq_true,
    probe_iff (PawnAttacks c.opp) (PawnAttacks c) (PawnAttacks_lt c.opp)
      (fun s hs q hq => PawnAttacks_opp c s q hs hq) _ q hq,
    probe_iff KnightAttacks KnightAttacks (jumpSet_lt knightJumps) KnightAttacks_symm _ q hq,
    probe_iff KingAttacks KingAttacks (jumpSet_lt kingSteps) KingAttacks_symm _ q hq,
    probe_iff (fun s => BishopAttacks s b.occ) (fun s => BishopAttacks s b.occ)
      (BishopAttacks_lt b.occ) (fun s hs q hq => BishopAttacks_symm b.occ s q hs hq) _ q hq,
    probe_iff (fun s => RookAttacks s b.occ) (fun s => RookAttacks s b.occ)
      (RookAttacks_lt b.occ) (fun s hs q hq => RookAttacks_symm b.occ s q hs hq) _ q hq]
  simp only [Nat.testBit_and, Nat.testBit_or, Bool.and_eq_true, Bool.or_eq_true, Board.occ]
  constructor
  · rintro (⟨f, hf, ⟨h1, h2⟩, h3⟩ | ⟨f, hf, ⟨h1, h2⟩, h3⟩ | ⟨f, hf, ⟨h1, h2⟩, h3⟩ |
      ⟨f, hf, ⟨h1, h2⟩, h3⟩ | ⟨f, hf, ⟨h1, h2⟩, h3⟩)
    · exact ⟨f, hf, h2, Or.inl ⟨h1, h3⟩⟩
    · exact ⟨f, hf, h2, Or.inr (Or.inl ⟨h1, h3⟩)⟩
    · exact ⟨f, hf, h2, Or.inr (Or.inr (Or.inl ⟨h1, h3⟩))⟩
    · exact ⟨f, hf, h2, Or.inr (Or.inr (Or.inr (Or.inl ⟨h1, h3⟩)))⟩
    · exact ⟨f, hf, h2, Or.inr (Or.inr (Or.inr (Or.inr ⟨h1, h3⟩)))⟩
  · rintro ⟨f, hf, h2, ⟨h1, h3⟩ | ⟨h1, h3⟩ | ⟨h1, h3⟩ | ⟨h1, h3⟩ | ⟨h1, h3⟩⟩
    · exact Or.inl ⟨f, hf, ⟨h1, h2⟩, h3⟩
    · exact Or.inr (Or.inl ⟨f, hf, ⟨h1, h2⟩, h3⟩)
    · exact Or.inr (Or.inr (Or.inl ⟨f, hf, ⟨h1, h2⟩, h3⟩))
    · exact Or.inr (Or.inr (Or.inr (Or.inl ⟨f, hf, ⟨h1, h2⟩, h3⟩)))
    · exact Or.inr (Or.inr (Or.inr (Or.inr ⟨f, hf, ⟨h1, h2⟩, h3⟩)))

/-- C1. For a square `q` below 64, `IsAttacked b c q` holds exactly when some square `f` holds
a piece of colour `c` whose own attack set contains `q`: a pawn with `q` in
`PawnAttacks c f`, a knight with `q` in `KnightAttacks f`, a king with `q` in `KingAttacks f`,
a bishop or queen with `q` in `BishopAttacks f occ`, or a rook or queen with `q` in
`RookAttacks f occ`, where `occ` is the union of the two colour bitboards. -/
theorem IsAttacked_iff_attacker (b : Board) (c : Color) (q : Nat) (hq : q < 64) :
    IsAttacked b c q = true ↔
      ∃ f, f < 64 ∧ (b.colors c).testBit f = true ∧
        (((b.pieces .PAWN).testBit f = true ∧ (PawnAttacks c f).testBit q = true) ∨
         ((b.pieces .KNIGHT).testBit f = true ∧ (KnightAttacks f).testBit q = true) ∨
         ((b.pieces .KING).testBit f = true ∧ (KingAttacks f).testBit q = true) ∨
         (((b.pieces .BISHOP).testBit f = true ∨ (b.pieces .QUEEN).testBit f = true) ∧
            (BishopAttacks f (b.colors .WHITE ||| b.colors .BLACK)).testBit q = true) ∨
         (((b.pieces .ROOK).testBit f = true ∨ (b.pieces .QUEEN).testBit f = true) ∧
            (RookAttacks f (b.colors .WHITE ||| b.colors .BLACK)).testBit q = true)) :=
  IsAttacked_attacker b c q hq

theorem IsAttacked_iff_attacker_witness :
    IsAttacked wboard .WHITE 63 = true ∧
      ∃ f, f < 64 ∧ (wboard.colors .WHITE).testBit f = true ∧
        (((wboard.pieces .PAWN).testBit f = true ∧ (PawnAttacks .WHITE f).testBit 63 = true) ∨
         ((wboard.pieces .KNIGHT).testBit f = true ∧ (KnightAttacks f).testBit 63 = true) ∨
         ((wboard.pieces .KING).testBit f = true ∧ (KingAttacks f).testBit 63 = true) ∨
         (((wboard.pieces .BISHOP).testBit f = true ∨ (wboard.pieces .QUEEN).testBit f = true) ∧
            (BishopAttacks f (wboard.colors .WHITE ||| wboard.colors .BLACK)).testBit 63
              = true) ∨
         (((wboard.pieces .ROOK).testBit f = true ∨ (wboard.pieces .QUEEN).testBit f = true) ∧
            (RookAttacks f (wboard.colors .WHITE ||| wboard.colors .BLACK)).testBit 63
              = true)) :=
  ⟨by decide, (IsAttacked_iff_attacker wboard .WHITE 63 (by decide)).mp (by decide)⟩

theorem lsbFrom_spec (x : Nat) (n i : Nat) :
    i ≤ lsbFrom x n i ∧ lsbFrom x n i ≤ i + n ∧
      (∀ j, i ≤ j → j < lsbFrom x n i → x.testBit j = false) ∧
      (lsbFrom x n i < i + n → x.testBit (lsbFrom x n i) = true) := by
  induction n generalizing i with
  | zero =>
    simp only [lsbFrom]
    exact ⟨le_refl _, by omega, fun j h1 h2 => by omega, fun h => by omega⟩
  | succ n ih =>
    unfold lsbFrom
    by_cases h : x.testBit i = true
    · rw [if_pos h]
      exact ⟨le_refl _, by omega, fun j h1 h2 => by omega, fun _ => h⟩
    · rw [if_neg h]
      obtain ⟨h1, h2, h3, h4⟩ := ih (i + 1)
      refine ⟨by omega, by omega, ?_, fun hlt => h4 (by omega)⟩
      intro j hj1 hj2
      by_cases hji : j = i
      · subst hji; simpa using h
      · exact h3 j (by omega) hj2

theorem lsb_spec {x d : Nat} (hd : x.testBit d = true) (hd64 : d < 64) :
    x.testBit (lsb x) = true ∧ lsb x ≤ d ∧ ∀ j, j < lsb x → x.testBit j = false := by
  obtain ⟨_, _, h3, h4⟩ := lsbFrom_spec x 64 0
  have hle : lsb x ≤ d := by
    by_contra hlt
    have := h3 d (Nat.zero_le _) (by unfold lsb at hlt; omega)
    rw [hd] at this
    exact absurd this (by simp)
  refine ⟨h4 (by unfold lsb at hle; omega), hle, fun j hj => h3 j (Nat.zero_le _) hj⟩

theorem clear_lowest (k : Nat) : ∀ (x i : Nat), x.testBit k = true →
    (∀ j, j < k → x.testBit j = false) →
    (x &&& (x - 1)).testBit i = (x.testBit i && decide (i ≠ k)) := by
  induction k with
  | zero =>
    intro x i hk _
    rw [Nat.testBit_zero] at hk
    have hodd : x % 2 = 1 := by simpa using hk
    rw [Nat.testBit_and]
    cases i with
    | zero =>
      have : (x - 1).testBit 0 = false := by
        rw [Nat.testBit_zero]; simp; omega
      simp [this]
    | succ i =>
      have : (x - 1) / 2 = x / 2 := by omega
      simp [Nat.testBit_succ, this]
  | succ k ih =>
    intro x i hk hlow
    have h0 := hlow 0 (Nat.succ_pos _)
    rw [Nat.testBit_zero] at h0
    have heven : x % 2 = 0 := by
      have : ¬ x % 2 = 1 := by simpa using h0
      omega
    have hpos : x ≠ 0 := by
      rintro rfl
      simp at hk
    rw [Nat.testBit_and]
    cases i with
    | zero =>
      have : x.testBit 0 = false := by rw [Nat.testBit_zero]; simp; omega
      simp [this]
    | succ i =>
      have hx : (x - 1) / 2 = x / 2 - 1 := by omega
      have hk2 : (x / 2).testBit k = true := by rw [← Nat.testBit_succ]; exact hk
      have hlow2 : ∀ j, j < k → (x / 2).testBit j = false := by
        intro j hj; rw [← Nat.testBit_succ]; exact hlow (j + 1) (by omega)
      have := ih (x / 2) i hk2 hlow2
      rw [Nat.testBit_and] at this
      simp only [Nat.testBit_succ, hx, this]
      simp

theorem bitSquares_spec (n : Nat) : ∀ (lo x : Nat),
    (∀ i, x.testBit i = true → lo ≤ i ∧ i < 64) → 64 ≤ lo + n →
    (∀ d, d ∈ bitSquares n x ↔ x.testBit d = true) ∧
      (bitSquares n x).Pairwise (· < ·) := by
  induction n with
  | zero =>
    intro lo x hx hn
    simp only [bitSquares, List.not_mem_nil, false_iff, List.Pairwise.nil, and_true]
    intro d hd
    have := hx d hd
    omega
  | succ n ih =>
    intro lo x hx hn
    unfold bitSquares
    by_cases h0 : x = 0
    · subst h0; simp
    · rw [if_neg h0]
      obtain ⟨j, hj⟩ := Nat.ne_zero_implies_bit_true h0
      obtain ⟨hk, hkj, hlow⟩ := lsb_spec hj (hx j hj).2
      have hclr := fun i => clear_lowest (lsb x) x i hk hlow
      have hx2 : ∀ i, (x &&& (x - 1)).testBit i = true → lsb x + 1 ≤ i ∧ i < 64 := by
        intro i hi
        rw [hclr] at hi
        simp only [Bool.and_eq_true, decide_eq_true_eq] at hi
        have h1 := hx i hi.1
        refine ⟨?_, h1.2⟩
        by_contra hlt
        have := hlow i (by omega)
        rw [hi.1] at this
        exact absurd this (by simp)
      have hlo := (hx _ hk).1
      obtain ⟨ih1, ih2⟩ := ih (lsb x + 1) _ hx2 (by omega)
      constructor
      · intro d
        rw [List.mem_cons, ih1, hclr]
        simp only [Bool.and_eq_true, decide_eq_true_eq]
        constructor
        · rintro (rfl | h)
          · exact hk
          · exact h.1
        · intro h
          by_cases hd : d = lsb x
          · exact Or.inl hd
          · exact Or.inr ⟨h, hd⟩
      · rw [List.pairwise_cons]
        refine ⟨?_, ih2⟩
        intro d hd
        have := (hx2 d ((ih1 d).mp hd)).1
        omega

theorem mem_bitSquares {x : Nat} (hx : x < 2 ^ 64) (d : Nat) :
    d ∈ bitSquares 64 x ↔ x.testBit d = true :=
  (bitSquares_spec 64 0 x (fun _ hi => ⟨Nat.zero_le _, lt_of_testBit hx hi⟩) (by omega)).1 d

theorem bitSquares_sorted {x : Nat} (hx : x < 2 ^ 64) :
    (bitSquares 64 x).Pairwise (· < ·) :=
  (bitSquares_spec 64 0 x (fun _ hi => ⟨Nat.zero_le _, lt_of_testBit hx hi⟩) (by omega)).2

theorem bitSquares_nodup {x : Nat} (hx : x < 2 ^ 64) : (bitSquares 64 x).Nodup :=
  (bitSquares_sorted hx).imp (fun h => Nat.ne_of_lt h)

theorem bitLoop_eq_foldl {σ : Type} (body : Nat → σ → σ) (n x : Nat) (s : σ) :
    bitLoop body n x s = (bitSquares n x).foldl (fun s d => body d s) s := by
  induction n generalizing x s with
  | zero => rfl
  | succ n ih =>
    unfold bitLoop bitSquares
    by_cases h0 : x = 0
    · simp [h0]
    · simp only [if_neg h0, List.foldl_cons]
      exact ih _ _

theorem foldl_append_eq {α β : Type} (g : β → List α) (l : List β) (m : List α) :
    l.foldl (fun s d => s ++ g d) m = m ++ l.flatMap g := by
  induction l generalizing m with
  | nil => simp
  | cons a l ih => simp [ih, List.append_assoc]

theorem bitLoop_append {α : Type} (g : Nat → List α) (n x : Nat) (m : List α) :
    bitLoop (fun d s => s ++ g d) n x m = m ++ (bitSquares n x).flatMap g := by
  rw [bitLoop_eq_foldl, foldl_append_eq]

/-! ## The generators as lists -/

@[simp] theorem mkMove_from (env : Env) (b : Board) (f d : Nat) (t : MoveType) (p : Piece)
    (c : Color) (k : Piece) : (mkMove env b f d t p c k).from_ = f := rfl
@[simp] theorem mkMove_dest (env : Env) (b : Board) (f d : Nat) (t : MoveType) (p : Piece)
    (c : Color) (k : Piece) : (mkMove env b f d t p c k).dest = d := rfl
@[simp] theorem mkMove_type (env : Env) (b : Board) (f d : Nat) (t : MoveType) (p : Piece)
    (c : Color) (k : Piece) : (mkMove env b f d t p c k).type = t := rfl
@[simp] theorem mkMove_prom (env : Env) (b : Board) (f d : Nat) (t : MoveType) (p : Piece)
    (c : Color) (k : Piece) : (mkMove env b f d t p c k).prom = p := rfl
@[simp] theorem mkMove_color (env : Env) (b : Board) (f d : Nat) (t : MoveType) (p : Piece)
    (c : Color) (k : Piece) : (mkMove env b f d t p c k).color = c := rfl
@[simp] theorem mkMove_piece (env : Env) (b : Board) (f d : Nat) (t : MoveType) (p : Piece)
    (c : Color) (k : Piece) : (mkMove env b f d t p c k).piece = k := rfl

theorem addPromotions_eq (env : Env) (b : Board) (m : List Move) (f d : Nat) (t : MoveType)
    (c : Color) :
    addPromotions env b m f d t c =
      m ++ [mkMove env b f d t .QUEEN c .PAWN, mkMove env b f d t .ROOK c .PAWN,
        mkMove env b f d t .BISHOP c .PAWN, mkMove env b f d t .KNIGHT c .PAWN] := by
  simp [addPromotions, AddMove]

theorem genPiece_eq (env : Env) (b : Board) (pcs : Nat) (A : Nat → Nat) (target : Nat)
    (t : MoveType) (k : Piece) (m : List Move) :
    genPiece env b pcs A target t k m =
      m ++ (bitSquares 64 pcs).flatMap (fun f =>
        (bitSquares 64 (A f &&& target)).flatMap (fun d =>
          [mkMove env b f d t .NO_PIECE b.side k])) := by
  unfold genPiece
  simp only [AddMove, bitLoop_append]

theorem genPawnDir_eq (env : Env) (b : Board) (c : Color) (shifted lastRank : Nat)
    (back : Nat → Nat) (m : List Move) :
    genPawnDir env b c shifted lastRank back m =
      m ++ ((bitSquares 64 ((shifted &&& b.colors c.opp) &&& bnot lastRank)).flatMap (fun d =>
          [mkMove env b (back d) d .CAPTURE .NO_PIECE c .PAWN]) ++
        (bitSquares 64 ((shifted &&& b.colors c.opp) &&& lastRank)).flatMap (fun d =>
          [mkMove env b (back d) d .CAPTURE_PROMOTION .QUEEN c .PAWN,
           mkMove env b (back d) d .CAPTURE_PROMOTION .ROOK c .PAWN,
           mkMove env b (back d) d .CAPTURE_PROMOTION .BISHOP c .PAWN,
           mkMove env b (back d) d .CAPTURE_PROMOTION .KNIGHT c .PAWN])) := by
  unfold genPawnDir
  simp only [AddMove, addPromotions_eq, bitLoop_append, List.append_assoc]

theorem genEnPassant_eq (env : Env) (b : Board) (c : Color) (m : List Move) :
    genEnPassant env b c m =
      m ++ (if b.ep ≠ INVALID ∧ b.ep ≤ 63 then
        (bitSquares 64 ((PawnAttacks c.opp b.ep &&& b.pieces .PAWN) &&& b.colors c)).flatMap
          (fun f => [mkMove env b f b.ep .ENPASSANT .NO_PIECE c .PAWN])
        else []) := by
  unfold genEnPassant
  split_ifs
  · simp only [AddMove, bitLoop_append]
  · simp

/-! ## Masks, shifts and bounds -/

theorem testBit_bnot (x i : Nat) : (bnot x).testBit i = (decide (i < 64) && !x.testBit i) := by
  unfold bnot
  rw [Nat.testBit_mod_two_pow, Nat.testBit_xor, Nat.testBit_two_pow_sub_one]
  by_cases h : i < 64 <;> simp [h]

theorem testBit_shl (x k i : Nat) :
    (shl x k).testBit i = (decide (i < 64) && (decide (k ≤ i) && x.testBit (i - k))) := by
  unfold shl
  rw [Nat.testBit_mod_two_pow, Nat.testBit_shiftLeft]

theorem testBit_shr (x k i : Nat) : (shr x k).testBit i = x.testBit (k + i) := by
  unfold shr
  rw [Nat.testBit_shiftRight]

theorem bnot_lt (x : Nat) : bnot x < 2 ^ 64 := Nat.mod_lt _ (by decide)

theorem shl_lt (x k : Nat) : shl x k < 2 ^ 64 := Nat.mod_lt _ (by decide)

theorem and_lt_left {x : Nat} (y : Nat) (h : x < 2 ^ 64) : x &&& y < 2 ^ 64 :=
  lt_of_le_of_lt Nat.and_le_left h

theorem and_lt_right (x : Nat) {y : Nat} (h : y < 2 ^ 64) : x &&& y < 2 ^ 64 :=
  lt_of_le_of_lt Nat.and_le_right h

theorem shr_lt {x : Nat} (k : Nat) (h : x < 2 ^ 64) : shr x k < 2 ^ 64 := by
  apply Nat.lt_pow_two_of_testBit
  intro i hi
  rw [testBit_shr]
  exact Nat.testBit_lt_two_pow (lt_of_lt_of_le h (Nat.pow_le_pow_right (by decide) (by omega)))

theorem lt_of_bits {x : Nat} (h : ∀ i, x.testBit i = true → i < 64) : x < 2 ^ 64 := by
  apply Nat.lt_pow_two_of_testBit
  intro i hi
  by_contra hne
  have := h i (by simpa using hne)
  omega

theorem mask_testBit {M : Nat} {P : Nat → Prop} [DecidablePred P] (hM : M < 2 ^ 64)
    (h : ∀ i, i < 64 → M.testBit i = decide (P i)) (i : Nat) :
    M.testBit i = decide (i < 64 ∧ P i) := by
  by_cases hi : i < 64
  · rw [h i hi]; simp [hi]
  · have : M.testBit i = false :=
      Nat.testBit_lt_two_pow (lt_of_lt_of_le hM (Nat.pow_le_pow_right (by decide) (by omega)))
    simp [this, hi]

theorem testBit_FileAMask (i : Nat) : FileAMask.testBit i = decide (i < 64 ∧ i % 8 = 0) :=
  mask_testBit (P := fun i => i % 8 = 0) (by decide) (by decide) i

theorem testBit_FileHMask (i : Nat) : FileHMask.testBit i = decide (i < 64 ∧ i % 8 = 7) :=
  mask_testBit (P := fun i => i % 8 = 7) (by decide) (by decide) i

theorem testBit_Rank1Mask (i : Nat) : Rank1Mask.testBit i = decide (i < 64 ∧ i / 8 = 0) :=
  mask_testBit (P := fun i => i / 8 = 0) (by decide) (by decide) i

theorem testBit_Rank8Mask (i : Nat) : Rank8Mask.testBit i = decide (i < 64 ∧ i / 8 = 7) :=
  mask_testBit (P := fun i => i / 8 = 7) (by decide) (by decide) i

theorem testBit_one_shl (k i : Nat) : (shl 1 k).testBit i = decide (i = k ∧ k < 64) := by
  rw [testBit_shl]
  by_cases h : i = k
  · subst h; by_cases h2 : i < 64 <;> simp [h2]
  · by_cases h2 : k ≤ i
    · have : i - k ≠ 0 := by omega
      obtain ⟨j, hj⟩ : ∃ j, i - k = j + 1 := ⟨i - k - 1, by omega⟩
      simp [h, h2, hj, Nat.testBit_succ]
    · simp [h, h2]

theorem one_shl_and_ne_zero (k x : Nat) :
    shl 1 k &&& x ≠ 0 ↔ k < 64 ∧ x.testBit k = true := by
  rw [and_ne_zero_iff]
  simp only [testBit_one_shl, decide_eq_true_eq]
  constructor
  · rintro ⟨i, ⟨rfl, h⟩, h2⟩; exact ⟨h, h2⟩
  · rintro ⟨h, h2⟩; exact ⟨k, ⟨rfl, h⟩, h2⟩

theorem jumpSet_lt_pow (js : List (Int × Int)) (s : Nat) : jumpSet js s < 2 ^ 64 :=
  lt_of_bits (jumpSet_lt js s)

theorem PawnAttacks_lt_pow (c : Color) (s : Nat) : PawnAttacks c s < 2 ^ 64 :=
  lt_of_bits (PawnAttacks_lt c s)

theorem BishopAttacks_lt_pow (s occ : Nat) : BishopAttacks s occ < 2 ^ 64 :=
  lt_of_bits (BishopAttacks_lt occ s)

theorem RookAttacks_lt_pow (s occ : Nat) : RookAttacks s occ < 2 ^ 64 :=
  lt_of_bits (RookAttacks_lt occ s)

theorem QueenAttacks_lt_pow (s occ : Nat) : QueenAttacks s occ < 2 ^ 64 := by
  apply lt_of_bits
  intro i hi
  unfold QueenAttacks at hi
  rw [Nat.testBit_or, Bool.or_eq_true] at hi
  rcases hi with h | h
  · exact BishopAttacks_lt occ s i h
  · exact RookAttacks_lt occ s i h

theorem PawnAttacks_white : ∀ f, f < 64 → ∀ d, d < 64 →
    (PawnAttacks .WHITE f).testBit d =
      decide ((d = f + 7 ∧ f % 8 ≠ 0) ∨ (d = f + 9 ∧ f % 8 ≠ 7)) := by decide

theorem PawnAttacks_black : ∀ f, f < 64 → ∀ d, d < 64 →
    (PawnAttacks .BLACK f).testBit d =
      decide ((f = d + 9 ∧ f % 8 ≠ 0) ∨ (f = d + 7 ∧ f % 8 ≠ 7)) := by decide

/-! ## Membership in the generated lists -/

theorem mem_genPiece (env : Env) (b : Board) (pcs : Nat) (A : Nat → Nat) (target : Nat)
    (t : MoveType) (k : Piece) (hp : pcs < 2 ^ 64) (hA : ∀ f, A f < 2 ^ 64) (x : Move) :
    x ∈ genPiece env b pcs A target t k [] ↔
      ∃ f d, pcs.testBit f = true ∧ (A f).testBit d = true ∧ target.testBit d = true ∧
        x = mkMove env b f d t .NO_PIECE b.side k := by
  rw [genPiece_eq]
  simp only [List.nil_append, List.mem_flatMap, List.mem_singleton]
  constructor
  · rintro ⟨f, hf, d, hd, rfl⟩
    rw [mem_bitSquares hp] at hf
    rw [mem_bitSquares (and_lt_left _ (hA f)), Nat.testBit_and, Bool.and_eq_true] at hd
    exact ⟨f, d, hf, hd.1, hd.2, rfl⟩
  · rintro ⟨f, d, hf, h1, h2, rfl⟩
    refine ⟨f, (mem_bitSquares hp f).mpr hf, d, ?_, rfl⟩
    rw [mem_bitSquares (and_lt_left _ (hA f)), Nat.testBit_and, h1, h2]
    rfl

theorem mem_genPawnDir (env : Env) (b : Board) (c : Color) (shifted lastRank : Nat)
    (back : Nat → Nat) (hs : shifted < 2 ^ 64) (x : Move) :
    x ∈ genPawnDir env b c shifted lastRank back [] ↔
      ∃ d, shifted.testBit d = true ∧ (b.colors c.opp).testBit d = true ∧
        ((lastRank.testBit d = false ∧
            x = mkMove env b (back d) d .CAPTURE .NO_PIECE c .PAWN) ∨
         (lastRank.testBit d = true ∧
            (x = mkMove env b (back d) d .CAPTURE_PROMOTION .QUEEN c .PAWN ∨
             x = mkMove env b (back d) d .CAPTURE_PROMOTION .ROOK c .PAWN ∨
             x = mkMove env b (back d) d .CAPTURE_PROMOTION .BISHOP c .PAWN ∨
             x = mkMove env b (back d) d .CAPTURE_PROMOTION .KNIGHT c .PAWN))) := by
  rw [genPawnDir_eq]
  have h1 : (shifted &&& b.colors c.opp) &&& bnot lastRank < 2 ^ 64 :=
    and_lt_left _ (and_lt_left _ hs)
  have h2 : (shifted &&& b.colors c.opp) &&& lastRank < 2 ^ 64 :=
    and_lt_left _ (and_lt_left _ hs)
  simp only [List.nil_append, List.mem_append, List.mem_flatMap, mem_bitSquares h1,
    mem_bitSquares h2, Nat.testBit_and, testBit_bnot, Bool.and_eq_true, decide_eq_true_eq,
    Bool.not_eq_true', List.mem_cons, List.mem_singleton, List.not_mem_nil, or_false]
  constructor
  · rintro (⟨d, ⟨⟨hd1, hd2⟩, _, hd3⟩, rfl⟩ | ⟨d, ⟨⟨hd1, hd2⟩, hd3⟩, hx⟩)
    · exact ⟨d, hd1, hd2, Or.inl ⟨hd3, rfl⟩⟩
    · exact ⟨d, hd1, hd2, Or.inr ⟨hd3, hx⟩⟩
  · rintro ⟨d, hd1, hd2, ⟨hd3, rfl⟩ | ⟨hd3, hx⟩⟩
    · exact Or.inl ⟨d, ⟨⟨hd1, hd2⟩, lt_of_testBit hs hd1, hd3⟩, rfl⟩
    · exact Or.inr ⟨d, ⟨⟨hd1, hd2⟩, hd3⟩, hx⟩

theorem mem_genEnPassant (env : Env) (b : Board) (c : Color) (x : Move) :
    x ∈ genEnPassant env b c [] ↔
      (b.ep ≠ INVALID ∧ b.ep ≤ 63) ∧
        ∃ f, (PawnAttacks c.opp b.ep).testBit f = true ∧ (b.pieces .PAWN).testBit f = true ∧
          (b.colors c).testBit f = true ∧
          x = mkMove env b f b.ep .ENPASSANT .NO_PIECE c .PAWN := by
  rw [genEnPassant_eq]
  have h1 : (PawnAttacks c.opp b.ep &&& b.pieces .PAWN) &&& b.colors c < 2 ^ 64 :=
    and_lt_left _ (and_lt_left _ (PawnAttacks_lt_pow _ _))
  by_cases h : b.ep ≠ INVALID ∧ b.ep ≤ 63
  · rw [if_pos h]
    simp only [List.nil_append, List.mem_flatMap, mem_bitSquares h1, Nat.testBit_and,
      Bool.and_eq_true, List.mem_singleton, h, true_and, and_assoc, ne_eq, not_false_eq_true,
      and_self]
  · rw [if_neg h]
    simp [h]

theorem genPawnDir_append (env : Env) (b : Board) (c : Color) (shifted lastRank : Nat)
    (back : Nat → Nat) (m : List Move) :
    genPawnDir env b c shifted lastRank back m =
      m ++ genPawnDir env b c shifted lastRank back [] := by
  rw [genPawnDir_eq, genPawnDir_eq env b c shifted lastRank back []]
  simp

theorem genEnPassant_append (env : Env) (b : Board) (c : Color) (m : List Move) :
    genEnPassant env b c m = m ++ genEnPassant env b c [] := by
  rw [genEnPassant_eq, genEnPassant_eq env b c []]
  simp

theorem genPiece_append (env : Env) (b : Board) (pcs : Nat) (A : Nat → Nat) (target : Nat)
    (t : MoveType) (k : Piece) (m : List Move) :
    genPiece env b pcs A target t k m = m ++ genPiece env b pcs A target t k [] := by
  rw [genPiece_eq, genPiece_eq env b pcs A target t k []]
  simp

/-- The pawn part of `GenerateCaptures` as a list: the two diagonal directions, then en
passant. -/
theorem genPawnCaptures_eq (env : Env) (b : Board) (m : List Move) :
    genPawnCaptures env b m =
      m ++ (match b.side with
        | .WHITE =>
          genPawnDir env b .WHITE (shl ((b.pieces .PAWN &&& b.colors .WHITE) &&& bnot FileAMask) 7)
              Rank8Mask (fun dest => dest - 7) [] ++
            genPawnDir env b .WHITE
              (shl ((b.pieces .PAWN &&& b.colors .WHITE) &&& bnot FileHMask) 9)
              Rank8Mask (fun dest => dest - 9) [] ++
            genEnPassant env b .WHITE []
        | .BLACK =>
          genPawnDir env b .BLACK (shr ((b.pieces .PAWN &&& b.colors .BLACK) &&& bnot FileAMask) 9)
              Rank1Mask (fun dest => dest + 9) [] ++
            genPawnDir env b .BLACK
              (shr ((b.pieces .PAWN &&& b.colors .BLACK) &&& bnot FileHMask) 7)
              Rank1Mask (fun dest => dest + 7) [] ++
            genEnPassant env b .BLACK []) := by
  unfold genPawnCaptures
  cases b.side
  · simp only []
    rw [genEnPassant_append, genPawnDir_append env b .WHITE _ _ _ (genPawnDir _ _ _ _ _ _ _),
      genPawnDir_append env b .WHITE _ _ _ m]
    simp [List.append_assoc]
  · simp only []
    rw [genEnPassant_append, genPawnDir_append env b .BLACK _ _ _ (genPawnDir _ _ _ _ _ _ _),
      genPawnDir_append env b .BLACK _ _ _ m]
    simp [List.append_assoc]

theorem genPieceCaptures_eq (env : Env) (b : Board) (m : List Move) :
    genPieceCaptures env b m =
      m ++ (genPiece env b (b.pieces .KNIGHT &&& b.colors b.side) KnightAttacks
              (b.colors b.side.opp) .CAPTURE .KNIGHT [] ++
            genPiece env b (b.pieces .BISHOP &&& b.colors b.side)
              (fun s => BishopAttacks s b.occ) (b.colors b.side.opp) .CAPTURE .BISHOP [] ++
            genPiece env b (b.pieces .ROOK &&& b.colors b.side)
              (fun s => RookAttacks s b.occ) (b.colors b.side.opp) .CAPTURE .ROOK [] ++
            genPiece env b (b.pieces .QUEEN &&& b.colors b.side)
              (fun s => QueenAttacks s b.occ) (b.colors b.side.opp) .CAPTURE .QUEEN [] ++
            genPiece env b (b.pieces .KING &&& b.colors b.side) KingAttacks
              (b.colors b.side.opp) .CAPTURE .KING []) := by
  unfold genPieceCaptures
  simp only []
  rw [genPiece_append env b _ KingAttacks, genPiece_append env b _ (fun s => QueenAttacks s b.occ),
    genPiece_append env b _ (fun s => RookAttacks s b.occ),
    genPiece_append env b _ (fun s => BishopAttacks s b.occ),
    genPiece_append env b _ KnightAttacks _ _ _ m]
  simp [List.append_assoc]

theorem genPieceQuiets_eq (env : Env) (b : Board) (m : List Move) :
    genPieceQuiets env b m =
      m ++ (genPiece env b (b.pieces .KNIGHT &&& b.colors b.side) KnightAttacks
              (bnot b.occ) .QUIET .KNIGHT [] ++
            genPiece env b (b.pieces .BISHOP &&& b.colors b.side)
              (fun s => BishopAttacks s b.occ) (bnot b.occ) .QUIET .BISHOP [] ++
            genPiece env b (b.pieces .ROOK &&& b.colors b.side)
              (fun s => RookAttacks s b.occ) (bnot b.occ) .QUIET .ROOK [] ++
            genPiece env b (b.pieces .QUEEN &&& b.colors b.side)
              (fun s => QueenAttacks s b.occ) (bnot b.occ) .QUIET .QUEEN [] ++
            genPiece env b (b.pieces .KING &&& b.colors b.side) KingAttacks
              (bnot b.occ) .QUIET .KING []) := by
  unfold genPieceQuiets
  simp only []
  rw [genPiece_append env b _ KingAttacks, genPiece_append env b _ (fun s => QueenAttacks s b.occ),
    genPiece_append env b _ (fun s => RookAttacks s b.occ),
    genPiece_append env b _ (fun s => BishopAttacks s b.occ),
    genPiece_append env b _ KnightAttacks _ _ _ m]
  simp [List.append_assoc]

theorem exists_mem_append3 {α : Type} (l1 l2 l3 : List α) (P : α → Prop) :
    (∃ x ∈ l1 ++ l2 ++ l3, P x) ↔
      (∃ x ∈ l1, P x) ∨ (∃ x ∈ l2, P x) ∨ (∃ x ∈ l3, P x) := by
  constructor
  · rintro ⟨x, hx, hp⟩
    rw [List.mem_append, List.mem_append] at hx
    rcases hx with (h | h) | h
    · exact Or.inl ⟨x, h, hp⟩
    · exact Or.inr (Or.inl ⟨x, h, hp⟩)
    · exact Or.inr (Or.inr ⟨x, h, hp⟩)
  · rintro (⟨x, h, hp⟩ | ⟨x, h, hp⟩ | ⟨x, h, hp⟩)
    · exact ⟨x, by simp [h], hp⟩
    · exact ⟨x, by simp [h], hp⟩
    · exact ⟨x, by simp [h], hp⟩

theorem genPawnDir_capture_iff (env : Env) (b : Board) (c : Color) (shifted lastRank : Nat)
    (back : Nat → Nat) (hs : shifted < 2 ^ 64) (f d : Nat) :
    (∃ x ∈ genPawnDir env b c shifted lastRank back [],
        x.piece = .PAWN ∧ (x.type = .CAPTURE ∨ x.type = .CAPTURE_PROMOTION) ∧
          x.from_ = f ∧ x.dest = d) ↔
      shifted.testBit d = true ∧ (b.colors c.opp).testBit d = true ∧ back d = f := by
  constructor
  · rintro ⟨x, hx, -, -, hf, hd⟩
    rw [mem_genPawnDir env b c shifted lastRank back hs] at hx
    obtain ⟨d1, h1, h2, h3⟩ := hx
    have key : x.from_ = back d1 ∧ x.dest = d1 := by
      rcases h3 with ⟨_, rfl⟩ | ⟨_, rfl | rfl | rfl | rfl⟩ <;> exact ⟨rfl, rfl⟩
    have hdd : d1 = d := by rw [← key.2, hd]
    subst hdd
    exact ⟨h1, h2, by rw [← key.1, hf]⟩
  · rintro ⟨h1, h2, rfl⟩
    by_cases hl : lastRank.testBit d = true
    · refine ⟨mkMove env b (back d) d .CAPTURE_PROMOTION .QUEEN c .PAWN, ?_, rfl, Or.inr rfl,
        rfl, rfl⟩
      rw [mem_genPawnDir env b c shifted lastRank back hs]
      exact ⟨d, h1, h2, Or.inr ⟨hl, Or.inl rfl⟩⟩
    · refine ⟨mkMove env b (back d) d .CAPTURE .NO_PIECE c .PAWN, ?_, rfl, Or.inl rfl,
        rfl, rfl⟩
      rw [mem_genPawnDir env b c shifted lastRank back hs]
      exact ⟨d, h1, h2, Or.inl ⟨by simpa using hl, rfl⟩⟩

theorem mem_genPawnCaptures_piece (env : Env) (b : Board) (x : Move)
    (hx : x ∈ genPawnCaptures env b []) : x.piece = .PAWN := by
  rw [genPawnCaptures_eq] at hx
  cases hside : b.side <;> rw [hside] at hx <;>
    simp only [List.nil_append, List.mem_append] at hx
  all_goals
    rcases hx with (hx | hx) | hx
    · rw [mem_genPawnDir _ _ _ _ _ _
        (by first | exact shl_lt _ _ | exact shr_lt _ (and_lt_right _ (bnot_lt _)))] at hx
      obtain ⟨d1, _, _, ⟨_, rfl⟩ | ⟨_, rfl | rfl | rfl | rfl⟩⟩ := hx <;> rfl
    · rw [mem_genPawnDir _ _ _ _ _ _
        (by first | exact shl_lt _ _ | exact shr_lt _ (and_lt_right _ (bnot_lt _)))] at hx
      obtain ⟨d1, _, _, ⟨_, rfl⟩ | ⟨_, rfl | rfl | rfl | rfl⟩⟩ := hx <;> rfl
    · rw [mem_genEnPassant] at hx
      obtain ⟨_, f, _, _, _, rfl⟩ := hx
      rfl

theorem pawnCapture_iff (env : Env) (b : Board) (f d : Nat) :
    (∃ x ∈ genPawnCaptures env b [],
        x.piece = .PAWN ∧ (x.type = .CAPTURE ∨ x.type = .CAPTURE_PROMOTION) ∧
          x.from_ = f ∧ x.dest = d) ↔
      f < 64 ∧ (b.pieces .PAWN).testBit f = true ∧ (b.colors b.side).testBit f = true ∧
        (b.colors b.side.opp).testBit d = true ∧ (PawnAttacks b.side f).testBit d = true := by
  have hep : ∀ c, ¬ ∃ x ∈ genEnPassant env b c [],
      x.piece = .PAWN ∧ (x.type = .CAPTURE ∨ x.type = .CAPTURE_PROMOTION) ∧
        x.from_ = f ∧ x.dest = d := by
    rintro c ⟨x, hx, -, ht, -⟩
    rw [mem_genEnPassant] at hx
    obtain ⟨_, f1, _, _, _, rfl⟩ := hx
    rcases ht with h | h <;> exact absurd h (by simp)
  rw [genPawnCaptures_eq]
  cases hside : b.side
  · simp only [List.nil_append]
    rw [exists_mem_append3]
    simp only [hep, or_false]
    rw [genPawnDir_capture_iff env b .WHITE _ _ _ (shl_lt _ _),
      genPawnDir_capture_iff env b .WHITE _ _ _ (shl_lt _ _)]
    simp only [testBit_shl, Nat.testBit_and, testBit_bnot, testBit_FileAMask, testBit_FileHMask,
      Bool.and_eq_true, decide_eq_true_eq, Bool.not_eq_true', decide_eq_false_iff_not]
    constructor
    · rintro (⟨⟨hd, h7, ⟨hp, hw⟩, hf64, hfile⟩, ho, rfl⟩ |
        ⟨⟨hd, h9, ⟨hp, hw⟩, hf64, hfile⟩, ho, rfl⟩)
      · refine ⟨hf64, hp, hw, ho, ?_⟩
        rw [PawnAttacks_white _ hf64 _ hd]
        simp only [decide_eq_true_eq]
        left; omega
      · refine ⟨hf64, hp, hw, ho, ?_⟩
        rw [PawnAttacks_white _ hf64 _ hd]
        simp only [decide_eq_true_eq]
        right; omega
    · rintro ⟨hf64, hp, hw, ho, hpa⟩
      have hd := PawnAttacks_lt _ _ _ hpa
      rw [PawnAttacks_white _ hf64 _ hd] at hpa
      simp only [decide_eq_true_eq] at hpa
      rcases hpa with ⟨rfl, hfile⟩ | ⟨rfl, hfile⟩
      · left
        simp only [Nat.add_sub_cancel]
        exact ⟨⟨hd, by omega, ⟨hp, hw⟩, hf64, by omega⟩, ho, trivial⟩
      · right
        simp only [Nat.add_sub_cancel]
        exact ⟨⟨hd, by omega, ⟨hp, hw⟩, hf64, by omega⟩, ho, trivial⟩
  · simp only [List.nil_append]
    rw [exists_mem_append3]
    simp only [hep, or_false]
    rw [genPawnDir_capture_iff env b .BLACK _ _ _ (shr_lt _ (and_lt_right _ (bnot_lt _))),
      genPawnDir_capture_iff env b .BLACK _ _ _ (shr_lt _ (and_lt_right _ (bnot_lt _)))]
    simp only [testBit_shr, Nat.testBit_and, testBit_bnot, testBit_FileAMask, testBit_FileHMask,
      Bool.and_eq_true, decide_eq_true_eq, Bool.not_eq_true', decide_eq_false_iff_not]
    constructor
    · rintro (⟨⟨⟨hp, hw⟩, hf64, hfile⟩, ho, rfl⟩ | ⟨⟨⟨hp, hw⟩, hf64, hfile⟩, ho, rfl⟩)
      · have e : d + 9 = 9 + d := by omega
        rw [e]
        refine ⟨hf64, hp, hw, ho, ?_⟩
        rw [PawnAttacks_black _ hf64 _ (by omega)]
        simp only [decide_eq_true_eq]
        left; omega
      · have e : d + 7 = 7 + d := by omega
        rw [e]
        refine ⟨hf64, hp, hw, ho, ?_⟩
        rw [PawnAttacks_black _ hf64 _ (by omega)]
        simp only [decide_eq_true_eq]
        right; omega
    · rintro ⟨hf64, hp, hw, ho, hpa⟩
      have hd := PawnAttacks_lt _ _ _ hpa
      rw [PawnAttacks_black _ hf64 _ hd] at hpa
      simp only [decide_eq_true_eq] at hpa
      rcases hpa with ⟨rfl, hfile⟩ | ⟨rfl, hfile⟩
      · left
        have e : 9 + d = d + 9 := by omega
        rw [e]
        exact ⟨⟨⟨hp, hw⟩, hf64, by omega⟩, ho, rfl⟩
      · right
        have e : 7 + d = d + 7 := by omega
        rw [e]
        exact ⟨⟨⟨hp, hw⟩, hf64, by omega⟩, ho, rfl⟩

theorem genPiece_shape (env : Env) (b : Board) (pcs : Nat) (A : Nat → Nat) (target : Nat)
    (t : MoveType) (k : Piece) (x : Move) (hx : x ∈ genPiece env b pcs A target t k []) :
    ∃ f d, x = mkMove env b f d t .NO_PIECE b.side k := by
  rw [genPiece_eq] at hx
  simp only [List.nil_append, List.mem_flatMap, List.mem_singleton] at hx
  obtain ⟨f, _, d, _, rfl⟩ := hx
  exact ⟨f, d, rfl⟩

theorem GenerateCaptures_eq (env : Env) (b : Board) :
    GenerateCaptures env b [] =
      genPawnCaptures env b [] ++
        (genPiece env b (b.pieces .KNIGHT &&& b.colors b.side) KnightAttacks
              (b.colors b.side.opp) .CAPTURE .KNIGHT [] ++
            genPiece env b (b.pieces .BISHOP &&& b.colors b.side)
              (fun s => BishopAttacks s b.occ) (b.colors b.side.opp) .CAPTURE .BISHOP [] ++
            genPiece env b (b.pieces .ROOK &&& b.colors b.side)
              (fun s => RookAttacks s b.occ) (b.colors b.side.opp) .CAPTURE .ROOK [] ++
            genPiece env b (b.pieces .QUEEN &&& b.colors b.side)
              (fun s => QueenAttacks s b.occ) (b.colors b.side.opp) .CAPTURE .QUEEN [] ++
            genPiece env b (b.pieces .KING &&& b.colors b.side) KingAttacks
              (b.colors b.side.opp) .CAPTURE .KING []) := by
  unfold GenerateCaptures
  rw [genPieceCaptures_eq]

theorem GenerateCaptures_append (env : Env) (b : Board) (m : List Move) :
    GenerateCaptures env b m = m ++ GenerateCaptures env b [] := by
  unfold GenerateCaptures
  rw [genPieceCaptures_eq, genPieceCaptures_eq env b (genPawnCaptures env b []),
    genPawnCaptures_eq env b m, genPawnCaptures_eq env b []]
  simp [List.append_assoc]

theorem GenerateCaptures_split (env : Env) (b : Board) :
    GenerateCaptures env b [] = genPawnCaptures env b [] ++ genPieceCaptures env b [] := by
  unfold GenerateCaptures
  rw [genPieceCaptures_eq env b (genPawnCaptures env b []), genPieceCaptures_eq env b []]
  simp only [List.nil_append]

/-- A move of the piece part of `GenerateCaptures` is a CAPTURE by a knight, bishop, rook,
queen or king. -/
theorem pieceCaptures_shape (env : Env) (b : Board) (x : Move)
    (hx : x ∈ genPieceCaptures env b []) :
    x.type = .CAPTURE ∧ x.piece ≠ .PAWN := by
  rw [genPieceCaptures_eq] at hx
  simp only [List.nil_append, List.mem_append] at hx
  rcases hx with (((hx | hx) | hx) | hx) | hx <;>
    (obtain ⟨f, d, rfl⟩ := genPiece_shape _ _ _ _ _ _ _ _ hx
     exact ⟨rfl, by simp⟩)

theorem capture_pawn_iff (env : Env) (b : Board) (f d : Nat) :
    (∃ m ∈ GenerateCaptures env b [],
        m.piece = .PAWN ∧ (m.type = .CAPTURE ∨ m.type = .CAPTURE_PROMOTION) ∧
          m.from_ = f ∧ m.dest = d) ↔
      f < 64 ∧ (b.pieces .PAWN).testBit f = true ∧ (b.colors b.side).testBit f = true ∧
        (b.colors b.side.opp).testBit d = true ∧ (PawnAttacks b.side f).testBit d = true := by
  rw [← pawnCapture_iff env b f d]
  rw [GenerateCaptures_split]
  constructor
  · rintro ⟨m, hm, hp, h⟩
    rw [List.mem_append] at hm
    rcases hm with hm | hm
    · exact ⟨m, hm, hp, h⟩
    · exact absurd hp (pieceCaptures_shape env b m hm).2
  · rintro ⟨m, hm, h⟩
    exact ⟨m, List.mem_append_left _ hm, h⟩

theorem PawnAttacks_file (c : Color) (f d : Nat) (h : (PawnAttacks c f).testBit d = true) :
    fileOf d = fileOf f - 1 ∨ fileOf d = fileOf f + 1 := by
  unfold PawnAttacks at h
  simp only [Nat.testBit_or, Bool.or_eq_true, testBit_bitAt] at h
  rcases h with ⟨hon, rfl⟩ | ⟨hon, rfl⟩
  · exact Or.inl (fileOf_sqOf hon)
  · exact Or.inr (fileOf_sqOf hon)

/-- C5. `GenerateCaptures` emits a pawn move of type CAPTURE or CAPTURE_PROMOTION from `f` to
`d` exactly when `f` is a square holding a pawn of the side to move, `d` holds a piece of the
opponent and `d` is in `PawnAttacks side f`; every such move lands on a file adjacent to the
one it starts from, so the shifts by 7 and 9 never wrap around the board edge. -/
theorem GenerateCaptures_pawn_capture_iff (env : Env) (b : Board) :
    (∀ f d : Nat,
      (∃ m ∈ GenerateCaptures env b [],
          m.piece = .PAWN ∧ (m.type = .CAPTURE ∨ m.type = .CAPTURE_PROMOTION) ∧
            m.from_ = f ∧ m.dest = d) ↔
        f < 64 ∧ (b.pieces .PAWN).testBit f = true ∧ (b.colors b.side).testBit f = true ∧
          (b.colors b.side.opp).testBit d = true ∧ (PawnAttacks b.side f).testBit d = true) ∧
    (∀ m ∈ GenerateCaptures env b [],
      m.piece = .PAWN → (m.type = .CAPTURE ∨ m.type = .CAPTURE_PROMOTION) →
        fileOf m.dest = fileOf m.from_ - 1 ∨ fileOf m.dest = fileOf m.from_ + 1) := by
  refine ⟨capture_pawn_iff env b, ?_⟩
  intro m hm hp ht
  have := (capture_pawn_iff env b m.from_ m.dest).mp ⟨m, hm, hp, ht, rfl, rfl⟩
  exact PawnAttacks_file _ _ _ this.2.2.2.2

/-! ## The quiet generator as a list -/

theorem bitLoop_shape {α : Type} (g : Nat → List α) (P : α → Prop) (n x : Nat)
    (hg : ∀ d, ∀ a ∈ g d, P a) :
    ∀ a ∈ (bitSquares n x).flatMap g, P a := by
  intro a ha
  rw [List.mem_flatMap] at ha
  obtain ⟨d, _, hd⟩ := ha
  exact hg d a hd

theorem genPawnQuiets_append (env : Env) (b : Board) (m : List Move) :
    genPawnQuiets env b m = m ++ genPawnQuiets env b [] := by
  unfold genPawnQuiets
  cases b.side <;>
    simp only [AddMove, addPromotions_eq, bitLoop_append, List.append_assoc, List.nil_append]

theorem genPawnQuiets_shape (env : Env) (b : Board) (x : Move)
    (hx : x ∈ genPawnQuiets env b []) : x.piece = .PAWN ∧ x.type ≠ .CASTLE := by
  unfold genPawnQuiets at hx
  cases hside : b.side <;> rw [hside] at hx <;>
    simp only [AddMove, addPromotions_eq, bitLoop_append, List.append_assoc, List.nil_append,
      List.mem_append] at hx
  all_goals
    rcases hx with hx | hx | hx
    · exact bitLoop_shape _ (fun x => x.piece = .PAWN ∧ x.type ≠ .CASTLE) _ _
        (fun d a ha => by
          simp only [List.mem_singleton] at ha
          subst ha; exact ⟨rfl, by simp⟩) x hx
    · exact bitLoop_shape _ (fun x => x.piece = .PAWN ∧ x.type ≠ .CASTLE) _ _
        (fun d a ha => by
          simp only [List.mem_singleton] at ha
          subst ha; exact ⟨rfl, by simp⟩) x hx
    · exact bitLoop_shape _ (fun x => x.piece = .PAWN ∧ x.type ≠ .CASTLE) _ _
        (fun d a ha => by
          simp only [List.mem_cons, List.mem_singleton, List.not_mem_nil, or_false] at ha
          rcases ha with rfl | rfl | rfl | rfl <;> exact ⟨rfl, by simp⟩) x hx

theorem ite_ite_and {α : Type} (p q : Prop) [Decidable p] [Decidable q] (a c : α) :
    (if p then (if q then a else c) else c) = if p ∧ q then a else c := by
  by_cases hp : p <;> by_cases hq : q <;> simp [hp, hq]

/-- The castling part of `GenerateQuiets` as a list: the king-side move, then the queen-side
move, each under its condition. -/
theorem genCastle_eq (env : Env) (b : Board) (m : List Move) :
    genCastle env b m =
      m ++ (if IsInCheck b = false ∧
              b.castle &&& (1 <<< castleShift b.side) ≠ 0 ∧
              IsAttacked b b.side.opp (lsb (b.pieces .KING &&& b.colors b.side) + 1) = false ∧
              IsAttacked b b.side.opp (lsb (b.pieces .KING &&& b.colors b.side) + 2) = false ∧
              shl 1 (lsb (b.pieces .KING &&& b.colors b.side) + 1) &&& bnot b.occ ≠ 0 ∧
              shl 1 (lsb (b.pieces .KING &&& b.colors b.side) + 2) &&& bnot b.occ ≠ 0
            then [mkMove env b (lsb (b.pieces .KING &&& b.colors b.side))
              (lsb (b.pieces .KING &&& b.colors b.side) + 2) .CASTLE .NO_PIECE b.side .KING]
            else []) ++
          (if IsInCheck b = false ∧
              b.castle &&& (2 <<< castleShift b.side) ≠ 0 ∧
              IsAttacked b b.side.opp (lsb (b.pieces .KING &&& b.colors b.side) - 1) = false ∧
              IsAttacked b b.side.opp (lsb (b.pieces .KING &&& b.colors b.side) - 2) = false ∧
              shl 1 (lsb (b.pieces .KING &&& b.colors b.side) - 1) &&& bnot b.occ ≠ 0 ∧
              shl 1 (lsb (b.pieces .KING &&& b.colors b.side) - 2) &&& bnot b.occ ≠ 0 ∧
              shl 1 (lsb (b.pieces .KING &&& b.colors b.side) - 3) &&& bnot b.occ ≠ 0
            then [mkMove env b (lsb (b.pieces .KING &&& b.colors b.side))
              (lsb (b.pieces .KING &&& b.colors b.side) - 2) .CASTLE .NO_PIECE b.side .KING]
            else []) := by
  unfold genCastle
  simp only [AddMove]
  by_cases hc : IsInCheck b = true
  · simp only [hc, Bool.not_true, Bool.false_eq_true, if_false, false_and, List.append_nil,
      Bool.true_eq_false]
  · have hc2 : IsInCheck b = false := by simpa using hc
    simp only [hc2, Bool.not_false, if_true, true_and, Bool.and_eq_true, Bool.not_eq_true',
      decide_eq_true_eq, and_assoc, ite_ite_and]
    split_ifs with h1 h2 h2 <;>
      simp only [List.append_assoc, List.append_nil, List.nil_append]

theorem genCastle_append (env : Env) (b : Board) (m : List Move) :
    genCastle env b m = m ++ genCastle env b [] := by
  rw [genCastle_eq env b m, genCastle_eq env b [], List.nil_append, List.append_assoc]

theorem genPieceQuiets_append (env : Env) (b : Board) (m : List Move) :
    genPieceQuiets env b m = m ++ genPieceQuiets env b [] := by
  rw [genPieceQuiets_eq env b m, genPieceQuiets_eq env b [], List.nil_append]

theorem GenerateQuiets_split (env : Env) (b : Board) :
    GenerateQuiets env b [] =
      genPawnQuiets env b [] ++ (genPieceQuiets env b [] ++ genCastle env b []) := by
  unfold GenerateQuiets
  rw [genCastle_append, genPieceQuiets_append, List.append_assoc]

theorem GenerateQuiets_append (env : Env) (b : Board) (m : List Move) :
    GenerateQuiets env b m = m ++ GenerateQuiets env b [] := by
  rw [GenerateQuiets_split]
  unfold GenerateQuiets
  rw [genCastle_append, genPieceQuiets_append, genPawnQuiets_append, List.append_assoc,
    List.append_assoc]

theorem pieceQuiets_shape (env : Env) (b : Board) (x : Move)
    (hx : x ∈ genPieceQuiets env b []) : x.type = .QUIET ∧ x.piece ≠ .PAWN := by
  rw [genPieceQuiets_eq] at hx
  simp only [List.nil_append, List.mem_append] at hx
  rcases hx with (((hx | hx) | hx) | hx) | hx <;>
    (obtain ⟨f, d, rfl⟩ := genPiece_shape _ _ _ _ _ _ _ _ hx
     exact ⟨rfl, by simp⟩)

theorem mem_genCastle (env : Env) (b : Board) (x : Move) :
    x ∈ genCastle env b [] ↔
      (IsInCheck b = false ∧
          b.castle &&& (1 <<< castleShift b.side) ≠ 0 ∧
          IsAttacked b b.side.opp (lsb (b.pieces .KING &&& b.colors b.side) + 1) = false ∧
          IsAttacked b b.side.opp (lsb (b.pieces .KING &&& b.colors b.side) + 2) = false ∧
          shl 1 (lsb (b.pieces .KING &&& b.colors b.side) + 1) &&& bnot b.occ ≠ 0 ∧
          shl 1 (lsb (b.pieces .KING &&& b.colors b.side) + 2) &&& bnot b.occ ≠ 0) ∧
        x = mkMove env b (lsb (b.pieces .KING &&& b.colors b.side))
          (lsb (b.pieces .KING &&& b.colors b.side) + 2) .CASTLE .NO_PIECE b.side .KING ∨
      (IsInCheck b = false ∧
          b.castle &&& (2 <<< castleShift b.side) ≠ 0 ∧
          IsAttacked b b.side.opp (lsb (b.pieces .KING &&& b.colors b.side) - 1) = false ∧
          IsAttacked b b.side.opp (lsb (b.pieces .KING &&& b.colors b.side) - 2) = false ∧
          shl 1 (lsb (b.pieces .KING &&& b.colors b.side) - 1) &&& bnot b.occ ≠ 0 ∧
          shl 1 (lsb (b.pieces .KING &&& b.colors b.side) - 2) &&& bnot b.occ ≠ 0 ∧
          shl 1 (lsb (b.pieces .KING &&& b.colors b.side) - 3) &&& bnot b.occ ≠ 0) ∧
        x = mkMove env b (lsb (b.pieces .KING &&& b.colors b.side))
          (lsb (b.pieces .KING &&& b.colors b.side) - 2) .CASTLE .NO_PIECE b.side .KING := by
  rw [genCastle_eq, List.nil_append, List.mem_append]
  constructor
  · rintro (h | h)
    · split_ifs at h with hc
      · exact Or.inl ⟨hc, by simpa using h⟩
      · simp at h
    · split_ifs at h with hc
      · exact Or.inr ⟨hc, by simpa using h⟩
      · simp at h
  · rintro (⟨hc, rfl⟩ | ⟨hc, rfl⟩)
    · left; rw [if_pos hc]; exact List.mem_singleton.mpr rfl
    · right; rw [if_pos hc]; exact List.mem_singleton.mpr rfl

theorem castle_mem_iff (env : Env) (b : Board) (x : Move) (hx : x.type = .CASTLE) :
    x ∈ GenerateQuiets env b [] ↔ x ∈ genCastle env b [] := by
  rw [GenerateQuiets_split, List.mem_append, List.mem_append]
  constructor
  · rintro (h | h | h)
    · exact absurd hx (genPawnQuiets_shape env b x h).2
    · have := (pieceQuiets_shape env b x h).1
      rw [hx] at this
      exact absurd this (by simp)
    · exact h
  · intro h; exact Or.inr (Or.inr h)

theorem empty_square_iff (b : Board) (k : Nat) (hk : k < 64) :
    shl 1 k &&& bnot b.occ ≠ 0 ↔ b.occ.testBit k = false := by
  rw [one_shl_and_ne_zero, testBit_bnot]
  simp [hk]

/-- C6. With the king of the side to move on square `k`, `3 ≤ k ≤ 61`: `GenerateQuiets` emits
the CASTLE move `k → k + 2` exactly when the side is not in check, the king-side right bit
`1 << 2*(side == BLACK)` is set in `castle`, the squares `k + 1` and `k + 2` are empty and
neither is attacked by the opponent; it emits the CASTLE move `k → k - 2` exactly when the side
is not in check, the queen-side right bit `2 << 2*(side == BLACK)` is set, the squares `k - 1`,
`k - 2` and `k - 3` are empty and `k - 1`, `k - 2` are not attacked; and it emits no other
CASTLE move. -/
theorem GenerateQuiets_castle_iff (env : Env) (b : Board) (k : Nat)
    (hk : lsb (b.pieces .KING &&& b.colors b.side) = k) (h3 : 3 ≤ k) (h61 : k ≤ 61) :
    ((∃ m ∈ GenerateQuiets env b [], m.type = .CASTLE ∧ m.from_ = k ∧ m.dest = k + 2) ↔
      (IsInCheck b = false ∧ b.castle &&& (1 <<< castleShift b.side) ≠ 0 ∧
        b.occ.testBit (k + 1) = false ∧ b.occ.testBit (k + 2) = false ∧
        IsAttacked b b.side.opp (k + 1) = false ∧ IsAttacked b b.side.opp (k + 2) = false)) ∧
    ((∃ m ∈ GenerateQuiets env b [], m.type = .CASTLE ∧ m.from_ = k ∧ m.dest = k - 2) ↔
      (IsInCheck b = false ∧ b.castle &&& (2 <<< castleShift b.side) ≠ 0 ∧
        b.occ.testBit (k - 1) = false ∧ b.occ.testBit (k - 2) = false ∧
        b.occ.testBit (k - 3) = false ∧
        IsAttacked b b.side.opp (k - 1) = false ∧ IsAttacked b b.side.opp (k - 2) = false)) ∧
    (∀ m ∈ GenerateQuiets env b [], m.type = .CASTLE →
      m.from_ = k ∧ (m.dest = k + 2 ∨ m.dest = k - 2)) := by
  have e1 := empty_square_iff b (k + 1) (by omega)
  have e2 := empty_square_iff b (k + 2) (by omega)
  have e3 := empty_square_iff b (k - 1) (by omega)
  have e4 := empty_square_iff b (k - 2) (by omega)
  have e5 := empty_square_iff b (k - 3) (by omega)
  refine ⟨?_, ?_, ?_⟩
  · constructor
    · rintro ⟨m, hm, ht, hf, hd⟩
      rw [castle_mem_iff env b m ht, mem_genCastle, hk] at hm
      rcases hm with ⟨⟨c1, c2, c3, c4, c5, c6⟩, _⟩ | ⟨_, rfl⟩
      · exact ⟨c1, c2, e1.mp c5, e2.mp c6, c3, c4⟩
      · simp only [mkMove_dest] at hd
        omega
    · rintro ⟨c1, c2, c3, c4, c5, c6⟩
      refine ⟨mkMove env b k (k + 2) .CASTLE .NO_PIECE b.side .KING, ?_, rfl, rfl, rfl⟩
      rw [castle_mem_iff env b _ rfl, mem_genCastle, hk]
      exact Or.inl ⟨⟨c1, c2, c5, c6, e1.mpr c3, e2.mpr c4⟩, rfl⟩
  · constructor
    · rintro ⟨m, hm, ht, hf, hd⟩
      rw [castle_mem_iff env b m ht, mem_genCastle, hk] at hm
      rcases hm with ⟨_, rfl⟩ | ⟨⟨c1, c2, c3, c4, c5, c6, c7⟩, _⟩
      · simp only [mkMove_dest] at hd
        omega
      · exact ⟨c1, c2, e3.mp c5, e4.mp c6, e5.mp c7, c3, c4⟩
    · rintro ⟨c1, c2, c3, c4, c5, c6, c7⟩
      refine ⟨mkMove env b k (k - 2) .CASTLE .NO_PIECE b.side .KING, ?_, rfl, rfl, rfl⟩
      rw [castle_mem_iff env b _ rfl, mem_genCastle, hk]
      exact Or.inr ⟨⟨c1, c2, c6, c7, e3.mpr c3, e4.mpr c4, e5.mpr c5⟩, rfl⟩
  · intro m hm ht
    rw [castle_mem_iff env b m ht, mem_genCastle, hk] at hm
    rcases hm with ⟨_, rfl⟩ | ⟨_, rfl⟩
    · exact ⟨rfl, Or.inl rfl⟩
    · exact ⟨rfl, Or.inr rfl⟩

set_option maxRecDepth 100000 in
theorem GenerateQuiets_castle_iff_witness :
    (∃ m ∈ GenerateQuiets env0 cboard [], m.type = .CASTLE ∧ m.from_ = 4 ∧ m.dest = 6) ∧
    (∃ m ∈ GenerateQuiets env0 cboard [], m.type = .CASTLE ∧ m.from_ = 4 ∧ m.dest = 2) :=
  ⟨(GenerateQuiets_castle_iff env0 cboard 4 (by decide) (by decide) (by decide)).1.mpr
      (by decide),
    (GenerateQuiets_castle_iff env0 cboard 4 (by decide) (by decide) (by decide)).2.1.mpr
      (by decide)⟩

/-! ## The moves of one piece -/

theorem filter_flatMap_single {α β : Type} [DecidableEq β] (p : α → Bool) (h : β → List α)
    (a : β) : ∀ (l : List β), l.Nodup →
      (∀ c ∈ l, c ≠ a → (h c).filter p = []) →
      (l.flatMap h).filter p = if a ∈ l then (h a).filter p else [] := by
  intro l
  induction l with
  | nil => intro _ _; rfl
  | cons c l ih =>
    intro hnd hoff
    rw [List.nodup_cons] at hnd
    rw [List.flatMap_cons, List.filter_append,
      ih hnd.2 (fun c hc => hoff c (List.mem_cons_of_mem _ hc))]
    by_cases hca : c = a
    · subst hca
      rw [if_neg hnd.1, if_pos (List.mem_cons_self _ _), List.append_nil]
    · rw [hoff c (List.mem_cons_self _ _) hca, List.nil_append]
      by_cases hal : a ∈ l
      · rw [if_pos hal, if_pos (List.mem_cons_of_mem _ hal)]
      · rw [if_neg hal, if_neg]
        intro h
        rcases List.mem_cons.mp h with h | h
        · exact hca h.symm
        · exact hal h

theorem filter_genPiece (env : Env) (b : Board) (pcs : Nat) (A : Nat → Nat) (target : Nat)
    (t : MoveType) (k : Piece) (hp : pcs < 2 ^ 64) (hA : ∀ f, A f < 2 ^ 64)
    (p : Move → Bool) (f d : Nat) (c : Prop) [Decidable c]
    (hpm : ∀ f1 d1, p (mkMove env b f1 d1 t .NO_PIECE b.side k) =
      decide (f1 = f ∧ d1 = d ∧ c)) :
    (genPiece env b pcs A target t k []).filter p =
      if c ∧ pcs.testBit f = true ∧ (A f).testBit d = true ∧ target.testBit d = true then
        [mkMove env b f d t .NO_PIECE b.side k]
      else [] := by
  rw [genPiece_eq, List.nil_append]
  have inner : ∀ f1, ((bitSquares 64 (A f1 &&& target)).flatMap (fun d1 =>
      [mkMove env b f1 d1 t .NO_PIECE b.side k])).filter p =
      if f1 = f ∧ c ∧ (A f1).testBit d = true ∧ target.testBit d = true then
        [mkMove env b f1 d t .NO_PIECE b.side k]
      else [] := by
    intro f1
    have hlt : A f1 &&& target < 2 ^ 64 := and_lt_left _ (hA f1)
    rw [filter_flatMap_single p _ d _ (bitSquares_nodup hlt)]
    · simp only [mem_bitSquares hlt, Nat.testBit_and, Bool.and_eq_true, List.filter_cons,
        List.filter_nil, hpm, true_and]
      by_cases h1 : f1 = f <;> by_cases h2 : c <;>
        by_cases h3 : (A f1).testBit d = true <;> by_cases h4 : target.testBit d = true <;>
        simp [h1, h2, h3, h4]
    · intro d1 _ hd1
      simp only [List.filter_cons, List.filter_nil, hpm]
      simp [hd1]
  rw [filter_flatMap_single p _ f _ (bitSquares_nodup hp)]
  · simp only [mem_bitSquares hp, inner f]
    by_cases h1 : pcs.testBit f = true <;> by_cases h2 : c <;>
      by_cases h3 : (A f).testBit d = true <;> by_cases h4 : target.testBit d = true <;>
      simp [h1, h2, h3, h4]
  · intro f1 _ hf1
    rw [inner f1, if_neg]
    intro h
    exact hf1 h.1

theorem filter_eq_nil_of {α : Type} (p : α → Bool) (l : List α)
    (h : ∀ a ∈ l, p a = false) : l.filter p = [] := by
  rw [List.filter_eq_nil_iff]
  intro a ha
  rw [h a ha]
  exact Bool.false_ne_true

theorem filter_pieces (env : Env) (b : Board) (hok : b.ok) (target : Nat) (t : MoveType)
    (p : Move → Bool) (k : Piece) (f d : Nat)
    (hk : k = .KNIGHT ∨ k = .BISHOP ∨ k = .ROOK ∨ k = .QUEEN ∨ k = .KING)
    (hpm : ∀ k1 f1 d1, p (mkMove env b f1 d1 t .NO_PIECE b.side k1) =
      decide (f1 = f ∧ d1 = d ∧ k1 = k)) :
    (genPiece env b (b.pieces .KNIGHT &&& b.colors b.side) KnightAttacks target t .KNIGHT [] ++
      genPiece env b (b.pieces .BISHOP &&& b.colors b.side)
        (fun s => BishopAttacks s b.occ) target t .BISHOP [] ++
      genPiece env b (b.pieces .ROOK &&& b.colors b.side)
        (fun s => RookAttacks s b.occ) target t .ROOK [] ++
      genPiece env b (b.pieces .QUEEN &&& b.colors b.side)
        (fun s => QueenAttacks s b.occ) target t .QUEEN [] ++
      genPiece env b (b.pieces .KING &&& b.colors b.side) KingAttacks target t .KING []).filter p =
      if (b.pieces k &&& b.colors b.side).testBit f = true ∧
          (attackSet k f b.occ).testBit d = true ∧ target.testBit d = true then
        [mkMove env b f d t .NO_PIECE b.side k]
      else [] := by
  obtain ⟨h1, h2, h3, h4, h5, h6, _, _⟩ := hok
  simp only [List.filter_append]
  rw [filter_genPiece env b _ KnightAttacks target t .KNIGHT
      (and_lt_left _ (by simpa [Board.pieces] using h2)) (jumpSet_lt_pow _) p f d
      (Piece.KNIGHT = k) (hpm .KNIGHT),
    filter_genPiece env b _ (fun s => BishopAttacks s b.occ) target t .BISHOP
      (and_lt_left _ (by simpa [Board.pieces] using h3)) (fun s => BishopAttacks_lt_pow s _) p f d
      (Piece.BISHOP = k) (hpm .BISHOP),
    filter_genPiece env b _ (fun s => RookAttacks s b.occ) target t .ROOK
      (and_lt_left _ (by simpa [Board.pieces] using h4)) (fun s => RookAttacks_lt_pow s _) p f d
      (Piece.ROOK = k) (hpm .ROOK),
    filter_genPiece env b _ (fun s => QueenAttacks s b.occ) target t .QUEEN
      (and_lt_left _ (by simpa [Board.pieces] using h5)) (fun s => QueenAttacks_lt_pow s _) p f d
      (Piece.QUEEN = k) (hpm .QUEEN),
    filter_genPiece env b _ KingAttacks target t .KING
      (and_lt_left _ (by simpa [Board.pieces] using h6)) (jumpSet_lt_pow _) p f d
      (Piece.KING = k) (hpm .KING)]
  rcases hk with rfl | rfl | rfl | rfl | rfl <;>
    simp only [attackSet, reduceCtorEq, false_and, if_false, true_and, List.append_nil,
      List.nil_append]

theorem attackSet_lt (k : Piece) (f occ d : Nat) (h : (attackSet k f occ).testBit d = true) :
    d < 64 := by
  cases k <;> simp only [attackSet, Nat.zero_testBit] at h
  · exact absurd h Bool.false_ne_true
  · exact jumpSet_lt _ _ _ h
  · exact BishopAttacks_lt _ _ _ h
  · exact RookAttacks_lt _ _ _ h
  · exact lt_of_testBit (QueenAttacks_lt_pow _ _) h
  · exact jumpSet_lt _ _ _ h
  · exact absurd h Bool.false_ne_true

theorem own_not_occ (b : Board) (c : Color) (d : Nat) (h : b.occ.testBit d = false) :
    (b.colors c).testBit d = false := by
  unfold Board.occ at h
  rw [Nat.testBit_or, Bool.or_eq_false_iff] at h
  cases c
  · exact h.1
  · exact h.2

theorem own_not_opp (b : Board) (hdis : b.colors .WHITE &&& b.colors .BLACK = 0) (c : Color)
    (d : Nat) (h : (b.colors c.opp).testBit d = true) : (b.colors c).testBit d = false := by
  have h0 : (b.colors .WHITE &&& b.colors .BLACK).testBit d = false := by
    rw [hdis]; exact Nat.zero_testBit d
  rw [Nat.testBit_and] at h0
  cases c
  · simp only [Color.opp] at h
    rw [h] at h0
    simpa using h0
  · simp only [Color.opp] at h
    rw [h] at h0
    simpa using h0

theorem quiets_of_piece (env : Env) (b : Board) (hok : b.ok) (k : Piece)
    (hk : k = .KNIGHT ∨ k = .BISHOP ∨ k = .ROOK ∨ k = .QUEEN ∨ k = .KING) (f : Nat)
    (hf : (b.pieces k &&& b.colors b.side).testBit f = true) (d : Nat) :
    (GenerateQuiets env b []).filter
        (fun m => decide (m.piece = k ∧ m.from_ = f ∧ m.dest = d ∧ m.type ≠ .CASTLE)) =
      if (attackSet k f b.occ).testBit d = true ∧ b.occ.testBit d = false then
        [mkMove env b f d .QUIET .NO_PIECE b.side k]
      else [] := by
  rw [GenerateQuiets_split, List.filter_append, List.filter_append]
  rw [filter_eq_nil_of _ (genPawnQuiets env b []), filter_eq_nil_of _ (genCastle env b []),
    genPieceQuiets_eq, List.nil_append, List.nil_append, List.append_nil,
    filter_pieces env b hok (bnot b.occ) .QUIET _ k f d hk]
  · by_cases hA : (attackSet k f b.occ).testBit d = true
    · have hd := attackSet_lt _ _ _ _ hA
      by_cases ho : b.occ.testBit d = true
      · rw [if_neg, if_neg]
        · rw [ho]; simp
        · rw [testBit_bnot, ho]; simp
      · have ho2 : b.occ.testBit d = false := by simpa using ho
        rw [if_pos, if_pos ⟨hA, ho2⟩]
        refine ⟨hf, hA, ?_⟩
        rw [testBit_bnot, ho2]
        simp [hd]
    · rw [if_neg (fun h => hA h.2.1), if_neg (fun h => hA h.1)]
  · intro k1 f1 d1
    simp only [mkMove_piece, mkMove_from, mkMove_dest, mkMove_type]
    rw [decide_eq_decide]
    constructor
    · rintro ⟨h1, h2, h3, _⟩; exact ⟨h2, h3, h1⟩
    · rintro ⟨h2, h3, h1⟩; exact ⟨h1, h2, h3, by simp⟩
  · intro m hm
    rw [mem_genCastle] at hm
    rcases hm with ⟨_, rfl⟩ | ⟨_, rfl⟩ <;> simp
  · intro m hm
    have := (genPawnQuiets_shape env b m hm).1
    rcases hk with rfl | rfl | rfl | rfl | rfl <;> simp [this]

theorem captures_of_piece (env : Env) (b : Board) (hok : b.ok) (k : Piece)
    (hk : k = .KNIGHT ∨ k = .BISHOP ∨ k = .ROOK ∨ k = .QUEEN ∨ k = .KING) (f : Nat)
    (hf : (b.pieces k &&& b.colors b.side).testBit f = true) (d : Nat) :
    (GenerateCaptures env b []).filter
        (fun m => decide (m.piece = k ∧ m.from_ = f ∧ m.dest = d)) =
      if (attackSet k f b.occ).testBit d = true ∧ (b.colors b.side.opp).testBit d = true then
        [mkMove env b f d .CAPTURE .NO_PIECE b.side k]
      else [] := by
  rw [GenerateCaptures_split, List.filter_append]
  rw [filter_eq_nil_of _ (genPawnCaptures env b []), genPieceCaptures_eq, List.nil_append,
    List.nil_append, filter_pieces env b hok (b.colors b.side.opp) .CAPTURE _ k f d hk]
  · by_cases hc : (attackSet k f b.occ).testBit d = true ∧ (b.colors b.side.opp).testBit d = true
    · rw [if_pos ⟨hf, hc⟩, if_pos hc]
    · rw [if_neg (fun h => hc h.2), if_neg hc]
  · intro k1 f1 d1
    simp only [mkMove_piece, mkMove_from, mkMove_dest]
    rw [decide_eq_decide]
    constructor
    · rintro ⟨h1, h2, h3⟩; exact ⟨h2, h3, h1⟩
    · rintro ⟨h2, h3, h1⟩; exact ⟨h1, h2, h3⟩
  · intro m hm
    have := mem_genPawnCaptures_piece env b m hm
    rcases hk with rfl | rfl | rfl | rfl | rfl <;> simp [this]

theorem mem_singleton_of_filter {p : Move → Bool} {l : List Move} {m x : Move} {c : Prop}
    [Decidable c] (h : l.filter p = if c then [x] else []) (hm : m ∈ l) (hp : p m = true) :
    c ∧ m = x := by
  have hmem : m ∈ l.filter p := List.mem_filter.mpr ⟨hm, hp⟩
  rw [h] at hmem
  by_cases hc : c
  · rw [if_pos hc] at hmem
    exact ⟨hc, List.mem_singleton.mp hmem⟩
  · rw [if_neg hc] at hmem
    exact absurd hmem (List.not_mem_nil _)

/-- C4. For a board whose bitboards are 64-bit words and whose two colour sets are disjoint,
and for a knight, bishop, rook, queen or king (kind `k`) of the side to move on square `f`,
with `A = attackSet k f occ`: for every square `d`, the non-CASTLE moves that `GenerateQuiets`
emits for that piece to `d` are the single QUIET move `f → d` when `d` is in `A` and empty,
and none otherwise; the moves that `GenerateCaptures` emits for that piece to `d` are the
single CAPTURE move `f → d` when `d` is in `A` and held by the opponent, and none otherwise;
and no move of that piece lands on a square held by the mover's own colour. -/
theorem piece_moves_exact (env : Env) (b : Board) (hok : b.ok)
    (hdis : b.colors .WHITE &&& b.colors .BLACK = 0) (k : Piece)
    (hk : k = .KNIGHT ∨ k = .BISHOP ∨ k = .ROOK ∨ k = .QUEEN ∨ k = .KING) (f : Nat)
    (hf : (b.pieces k &&& b.colors b.side).testBit f = true) :
    (∀ d, (GenerateQuiets env b []).filter
        (fun m => decide (m.piece = k ∧ m.from_ = f ∧ m.dest = d ∧ m.type ≠ .CASTLE)) =
      if (attackSet k f b.occ).testBit d = true ∧ b.occ.testBit d = false then
        [mkMove env b f d .QUIET .NO_PIECE b.side k]
      else []) ∧
    (∀ d, (GenerateCaptures env b []).filter
        (fun m => decide (m.piece = k ∧ m.from_ = f ∧ m.dest = d)) =
      if (attackSet k f b.occ).testBit d = true ∧ (b.colors b.side.opp).testBit d = true then
        [mkMove env b f d .CAPTURE .NO_PIECE b.side k]
      else []) ∧
    (∀ m ∈ GenerateQuiets env b [] ++ GenerateCaptures env b [],
      m.piece = k → m.from_ = f → (b.colors b.side).testBit m.dest = false) := by
  refine ⟨quiets_of_piece env b hok k hk f hf, captures_of_piece env b hok k hk f hf, ?_⟩
  intro m hm hmk hmf
  rw [List.mem_append] at hm
  rcases hm with hm | hm
  · by_cases ht : m.type = .CASTLE
    · rw [castle_mem_iff env b m ht, mem_genCastle] at hm
      apply own_not_occ
      rcases hm with ⟨⟨_, _, _, _, _, h6⟩, rfl⟩ | ⟨⟨_, _, _, _, _, h6, _⟩, rfl⟩
      · rw [one_shl_and_ne_zero, testBit_bnot] at h6
        have := h6.2
        simp only [Bool.and_eq_true, decide_eq_true_eq, Bool.not_eq_true'] at this
        exact this.2
      · rw [one_shl_and_ne_zero, testBit_bnot] at h6
        have := h6.2
        simp only [Bool.and_eq_true, decide_eq_true_eq, Bool.not_eq_true'] at this
        exact this.2
    · have := mem_singleton_of_filter (quiets_of_piece env b hok k hk f hf m.dest) hm
        (by simp [hmk, hmf, ht])
      exact own_not_occ b _ _ this.1.2
  · have := mem_singleton_of_filter (captures_of_piece env b hok k hk f hf m.dest) hm
      (by simp [hmk, hmf])
    exact own_not_opp b hdis _ _ this.1.2

set_option maxRecDepth 100000 in
theorem piece_moves_exact_witness :
    (GenerateQuiets env0 rboard []).filter
        (fun m => decide (m.piece = .ROOK ∧ m.from_ = 7 ∧ m.dest = 15 ∧ m.type ≠ .CASTLE)) =
      [mkMove env0 rboard 7 15 .QUIET .NO_PIECE .WHITE .ROOK] ∧
    (GenerateCaptures env0 rboard []).filter
        (fun m => decide (m.piece = .ROOK ∧ m.from_ = 7 ∧ m.dest = 39)) =
      [mkMove env0 rboard 7 39 .CAPTURE .NO_PIECE .WHITE .ROOK] :=
  ⟨((piece_moves_exact env0 rboard (by decide) (by decide) .ROOK (by decide) 7
      (by decide)).1 15).trans (by decide),
   ((piece_moves_exact env0 rboard (by decide) (by decide) .ROOK (by decide) 7
      (by decide)).2.1 39).trans (by decide)⟩

/-! ## Attacks and captures -/

theorem piece_capture_mem (env : Env) (b : Board) (hok : b.ok) (k : Piece)
    (hk : k = .KNIGHT ∨ k = .BISHOP ∨ k = .ROOK ∨ k = .QUEEN ∨ k = .KING) (f d : Nat)
    (hf : (b.pieces k &&& b.colors b.side).testBit f = true)
    (hA : (attackSet k f b.occ).testBit d = true)
    (ho : (b.colors b.side.opp).testBit d = true) :
    mkMove env b f d .CAPTURE .NO_PIECE b.side k ∈ GenerateCaptures env b [] := by
  have h := captures_of_piece env b hok k hk f hf d
  rw [if_pos ⟨hA, ho⟩] at h
  have : mkMove env b f d .CAPTURE .NO_PIECE b.side k ∈
      (GenerateCaptures env b []).filter
        (fun m => decide (m.piece = k ∧ m.from_ = f ∧ m.dest = d)) := by
    rw [h]; exact List.mem_singleton.mpr rfl
  exact (List.mem_filter.mp this).1

theorem attacked_of_capture (env : Env) (b : Board) (hok : b.ok) (m : Move)
    (hm : m ∈ GenerateCaptures env b []) : IsAttacked b b.side m.dest = true := by
  obtain ⟨h1, h2, h3, h4, h5, h6, h7, h8⟩ := hok
  have hside : b.colors b.side < 2 ^ 64 := by cases b.side <;> assumption
  rw [GenerateCaptures_split, List.mem_append] at hm
  rcases hm with hm | hm
  · -- pawn captures and en passant
    have hcases : (m.piece = .PAWN ∧ (m.type = .CAPTURE ∨ m.type = .CAPTURE_PROMOTION)) ∨
        m ∈ genEnPassant env b b.side [] := by
      have hm2 := hm
      rw [genPawnCaptures_eq] at hm2
      cases hs : b.side <;> rw [hs] at hm2 <;>
        simp only [List.nil_append, List.mem_append] at hm2
      all_goals
        rcases hm2 with (hx | hx) | hx
        · rw [mem_genPawnDir _ _ _ _ _ _
            (by first | exact shl_lt _ _ | exact shr_lt _ (and_lt_right _ (bnot_lt _)))] at hx
          obtain ⟨d1, _, _, ⟨_, rfl⟩ | ⟨_, rfl | rfl | rfl | rfl⟩⟩ := hx
          · exact Or.inl ⟨rfl, Or.inl rfl⟩
          all_goals exact Or.inl ⟨rfl, Or.inr rfl⟩
        · rw [mem_genPawnDir _ _ _ _ _ _
            (by first | exact shl_lt _ _ | exact shr_lt _ (and_lt_right _ (bnot_lt _)))] at hx
          obtain ⟨d1, _, _, ⟨_, rfl⟩ | ⟨_, rfl | rfl | rfl | rfl⟩⟩ := hx
          · exact Or.inl ⟨rfl, Or.inl rfl⟩
          all_goals exact Or.inl ⟨rfl, Or.inr rfl⟩
        · exact Or.inr hx
    rcases hcases with ⟨hp, ht⟩ | hep
    · have := (pawnCapture_iff env b m.from_ m.dest).mp ⟨m, hm, hp, ht, rfl, rfl⟩
      obtain ⟨hf, hpw, hcol, _, hpa⟩ := this
      rw [IsAttacked_attacker b b.side m.dest (PawnAttacks_lt _ _ _ hpa)]
      exact ⟨m.from_, hf, hcol, Or.inl ⟨hpw, hpa⟩⟩
    · rw [mem_genEnPassant] at hep
      obtain ⟨_, f, hpa, hpw, hcol, rfl⟩ := hep
      show IsAttacked b b.side b.ep = true
      rw [IsAttacked_eq_true]
      left
      rw [and_ne_zero_iff]
      exact ⟨f, hpa, by rw [Nat.testBit_and, hpw, hcol]; rfl⟩
  · -- piece captures
    rw [genPieceCaptures_eq] at hm
    simp only [List.nil_append, List.mem_append] at hm
    rcases hm with (((hm | hm) | hm) | hm) | hm
    · rw [mem_genPiece env b _ KnightAttacks _ _ _ (and_lt_right _ hside)
        (fun s => jumpSet_lt_pow knightJumps s)] at hm
      obtain ⟨f, d, hf, hA, _, rfl⟩ := hm
      rw [Nat.testBit_and, Bool.and_eq_true] at hf
      show IsAttacked b b.side d = true
      rw [IsAttacked_attacker b b.side _ (jumpSet_lt _ _ _ hA)]
      exact ⟨f, lt_of_testBit hside hf.2, hf.2, Or.inr (Or.inl ⟨hf.1, hA⟩)⟩
    · rw [mem_genPiece env b _ _ _ _ _ (and_lt_right _ hside)
        (fun s => BishopAttacks_lt_pow s _)] at hm
      obtain ⟨f, d, hf, hA, _, rfl⟩ := hm
      rw [Nat.testBit_and, Bool.and_eq_true] at hf
      show IsAttacked b b.side d = true
      rw [IsAttacked_attacker b b.side _ (BishopAttacks_lt _ _ _ hA)]
      exact ⟨f, lt_of_testBit hside hf.2, hf.2,
        Or.inr (Or.inr (Or.inr (Or.inl ⟨Or.inl hf.1, hA⟩)))⟩
    · rw [mem_genPiece env b _ _ _ _ _ (and_lt_right _ hside)
        (fun s => RookAttacks_lt_pow s _)] at hm
      obtain ⟨f, d, hf, hA, _, rfl⟩ := hm
      rw [Nat.testBit_and, Bool.and_eq_true] at hf
      show IsAttacked b b.side d = true
      rw [IsAttacked_attacker b b.side _ (RookAttacks_lt _ _ _ hA)]
      exact ⟨f, lt_of_testBit hside hf.2, hf.2,
        Or.inr (Or.inr (Or.inr (Or.inr ⟨Or.inl hf.1, hA⟩)))⟩
    · rw [mem_genPiece env b _ _ _ _ _ (and_lt_right _ hside)
        (fun s => QueenAttacks_lt_pow s _)] at hm
      obtain ⟨f, d, hf, hA, _, rfl⟩ := hm
      rw [Nat.testBit_and, Bool.and_eq_true] at hf
      show IsAttacked b b.side d = true
      rw [IsAttacked_attacker b b.side _ (lt_of_testBit (QueenAttacks_lt_pow _ _) hA)]
      unfold QueenAttacks at hA
      rw [Nat.testBit_or, Bool.or_eq_true] at hA
      rcases hA with hA | hA
      · exact ⟨f, lt_of_testBit hside hf.2, hf.2,
          Or.inr (Or.inr (Or.inr (Or.inl ⟨Or.inr hf.1, hA⟩)))⟩
      · exact ⟨f, lt_of_testBit hside hf.2, hf.2,
          Or.inr (Or.inr (Or.inr (Or.inr ⟨Or.inr hf.1, hA⟩)))⟩
    · rw [mem_genPiece env b _ KingAttacks _ _ _ (and_lt_right _ hside)
        (fun s => jumpSet_lt_pow kingSteps s)] at hm
      obtain ⟨f, d, hf, hA, _, rfl⟩ := hm
      rw [Nat.testBit_and, Bool.and_eq_true] at hf
      show IsAttacked b b.side d = true
      rw [IsAttacked_attacker b b.side _ (jumpSet_lt _ _ _ hA)]
      exact ⟨f, lt_of_testBit hside hf.2, hf.2, Or.inr (Or.inr (Or.inl ⟨hf.1, hA⟩))⟩

theorem capture_of_attacked (env : Env) (b : Board) (hok : b.ok) (s : Nat)
    (ho : (b.colors b.side.opp).testBit s = true) (ha : IsAttacked b b.side s = true) :
    ∃ m ∈ GenerateCaptures env b [], m.dest = s := by
  have hopp : b.colors b.side.opp < 2 ^ 64 := by
    obtain ⟨_, _, _, _, _, _, h7, h8⟩ := hok
    cases b.side <;> assumption
  have hs : s < 64 := lt_of_testBit hopp ho
  rw [IsAttacked_attacker b b.side s hs] at ha
  obtain ⟨f, hf, hcol, h⟩ := ha
  have pk : ∀ k, (b.pieces k).testBit f = true →
      (b.pieces k &&& b.colors b.side).testBit f = true := by
    intro k hk; rw [Nat.testBit_and, hk, hcol]; rfl
  rcases h with ⟨hp, hA⟩ | ⟨hp, hA⟩ | ⟨hp, hA⟩ | ⟨hp | hp, hA⟩ | ⟨hp | hp, hA⟩
  · obtain ⟨m, hm, _, _, _, hd⟩ :=
      (capture_pawn_iff env b f s).mpr ⟨hf, hp, hcol, ho, hA⟩
    exact ⟨m, hm, hd⟩
  · exact ⟨_, piece_capture_mem env b hok .KNIGHT (by simp) f s (pk _ hp) hA ho, rfl⟩
  · exact ⟨_, piece_capture_mem env b hok .KING (by simp) f s (pk _ hp) hA ho, rfl⟩
  · exact ⟨_, piece_capture_mem env b hok .BISHOP (by simp) f s (pk _ hp) hA ho, rfl⟩
  · refine ⟨_, piece_capture_mem env b hok .QUEEN (by simp) f s (pk _ hp) ?_ ho, rfl⟩
    simp only [attackSet, QueenAttacks, Nat.testBit_or, Board.occ]
    rw [hA]; rfl
  · exact ⟨_, piece_capture_mem env b hok .ROOK (by simp) f s (pk _ hp) hA ho, rfl⟩
  · refine ⟨_, piece_capture_mem env b hok .QUEEN (by simp) f s (pk _ hp) ?_ ho, rfl⟩
    simp only [attackSet, QueenAttacks, Nat.testBit_or, Board.occ]
    rw [hA]; simp

/-- C9, as amended. For a board whose bitboards are 64-bit words, with `c` the side to move:
every move emitted by `GenerateCaptures` lands on a square that `IsAttacked b c` reports as
attacked, and a square held by a piece of the opponent is reported as attacked exactly when
`GenerateCaptures` emits at least one move whose `dest` is that square. -/
theorem attacked_iff_capture_on_enemy (env : Env) (b : Board) (hok : b.ok) (s : Nat) :
    ((∃ m ∈ GenerateCaptures env b [], m.dest = s) → IsAttacked b b.side s = true) ∧
    ((b.colors b.side.opp).testBit s = true →
      (IsAttacked b b.side s = true ↔ ∃ m ∈ GenerateCaptures env b [], m.dest = s)) := by
  have h1 : (∃ m ∈ GenerateCaptures env b [], m.dest = s) → IsAttacked b b.side s = true := by
    rintro ⟨m, hm, rfl⟩
    exact attacked_of_capture env b hok m hm
  exact ⟨h1, fun ho => ⟨capture_of_attacked env b hok s ho, h1⟩⟩

set_option maxRecDepth 100000 in
theorem attacked_iff_capture_on_enemy_witness :
    rboard.ok ∧ (rboard.colors rboard.side.opp).testBit 39 = true ∧
      (IsAttacked rboard rboard.side 39 = true ↔
        ∃ m ∈ GenerateCaptures env0 rboard [], m.dest = 39) :=
  ⟨by decide, by decide,
    (attacked_iff_capture_on_enemy env0 rboard (by decide) 39).2 (by decide)⟩

set_option maxRecDepth 100000 in
/-- C9 as stated fails: on a valid board with the white king on e1, a white rook on h1 and the
black king on e8, white to move, the empty square f1 is attacked by white, yet
`GenerateCaptures` emits no move at all. -/
theorem attack_symmetry_counterexample :
    wboard.valid ∧
      ¬ (IsAttacked wboard wboard.side 5 = true ↔
          ∃ m ∈ GenerateCaptures env0 wboard [], m.dest = 5) := by
  decide

/-! ## Move ordering -/

theorem insertSorted_perm (x : Move) (l : List Move) : (insertSorted x l).Perm (x :: l) := by
  induction l with
  | nil => exact List.Perm.refl _
  | cons y ys ih =>
    unfold insertSorted
    split_ifs
    · exact (List.Perm.cons y ih).trans (List.Perm.swap x y ys)
    · exact List.Perm.refl _

theorem stable_sort_perm (l : List Move) : (stable_sort l).Perm l := by
  induction l with
  | nil => exact List.Perm.refl _
  | cons x xs ih =>
    unfold stable_sort
    exact (insertSorted_perm x _).trans (List.Perm.cons x ih)

theorem insertSorted_sorted (x : Move) (l : List Move)
    (h : l.Pairwise (fun a c => a.score ≥ c.score)) :
    (insertSorted x l).Pairwise (fun a c => a.score ≥ c.score) := by
  induction l with
  | nil => exact List.pairwise_singleton _ _
  | cons y ys ih =>
    rw [List.pairwise_cons] at h
    unfold insertSorted
    by_cases hlt : Move.lt y x = true
    · rw [if_pos hlt, List.pairwise_cons]
      refine ⟨?_, ih h.2⟩
      intro z hz
      rcases List.mem_cons.mp ((insertSorted_perm x ys).subset hz) with rfl | hz
      · have : y.score > z.score := by simpa [Move.lt] using hlt
        omega
      · exact h.1 z hz
    · rw [if_neg hlt, List.pairwise_cons]
      have hxy : x.score ≥ y.score := by
        have : ¬ y.score > x.score := by simpa [Move.lt] using hlt
        omega
      refine ⟨?_, List.pairwise_cons.mpr h⟩
      intro z hz
      rcases List.mem_cons.mp hz with rfl | hz
      · exact hxy
      · have := h.1 z hz
        omega

theorem stable_sort_sorted (l : List Move) :
    (stable_sort l).Pairwise (fun a c => a.score ≥ c.score) := by
  induction l with
  | nil => exact List.Pairwise.nil
  | cons x xs ih =>
    unfold stable_sort
    exact insertSorted_sorted x _ ih

theorem insertSorted_filter (v : Int) (x : Move) (l : List Move) :
    (insertSorted x l).filter (fun m => decide (m.score = v)) =
      (x :: l).filter (fun m => decide (m.score = v)) := by
  induction l with
  | nil => rfl
  | cons y ys ih =>
    unfold insertSorted
    by_cases hlt : Move.lt y x = true
    · rw [if_pos hlt]
      have hgt : y.score > x.score := by simpa [Move.lt] using hlt
      simp only [List.filter_cons] at ih ⊢
      rw [ih]
      by_cases hx : x.score = v
      · have hy : ¬ y.score = v := by omega
        simp [hx, hy]
      · simp [hx]
    · rw [if_neg hlt]

theorem stable_sort_filter (v : Int) (l : List Move) :
    (stable_sort l).filter (fun m => decide (m.score = v)) =
      l.filter (fun m => decide (m.score = v)) := by
  induction l with
  | nil => rfl
  | cons x xs ih =>
    unfold stable_sort
    rw [insertSorted_filter, List.filter_cons, List.filter_cons, ih]

theorem drain_eq_drop (n : Nat) : ∀ (s : SortBuf), s.movecount = s.m.length →
    s.movecount - s.i = n → drain n s = s.m.drop s.i := by
  induction n with
  | zero =>
    intro s hlen hn
    have : s.m.length ≤ s.i := by omega
    rw [List.drop_eq_nil_of_le this]
    rfl
  | succ n ih =>
    intro s hlen hn
    have hi : s.i < s.movecount := by omega
    unfold drain NextMove
    simp only [if_pos hi]
    rw [ih { s with i := s.i + 1 } hlen (by simp only []; omega)]
    have hi2 : s.i < s.m.length := by omega
    rw [List.drop_eq_getElem_cons hi2, List.getD_eq_getElem _ _ hi2]

theorem yield_of_start (m : List Move) :
    (SortBuf.mk (stable_sort m) m.length 0).yield = stable_sort m := by
  unfold SortBuf.yield
  rw [drain_eq_drop _ _ ((stable_sort_perm m).length_eq.symm) rfl]
  rfl

theorem markHint_null (ttm : Move) (m : List Move) :
    (if ttm.from_ ≠ ttm.dest then markHint ttm m else m) = m ∨ ttm.from_ ≠ ttm.dest := by
  by_cases h : ttm.from_ = ttm.dest
  · left; rw [if_neg (by simpa using h)]
  · right; exact h

theorem InitSort_null (env : Env) (b : Board) (ttm : Move) (h : ttm.from_ = ttm.dest) :
    InitSort env b ttm =
      { m := stable_sort (GenerateCaptures env b [] ++ GenerateQuiets env b []),
        movecount := (GenerateCaptures env b [] ++ GenerateQuiets env b []).length, i := 0 } := by
  unfold InitSort
  simp only [ne_eq, h, not_true_eq_false, if_false]
  rw [GenerateQuiets_append]

theorem NextMove_at (m : List Move) (k : Nat) (hk : k < m.length) :
    NextMove { m := stable_sort m, movecount := m.length, i := k } =
      some ((stable_sort m).getD k default,
        { m := stable_sort m, movecount := m.length, i := k + 1 }) := by
  unfold NextMove
  simp only [if_pos hk]

theorem NextMove_end (m : List Move) :
    NextMove { m := stable_sort m, movecount := m.length, i := m.length } = none := by
  unfold NextMove
  simp only [lt_irrefl, if_false]

/-- C7. With a null hint (`ttm.from == ttm.dest`), the moves handed out by repeated `NextMove`
after `InitSort` are a permutation of the moves of `GenerateCaptures` followed by those of
`GenerateQuiets`, in non-increasing score order, and for every score the moves with that score
come in generation order (captures before quiets); the cursor starts at 0, `NextMove` hands
out the entry under the cursor and advances it for each of the `movecount` entries, and
returns 0 once the cursor is at `movecount`. -/
theorem InitSort_null_hint_order (env : Env) (b : Board) (ttm : Move)
    (h : ttm.from_ = ttm.dest) :
    (InitSort env b ttm).yield.Perm (GenerateCaptures env b [] ++ GenerateQuiets env b []) ∧
    (InitSort env b ttm).yield.Pairwise (fun a c => a.score ≥ c.score) ∧
    (∀ v : Int, (InitSort env b ttm).yield.filter (fun m => decide (m.score = v)) =
      (GenerateCaptures env b [] ++ GenerateQuiets env b []).filter
        (fun m => decide (m.score = v))) ∧
    (InitSort env b ttm).i = 0 ∧
    (InitSort env b ttm).movecount =
      (GenerateCaptures env b [] ++ GenerateQuiets env b []).length ∧
    (InitSort env b ttm).yield.length = (InitSort env b ttm).movecount ∧
    (∀ k, k < (InitSort env b ttm).movecount →
      NextMove { InitSort env b ttm with i := k } =
        some ((InitSort env b ttm).yield.getD k default,
          { InitSort env b ttm with i := k + 1 })) ∧
    NextMove { InitSort env b ttm with i := (InitSort env b ttm).movecount } = none := by
  rw [InitSort_null env b ttm h, yield_of_start]
  refine ⟨stable_sort_perm _, stable_sort_sorted _, fun v => stable_sort_filter v _, rfl, rfl,
    (stable_sort_perm _).length_eq, fun k hk => NextMove_at _ k hk, NextMove_end _⟩

set_option maxRecDepth 100000 in
theorem InitSort_null_hint_order_witness :
    nullMove.from_ = nullMove.dest ∧
    (InitSort env0 rboard nullMove).yield.Perm
      (GenerateCaptures env0 rboard [] ++ GenerateQuiets env0 rboard []) ∧
    (InitSort env0 rboard nullMove).yield.length = 11 :=
  ⟨rfl, (InitSort_null_hint_order env0 rboard nullMove rfl).1,
    ((InitSort_null_hint_order env0 rboard nullMove rfl).2.2.2.2.2.1).trans (by decide)⟩

/-! ## Search: the board is restored -/

theorem quiesLoop_board (env : Env) (hU : Restores env)
    (self : Board → Int → Int → Counters → Option QOut)
    (hself : ∀ b a be c r, self b a be c = some r → r.board = b) :
    ∀ (ms : List Move) (b : Board) (alpha beta : Int) (c : Counters) (r : QOut),
      quiesLoop env self ms b alpha beta c = some r → r.board = b := by
  intro ms
  induction ms with
  | nil =>
    intro b alpha beta c r h
    simp only [quiesLoop, Option.some.injEq] at h
    rw [← h]
  | cons m ms ih =>
    intro b alpha beta c r h
    simp only [quiesLoop] at h
    by_cases hill : IsIllegal (env.MakeMove b m).1 = true
    · rw [if_pos hill] at h
      have := ih _ _ _ _ _ h
      rw [hU] at this
      exact this
    · rw [if_neg hill] at h
      cases hs : self (env.MakeMove b m).1 (-beta) (-alpha) c with
      | none => rw [hs] at h; exact absurd h (by simp)
      | some r1 =>
        rw [hs] at h
        simp only [] at h
        have hb1 : env.UnmakeMove r1.board (env.MakeMove b m).2 m = b := by
          rw [hself _ _ _ _ _ hs, hU]
        rw [hb1] at h
        by_cases h1 : -r1.val ≥ beta
        · rw [if_pos h1] at h
          simp only [Option.some.injEq] at h
          rw [← h]
        · rw [if_neg h1] at h
          by_cases h2 : -r1.val > alpha
          · rw [if_pos h2] at h
            exact ih _ _ _ _ _ h
          · rw [if_neg h2] at h
            exact ih _ _ _ _ _ h

theorem Quies_board (env : Env) (hU : Restores env) :
    ∀ (n : Nat) (b : Board) (alpha beta : Int) (c : Counters) (r : QOut),
      Quies env n b alpha beta c = some r → r.board = b := by
  intro n
  induction n with
  | zero => intro b alpha beta c r h; simp [Quies] at h
  | succ n ih =>
    intro b alpha beta c r h
    simp only [Quies] at h
    by_cases h1 : env.Eval b ≥ beta
    · rw [if_pos h1] at h
      simp only [Option.some.injEq] at h
      rw [← h]
    · rw [if_neg h1] at h
      exact quiesLoop_board env hU _ ih _ _ _ _ _ _ h

theorem searchLoop_board (env : Env) (hU : Restores env)
    (self : Board → Int → Int → PV → Counters → Option SOut)
    (hself : ∀ b a be p c r, self b a be p c = some r → r.board = b) (ply : Int) :
    ∀ (ms : List Move) (b : Board) (alpha beta : Int) (moves : Nat) (pv cpv : PV)
      (c : Counters) (r : SOut),
      searchLoop env self ply ms b alpha beta moves pv cpv c = some r → r.board = b := by
  intro ms
  induction ms with
  | nil =>
    intro b alpha beta moves pv cpv c r h
    simp only [searchLoop] at h
    split_ifs at h <;> (simp only [Option.some.injEq] at h; rw [← h])
  | cons m ms ih =>
    intro b alpha beta moves pv cpv c r h
    simp only [searchLoop] at h
    by_cases hill : IsIllegal (env.MakeMove b m).1 = true
    · rw [if_pos hill] at h
      have := ih _ _ _ _ _ _ _ _ h
      rw [hU] at this
      exact this
    · rw [if_neg hill] at h
      cases hs : self (env.MakeMove b m).1 (-beta) (-alpha) cpv c with
      | none => rw [hs] at h; exact absurd h (by simp)
      | some r1 =>
        rw [hs] at h
        simp only [] at h
        have hb1 : env.UnmakeMove r1.board (env.MakeMove b m).2 m = b := by
          rw [hself _ _ _ _ _ _ hs, hU]
        rw [hb1] at h
        by_cases h1 : -r1.val ≥ beta
        · rw [if_pos h1] at h
          simp only [Option.some.injEq] at h
          rw [← h]
        · rw [if_neg h1] at h
          by_cases h2 : -r1.val > alpha
          · rw [if_pos h2] at h
            exact ih _ _ _ _ _ _ _ _ h
          · rw [if_neg h2] at h
            exact ih _ _ _ _ _ _ _ _ h

theorem Search_board (env : Env) (hU : Restores env) (qfuel : Nat) :
    ∀ (d : Nat) (b : Board) (alpha beta ply : Int) (pv : PV) (c : Counters) (r : SOut),
      Search env qfuel d b alpha beta ply pv c = some r → r.board = b := by
  intro d
  induction d with
  | zero =>
    intro b alpha beta ply pv c r h
    simp only [Search] at h
    cases hq : Quies env qfuel b alpha beta { c with nodes := c.nodes + 1 } with
    | none => rw [hq] at h; exact absurd h (by simp)
    | some q =>
      rw [hq] at h
      simp only [Option.some.injEq] at h
      rw [← h]
      exact Quies_board env hU _ _ _ _ _ _ hq
  | succ d ih =>
    intro b alpha beta ply pv c r h
    simp only [Search] at h
    exact searchLoop_board env hU _ (fun b a be p c r h => ih b a be (ply + 1) p c r h) ply
      _ _ _ _ _ _ _ _ _ h

/-- C8. Assuming `UnmakeMove` restores the board that preceded the matching `MakeMove`:
whenever `Search` returns, whatever the exit path, the board it leaves behind is the board it
was called on, and the same holds for `Quies`. -/
theorem Search_restores_board (env : Env) (hU : Restores env) :
    (∀ (qfuel d : Nat) (b : Board) (alpha beta ply : Int) (pv : PV) (c : Counters) (r : SOut),
      Search env qfuel d b alpha beta ply pv c = some r → r.board = b) ∧
    (∀ (n : Nat) (b : Board) (alpha beta : Int) (c : Counters) (r : QOut),
      Quies env n b alpha beta c = some r → r.board = b) :=
  ⟨fun qfuel => Search_board env hU qfuel, Quies_board env hU⟩

set_option maxRecDepth 100000 in
theorem Search_restores_board_witness :
    Restores env0 ∧
      (∃ r, Search env0 2 1 rboard (-100) 100 0 pv0 c0 = some r ∧ r.board = rboard) ∧
      (∃ r, Quies env0 2 rboard (-100) 100 c0 = some r ∧ r.board = rboard) := by
  have h : (Search env0 2 1 rboard (-100) 100 0 pv0 c0).isSome = true := by decide
  have hq : (Quies env0 2 rboard (-100) 100 c0).isSome = true := by decide
  obtain ⟨r, hr⟩ := Option.isSome_iff_exists.mp h
  obtain ⟨q, hq⟩ := Option.isSome_iff_exists.mp hq
  exact ⟨fun _ _ => rfl,
    ⟨r, hr, (Search_restores_board env0 (fun _ _ => rfl)).1 _ _ _ _ _ _ _ _ r hr⟩,
    ⟨q, hq, (Search_restores_board env0 (fun _ _ => rfl)).2 _ _ _ _ _ q hq⟩⟩

/-! ## Search: the window -/

theorem quiesLoop_window (env : Env) (self : Board → Int → Int → Counters → Option QOut) :
    ∀ (ms : List Move) (b : Board) (alpha beta : Int) (c : Counters) (r : QOut),
      alpha ≤ beta → quiesLoop env self ms b alpha beta c = some r →
        alpha ≤ r.val ∧ r.val ≤ beta := by
  intro ms
  induction ms with
  | nil =>
    intro b alpha beta c r hab h
    simp only [quiesLoop, Option.some.injEq] at h
    rw [← h]
    exact ⟨le_refl _, hab⟩
  | cons m ms ih =>
    intro b alpha beta c r hab h
    simp only [quiesLoop] at h
    by_cases hill : IsIllegal (env.MakeMove b m).1 = true
    · rw [if_pos hill] at h
      exact ih _ _ _ _ _ hab h
    · rw [if_neg hill] at h
      cases hs : self (env.MakeMove b m).1 (-beta) (-alpha) c with
      | none => rw [hs] at h; exact absurd h (by simp)
      | some r1 =>
        rw [hs] at h
        simp only [] at h
        by_cases h1 : -r1.val ≥ beta
        · rw [if_pos h1] at h
          simp only [Option.some.injEq] at h
          rw [← h]
          exact ⟨hab, le_refl _⟩
        · rw [if_neg h1] at h
          by_cases h2 : -r1.val > alpha
          · rw [if_pos h2] at h
            have := ih _ _ _ _ _ (by omega) h
            exact ⟨by omega, this.2⟩
          · rw [if_neg h2] at h
            exact ih _ _ _ _ _ hab h

theorem Quies_window (env : Env) (n : Nat) (b : Board) (alpha beta : Int) (c : Counters)
    (r : QOut) (hab : alpha ≤ beta) (h : Quies env n b alpha beta c = some r) :
    alpha ≤ r.val ∧ r.val ≤ beta := by
  cases n with
  | zero => simp [Quies] at h
  | succ n =>
    simp only [Quies] at h
    by_cases h1 : env.Eval b ≥ beta
    · rw [if_pos h1] at h
      simp only [Option.some.injEq] at h
      rw [← h]
      exact ⟨hab, le_refl _⟩
    · rw [if_neg h1] at h
      by_cases h2 : env.Eval b > alpha
      · rw [if_pos h2] at h
        have := quiesLoop_window env _ _ _ _ _ _ _ (by omega) h
        exact ⟨by omega, this.2⟩
      · rw [if_neg h2] at h
        exact quiesLoop_window env _ _ _ _ _ _ _ hab h

theorem searchLoop_window (env : Env) (hU : Restores env)
    (self : Board → Int → Int → PV → Counters → Option SOut) (ply : Int) :
    ∀ (ms : List Move) (b : Board) (alpha beta : Int) (moves : Nat) (pv cpv : PV)
      (c : Counters) (r : SOut),
      alpha ≤ beta → searchLoop env self ply ms b alpha beta moves pv cpv c = some r →
      (0 < moves ∨ ∃ m ∈ ms, IsIllegal (env.MakeMove b m).1 = false) →
        alpha ≤ r.val ∧ r.val ≤ beta := by
  intro ms
  induction ms with
  | nil =>
    intro b alpha beta moves pv cpv c r hab h hlegal
    have hm : moves ≠ 0 := by
      rcases hlegal with h | ⟨m, hm, _⟩
      · omega
      · exact absurd hm (List.not_mem_nil _)
    simp only [searchLoop, if_neg hm, Option.some.injEq] at h
    rw [← h]
    exact ⟨le_refl _, hab⟩
  | cons m ms ih =>
    intro b alpha beta moves pv cpv c r hab h hlegal
    simp only [searchLoop] at h
    by_cases hill : IsIllegal (env.MakeMove b m).1 = true
    · rw [if_pos hill, hU] at h
      refine ih _ _ _ _ _ _ _ _ hab h ?_
      rcases hlegal with h0 | ⟨m1, hm1, hl⟩
      · exact Or.inl h0
      · rcases List.mem_cons.mp hm1 with rfl | hm1
        · rw [hill] at hl; exact absurd hl (by simp)
        · exact Or.inr ⟨m1, hm1, hl⟩
    · rw [if_neg hill] at h
      cases hs : self (env.MakeMove b m).1 (-beta) (-alpha) cpv c with
      | none => rw [hs] at h; exact absurd h (by simp)
      | some r1 =>
        rw [hs] at h
        simp only [] at h
        by_cases h1 : -r1.val ≥ beta
        · rw [if_pos h1] at h
          simp only [Option.some.injEq] at h
          rw [← h]
          exact ⟨hab, le_refl _⟩
        · rw [if_neg h1] at h
          by_cases h2 : -r1.val > alpha
          · rw [if_pos h2] at h
            have := ih _ _ _ _ _ _ _ _ (by omega) h (Or.inl (Nat.succ_pos _))
            exact ⟨by omega, this.2⟩
          · rw [if_neg h2] at h
            exact ih _ _ _ _ _ _ _ _ hab h (Or.inl (Nat.succ_pos _))

theorem Search_window (env : Env) (hU : Restores env) (qfuel d : Nat) (b : Board)
    (alpha beta ply : Int) (pv : PV) (c : Counters) (r : SOut) (hab : alpha ≤ beta)
    (hlegal : d = 0 ∨
      ∃ m ∈ (InitSort env b nullMove).yield, IsIllegal (env.MakeMove b m).1 = false)
    (h : Search env qfuel d b alpha beta ply pv c = some r) :
    alpha ≤ r.val ∧ r.val ≤ beta := by
  cases d with
  | zero =>
    simp only [Search] at h
    cases hq : Quies env qfuel b alpha beta { c with nodes := c.nodes + 1 } with
    | none => rw [hq] at h; exact absurd h (by simp)
    | some q =>
      rw [hq] at h
      simp only [Option.some.injEq] at h
      rw [← h]
      exact Quies_window env _ _ _ _ _ _ hab hq
  | succ d =>
    simp only [Search] at h
    have hl : ∃ m ∈ (InitSort env b nullMove).yield,
        IsIllegal (env.MakeMove b m).1 = false := by
      rcases hlegal with h0 | h0
      · exact absurd h0 (Nat.succ_ne_zero _)
      · exact h0
    exact searchLoop_window env hU _ ply _ _ _ _ _ _ _ _ _ hab h (Or.inr hl)

/-- C2, as amended. Assuming `UnmakeMove` restores the board that preceded the matching
`MakeMove`: for every window with `alpha ≤ beta`, if the depth is 0, or some move handed out
by `InitSort` is not rejected by `IsIllegal` after `MakeMove`, then the value returned by
`Search` lies in the closed interval `[alpha, beta]`. -/
theorem Search_fail_hard (env : Env) (hU : Restores env) (qfuel d : Nat) (b : Board)
    (alpha beta ply : Int) (pv : PV) (c : Counters) (r : SOut) (hab : alpha ≤ beta)
    (hlegal : d = 0 ∨
      ∃ m ∈ (InitSort env b nullMove).yield, IsIllegal (env.MakeMove b m).1 = false)
    (h : Search env qfuel d b alpha beta ply pv c = some r) :
    alpha ≤ r.val ∧ r.val ≤ beta :=
  Search_window env hU qfuel d b alpha beta ply pv c r hab hlegal h

set_option maxRecDepth 100000 in
theorem Search_fail_hard_witness :
    Restores env0 ∧
      ∃ r, Search env0 2 1 rboard (-100) 100 0 pv0 c0 = some r ∧ -100 ≤ r.val ∧ r.val ≤ 100 := by
  have h : (Search env0 2 1 rboard (-100) 100 0 pv0 c0).isSome = true := by decide
  obtain ⟨r, hr⟩ := Option.isSome_iff_exists.mp h
  exact ⟨fun _ _ => rfl, r, hr,
    Search_fail_hard env0 (fun _ _ => rfl) 2 1 rboard (-100) 100 0 pv0 c0 r (by decide)
      (Or.inr (by decide)) hr⟩

set_option maxRecDepth 100000 in
/-- C2 as stated fails: on the valid position `blocked`, where white is to move, has no
pseudo-legal move and is not in check, `Search` at depth 1 with the window `[1, 2]` returns
the stalemate value 0, which is below `alpha`. No move is generated, so neither `MakeMove` nor
`Eval` is consulted. -/
theorem Search_fail_hard_counterexample :
    blocked.valid ∧ (1 : Int) ≤ 2 ∧
      (Search env0 0 1 blocked 1 2 0 pv0 c0).map SOut.val = some 0 ∧
      ¬ ((1 : Int) ≤ 0 ∧ (0 : Int) ≤ 2) := by
  decide

/-! ## Search: positions without a playable move -/

theorem quiesLoop_rejected (env : Env) (hU : Restores env)
    (self : Board → Int → Int → Counters → Option QOut) (b : Board) (alpha beta : Int)
    (c : Counters) :
    ∀ (ms : List Move), (∀ m ∈ ms, IsIllegal (env.MakeMove b m).1 = true) →
      quiesLoop env self ms b alpha beta c = some ⟨alpha, b, c⟩ := by
  intro ms
  induction ms with
  | nil => intro _; rfl
  | cons m ms ih =>
    intro h
    simp only [quiesLoop]
    rw [if_pos (h m (List.mem_cons_self _ _)), hU]
    exact ih (fun m1 hm1 => h m1 (List.mem_cons_of_mem _ hm1))

theorem searchLoop_rejected (env : Env) (hU : Restores env)
    (self : Board → Int → Int → PV → Counters → Option SOut) (ply : Int) (b : Board)
    (alpha beta : Int) (pv cpv : PV) (c : Counters) :
    ∀ (ms : List Move), (∀ m ∈ ms, IsIllegal (env.MakeMove b m).1 = true) →
      searchLoop env self ply ms b alpha beta 0 pv cpv c =
        some ⟨if IsInCheck b = true then -env.MATE + ply else 0, b, pv, c⟩ := by
  intro ms
  induction ms with
  | nil =>
    intro _
    simp only [searchLoop, if_true]
    by_cases hc : IsInCheck b = true
    · rw [if_pos hc, if_pos hc]
    · rw [if_neg hc, if_neg hc]
  | cons m ms ih =>
    intro h
    simp only [searchLoop]
    rw [if_pos (h m (List.mem_cons_self _ _)), hU]
    exact ih (fun m1 hm1 => h m1 (List.mem_cons_of_mem _ hm1))

/-- C3. Assuming `UnmakeMove` restores the board that preceded the matching `MakeMove`: at
every depth `d + 1 ≥ 1` and for every window, if every move handed out by `InitSort` is
rejected by `IsIllegal` after `MakeMove`, then `Search` returns, its value is `-MATE + ply`
when `IsInCheck b` holds and 0 otherwise, whatever `alpha` and `beta` are, and the board and
the caller's PV are left as they were. -/
theorem Search_no_legal_move (env : Env) (hU : Restores env) (qfuel d : Nat) (b : Board)
    (alpha beta ply : Int) (pv : PV) (c : Counters)
    (h : ∀ m ∈ (InitSort env b nullMove).yield, IsIllegal (env.MakeMove b m).1 = true) :
    Search env qfuel (d + 1) b alpha beta ply pv c =
      some ⟨if IsInCheck b = true then -env.MATE + ply else 0, b, pv,
        { c with nodes := c.nodes + 1 }⟩ := by
  simp only [Search]
  exact searchLoop_rejected env hU _ ply b alpha beta pv _ _ _ h

set_option maxRecDepth 100000 in
theorem Search_no_legal_move_witness :
    Restores env0 ∧ (InitSort env0 iboard nullMove).yield.length = 14 ∧
      (∀ m ∈ (InitSort env0 iboard nullMove).yield,
        IsIllegal (env0.MakeMove iboard m).1 = true) ∧
      (Search env0 0 1 iboard 5 7 3 pv0 c0).map SOut.val = some 0 :=
  ⟨fun _ _ => rfl, by decide, by decide,
    (congrArg (Option.map SOut.val)
      (Search_no_legal_move env0 (fun _ _ => rfl) 0 0 iboard 5 7 3 pv0 c0 (by decide))).trans
      (by decide)⟩

theorem InitSortQuies_yield (env : Env) (b : Board) :
    (InitSortQuies env b).yield = stable_sort (GenerateCaptures env b []) := by
  unfold InitSortQuies
  exact yield_of_start _

/-- C10. Assuming `UnmakeMove` restores the board that preceded the matching `MakeMove`: on a
board where `GenerateCaptures` emits no move, or every emitted move is rejected by
`IsIllegal` after `MakeMove`, and for a window with `alpha ≤ beta`, `Quies` (with any nesting
budget of at least one call) returns `Eval b` clamped to the window,
`min beta (max alpha (Eval b))`, and leaves the board as it was. -/
theorem Quies_quiet_position (env : Env) (hU : Restores env) (n : Nat) (b : Board)
    (alpha beta : Int) (c : Counters) (hab : alpha ≤ beta)
    (h : ∀ m ∈ GenerateCaptures env b [], IsIllegal (env.MakeMove b m).1 = true) :
    Quies env (n + 1) b alpha beta c =
      some ⟨min beta (max alpha (env.Eval b)), b, { c with nodes := c.nodes + 1 }⟩ := by
  have hy : ∀ m ∈ (InitSortQuies env b).yield, IsIllegal (env.MakeMove b m).1 = true := by
    intro m hm
    rw [InitSortQuies_yield] at hm
    exact h m ((stable_sort_perm _).mem_iff.mp hm)
  simp only [Quies]
  by_cases h1 : env.Eval b ≥ beta
  · rw [if_pos h1]
    have : min beta (max alpha (env.Eval b)) = beta := by
      rw [min_eq_left]
      exact le_trans h1 (le_max_right _ _)
    rw [this]
  · rw [if_neg h1, quiesLoop_rejected env hU _ b _ beta _ _ hy]
    have : min beta (max alpha (env.Eval b)) =
        if env.Eval b > alpha then env.Eval b else alpha := by
      by_cases h2 : env.Eval b > alpha
      · rw [if_pos h2, max_eq_right (le_of_lt h2), min_eq_right (by omega)]
      · rw [if_neg h2, max_eq_left (by omega), min_eq_right hab]
    rw [this]

set_option maxRecDepth 100000 in
theorem Quies_quiet_position_witness :
    Restores env0 ∧ (GenerateCaptures env0 iboard []).length = 1 ∧
      (∀ m ∈ GenerateCaptures env0 iboard [],
        IsIllegal (env0.MakeMove iboard m).1 = true) ∧
      (Quies env0 1 iboard 5 7 c0).map QOut.val = some 5 :=
  ⟨fun _ _ => rfl, by decide, by decide,
    (congrArg (Option.map QOut.val)
      (Quies_quiet_position env0 (fun _ _ => rfl) 0 iboard 5 7 c0 (by decide)
        (by decide))).trans (by decide)⟩

/-! ## Search: the nesting budget

A larger budget for the nesting of `Quies` never changes an answer already obtained. -/

theorem quiesLoop_mono (env : Env) (self self1 : Board → Int → Int → Counters → Option QOut)
    (hself : ∀ b a be c r, self b a be c = some r → self1 b a be c = some r) :
    ∀ (ms : List Move) (b : Board) (alpha beta : Int) (c : Counters) (r : QOut),
      quiesLoop env self ms b alpha beta c = some r →
        quiesLoop env self1 ms b alpha beta c = some r := by
  intro ms
  induction ms with
  | nil => intro b alpha beta c r h; exact h
  | cons m ms ih =>
    intro b alpha beta c r h
    simp only [quiesLoop] at h ⊢
    by_cases hill : IsIllegal (env.MakeMove b m).1 = true
    · rw [if_pos hill] at h ⊢
      exact ih _ _ _ _ _ h
    · rw [if_neg hill] at h ⊢
      cases hs : self (env.MakeMove b m).1 (-beta) (-alpha) c with
      | none => rw [hs] at h; exact absurd h (by simp)
      | some r1 =>
        rw [hs] at h
        rw [hself _ _ _ _ _ hs]
        simp only [] at h ⊢
        by_cases h1 : -r1.val ≥ beta
        · rw [if_pos h1] at h ⊢
          exact h
        · rw [if_neg h1] at h ⊢
          by_cases h2 : -r1.val > alpha
          · rw [if_pos h2] at h ⊢
            exact ih _ _ _ _ _ h
          · rw [if_neg h2] at h ⊢
            exact ih _ _ _ _ _ h

theorem Quies_succ (env : Env) :
    ∀ (n : Nat) (b : Board) (alpha beta : Int) (c : Counters) (r : QOut),
      Quies env n b alpha beta c = some r → Quies env (n + 1) b alpha beta c = some r := by
  intro n
  induction n with
  | zero => intro b alpha beta c r h; simp [Quies] at h
  | succ n ih =>
    intro b alpha beta c r h
    rw [Quies] at h ⊢
    simp only [] at h ⊢
    by_cases h1 : env.Eval b ≥ beta
    · rw [if_pos h1] at h ⊢
      exact h
    · rw [if_neg h1] at h ⊢
      exact quiesLoop_mono env _ _ ih _ _ _ _ _ _ h

theorem Quies_mono (env : Env) (n k : Nat) (b : Board) (alpha beta : Int) (c : Counters)
    (r : QOut) (h : Quies env n b alpha beta c = some r) :
    Quies env (n + k) b alpha beta c = some r := by
  induction k with
  | zero => exact h
  | succ k ih => exact Quies_succ env _ _ _ _ _ _ ih

theorem searchLoop_mono (env : Env)
    (self self1 : Board → Int → Int → PV → Counters → Option SOut)
    (hself : ∀ b a be p c r, self b a be p c = some r → self1 b a be p c = some r)
    (ply : Int) :
    ∀ (ms : List Move) (b : Board) (alpha beta : Int) (moves : Nat) (pv cpv : PV)
      (c : Counters) (r : SOut),
      searchLoop env self ply ms b alpha beta moves pv cpv c = some r →
        searchLoop env self1 ply ms b alpha beta moves pv cpv c = some r := by
  intro ms
  induction ms with
  | nil => intro b alpha beta moves pv cpv c r h; exact h
  | cons m ms ih =>
    intro b alpha beta moves pv cpv c r h
    simp only [searchLoop] at h ⊢
    by_cases hill : IsIllegal (env.MakeMove b m).1 = true
    · rw [if_pos hill] at h ⊢
      exact ih _ _ _ _ _ _ _ _ h
    · rw [if_neg hill] at h ⊢
      cases hs : self (env.MakeMove b m).1 (-beta) (-alpha) cpv c with
      | none => rw [hs] at h; exact absurd h (by simp)
      | some r1 =>
        rw [hs] at h
        rw [hself _ _ _ _ _ _ hs]
        simp only [] at h ⊢
        by_cases h1 : -r1.val ≥ beta
        · rw [if_pos h1] at h ⊢
          exact h
        · rw [if_neg h1] at h ⊢
          by_cases h2 : -r1.val > alpha
          · rw [if_pos h2] at h ⊢
            exact ih _ _ _ _ _ _ _ _ h
          · rw [if_neg h2] at h ⊢
            exact ih _ _ _ _ _ _ _ _ h

theorem Search_mono (env : Env) (qfuel k : Nat) :
    ∀ (d : Nat) (b : Board) (alpha beta ply : Int) (pv : PV) (c : Counters) (r : SOut),
      Search env qfuel d b alpha beta ply pv c = some r →
        Search env (qfuel + k) d b alpha beta ply pv c = some r := by
  intro d
  induction d with
  | zero =>
    intro b alpha beta ply pv c r h
    simp only [Search] at h ⊢
    cases hq : Quies env qfuel b alpha beta { c with nodes := c.nodes + 1 } with
    | none => rw [hq] at h; exact absurd h (by simp)
    | some q =>
      rw [hq] at h
      rw [Quies_mono env qfuel k _ _ _ _ _ hq]
      exact h
  | succ d ih =>
    intro b alpha beta ply pv c r h
    simp only [Search] at h ⊢
    exact searchLoop_mono env _ _ (fun b a be p c r h => ih b a be (ply + 1) p c r h) ply
      _ _ _ _ _ _ _ _ _ h

theorem xor_xor_self (x y : Nat) : x ^^^ y ^^^ y = x := by
  rw [Nat.xor_assoc, Nat.xor_self, Nat.xor_zero]

theorem toggle_toggle (b : Board) (m : Move) (cap : Piece) :
    (b.toggle m cap).toggle m cap = b := by
  cases b
  simp only [Board.toggle, xor_xor_self]

/-- Unmaking a move made by the model of the specification gives the board back. -/
theorem Restores_spec (env : Env) : Restores (withSpecMoves env) := by
  intro b m
  show UnmakeMoveSpec (MakeMoveSpec b m).1 (MakeMoveSpec b m).2 m = b
  cases b
  simp only [UnmakeMoveSpec, MakeMoveSpec, Board.toggle, xor_xor_self]

/-- The move `x` with the score that `AddMove` gives it under `env` on `b`. -/
theorem mkMove_rescore (env env2 : Env) (b : Board) (f d : Nat) (t : MoveType) (p : Piece)
    (c : Color) (k : Piece) :
    (fun x : Move => mkMove env b x.from_ x.dest x.type x.prom x.color x.piece)
      (mkMove env2 b f d t p c k) = mkMove env b f d t p c k := rfl

theorem map_flatMap_single {α β γ : Type} (h : β → γ) (g : α → β) (l : List α) :
    (l.flatMap (fun a => [g a])).map h = l.flatMap (fun a => [h (g a)]) := by
  induction l with
  | nil => rfl
  | cons a l ih => simp [List.flatMap_cons, ih]

theorem map_flatMap_gen {α β γ : Type} (h : β → γ) (g : α → List β) (l : List α) :
    (l.flatMap g).map h = l.flatMap (fun a => (g a).map h) := by
  induction l with
  | nil => rfl
  | cons a l ih => simp [List.flatMap_cons, ih]

theorem genPiece_rescore (env env2 : Env) (b : Board) (pcs : Nat) (A : Nat → Nat) (target : Nat)
    (t : MoveType) (k : Piece) :
    genPiece env b pcs A target t k [] =
      (genPiece env2 b pcs A target t k []).map
        (fun x => mkMove env b x.from_ x.dest x.type x.prom x.color x.piece) := by
  rw [genPiece_eq, genPiece_eq, List.nil_append, List.nil_append, map_flatMap_gen]
  simp only [map_flatMap_gen, List.map_cons, List.map_nil, mkMove_rescore]

theorem genPawnDir_rescore (env env2 : Env) (b : Board) (c : Color) (shifted lastRank : Nat)
    (back : Nat → Nat) :
    genPawnDir env b c shifted lastRank back [] =
      (genPawnDir env2 b c shifted lastRank back []).map
        (fun x => mkMove env b x.from_ x.dest x.type x.prom x.color x.piece) := by
  rw [genPawnDir_eq, genPawnDir_eq, List.nil_append, List.nil_append, List.map_append]
  simp only [map_flatMap_gen, List.map_cons, List.map_nil, mkMove_rescore]

theorem genEnPassant_rescore (env env2 : Env) (b : Board) (c : Color) :
    genEnPassant env b c [] =
      (genEnPassant env2 b c []).map
        (fun x => mkMove env b x.from_ x.dest x.type x.prom x.color x.piece) := by
  rw [genEnPassant_eq, genEnPassant_eq, List.nil_append, List.nil_append]
  by_cases h : b.ep ≠ INVALID ∧ b.ep ≤ 63
  · rw [if_pos h, if_pos h]
    simp only [map_flatMap_gen, List.map_cons, List.map_nil, mkMove_rescore]
  · rw [if_neg h, if_neg h, List.map_nil]

theorem GenerateCaptures_rescore (env env2 : Env) (b : Board) :
    GenerateCaptures env b [] =
      (GenerateCaptures env2 b []).map
        (fun x => mkMove env b x.from_ x.dest x.type x.prom x.color x.piece) := by
  rw [GenerateCaptures_split, GenerateCaptures_split, genPawnCaptures_eq, genPawnCaptures_eq,
    genPieceCaptures_eq, genPieceCaptures_eq]
  simp only [List.nil_append, List.map_append]
  cases b.side <;>
    simp only [← genPiece_rescore, ← genPawnDir_rescore, ← genEnPassant_rescore, List.map_append]

/-- The pawn part of `GenerateQuiets` as a list: single pushes, double pushes, promotions. -/
theorem genPawnQuiets_eq (env : Env) (b : Board) :
    genPawnQuiets env b [] =
      match b.side with
      | .WHITE =>
        (bitSquares 64 ((shl (b.pieces .PAWN &&& b.colors .WHITE) 8 &&& bnot b.occ) &&&
            bnot Rank8Mask)).flatMap
          (fun d => [mkMove env b (d - 8) d .QUIET .NO_PIECE .WHITE .PAWN]) ++
        ((bitSquares 64 (shl (shl ((b.pieces .PAWN &&& b.colors .WHITE) &&& Rank2Mask) 8 &&&
            bnot b.occ) 8 &&& bnot b.occ)).flatMap
          (fun d => [mkMove env b (d - 16) d .DOUBLE_PUSH .NO_PIECE .WHITE .PAWN]) ++
        (bitSquares 64 (shl ((b.pieces .PAWN &&& b.colors .WHITE) &&& Rank7Mask) 8 &&&
            bnot b.occ)).flatMap
          (fun d => [mkMove env b (d - 8) d .PROMOTION .QUEEN .WHITE .PAWN,
            mkMove env b (d - 8) d .PROMOTION .ROOK .WHITE .PAWN,
            mkMove env b (d - 8) d .PROMOTION .BISHOP .WHITE .PAWN,
            mkMove env b (d - 8) d .PROMOTION .KNIGHT .WHITE .PAWN]))
      | .BLACK =>
        (bitSquares 64 ((shr (b.pieces .PAWN &&& b.colors .BLACK) 8 &&& bnot b.occ) &&&
            bnot Rank1Mask)).flatMap
          (fun d => [mkMove env b (d + 8) d .QUIET .NO_PIECE .BLACK .PAWN]) ++
        ((bitSquares 64 (shr (shr ((b.pieces .PAWN &&& b.colors .BLACK) &&& Rank7Mask) 8 &&&
            bnot b.occ) 8 &&& bnot b.occ)).flatMap
          (fun d => [mkMove env b (d + 16) d .DOUBLE_PUSH .NO_PIECE .BLACK .PAWN]) ++
        (bitSquares 64 (shr ((b.pieces .PAWN &&& b.colors .BLACK) &&& Rank2Mask) 8 &&&
            bnot b.occ)).flatMap
          (fun d => [mkMove env b (d + 8) d .PROMOTION .QUEEN .BLACK .PAWN,
            mkMove env b (d + 8) d .PROMOTION .ROOK .BLACK .PAWN,
            mkMove env b (d + 8) d .PROMOTION .BISHOP .BLACK .PAWN,
            mkMove env b (d + 8) d .PROMOTION .KNIGHT .BLACK .PAWN])) := by
  unfold genPawnQuiets
  cases b.side <;>
    simp only [AddMove, addPromotions_eq, bitLoop_append, List.append_assoc, List.nil_append]

theorem genPawnQuiets_rescore (env env2 : Env) (b : Board) :
    genPawnQuiets env b [] =
      (genPawnQuiets env2 b []).map
        (fun x => mkMove env b x.from_ x.dest x.type x.prom x.color x.piece) := by
  rw [genPawnQuiets_eq, genPawnQuiets_eq]
  cases b.side <;>
    simp only [List.map_append, map_flatMap_gen, List.map_cons, List.map_nil, mkMove_rescore]

theorem genPieceQuiets_rescore (env env2 : Env) (b : Board) :
    genPieceQuiets env b [] =
      (genPieceQuiets env2 b []).map
        (fun x => mkMove env b x.from_ x.dest x.type x.prom x.color x.piece) := by
  rw [genPieceQuiets_eq, genPieceQuiets_eq]
  simp only [List.nil_append, List.map_append, ← genPiece_rescore]

theorem genCastle_rescore (env env2 : Env) (b : Board) :
    genCastle env b [] =
      (genCastle env2 b []).map
        (fun x => mkMove env b x.from_ x.dest x.type x.prom x.color x.piece) := by
  rw [genCastle_eq, genCastle_eq, List.nil_append, List.nil_append, List.map_append]
  congr 1
  · split_ifs
    · rfl
    · rfl
  · split_ifs
    · rfl
    · rfl

theorem GenerateQuiets_rescore (env env2 : Env) (b : Board) :
    GenerateQuiets env b [] =
      (GenerateQuiets env2 b []).map
        (fun x => mkMove env b x.from_ x.dest x.type x.prom x.color x.piece) := by
  rw [GenerateQuiets_split, GenerateQuiets_split, List.map_append, List.map_append,
    ← genPawnQuiets_rescore, ← genPieceQuiets_rescore, ← genCastle_rescore]

/-- The whole move list of a position under `env` is the list under `env2` with the scores
recomputed. -/
theorem allMoves_rescore (env env2 : Env) (b : Board) :
    GenerateQuiets env b (GenerateCaptures env b []) =
      (GenerateQuiets env2 b (GenerateCaptures env2 b [])).map
        (fun x => mkMove env b x.from_ x.dest x.type x.prom x.color x.piece) := by
  rw [GenerateQuiets_append, GenerateQuiets_append env2, List.map_append,
    ← GenerateQuiets_rescore, ← GenerateCaptures_rescore]

theorem testBit_Rank2Mask (i : Nat) : Rank2Mask.testBit i = decide (i < 64 ∧ i / 8 = 1) :=
  mask_testBit (P := fun i => i / 8 = 1) (by decide) (by decide) i

theorem testBit_Rank7Mask (i : Nat) : Rank7Mask.testBit i = decide (i < 64 ∧ i / 8 = 6) :=
  mask_testBit (P := fun i => i / 8 = 6) (by decide) (by decide) i

theorem Rank2Mask_lt : Rank2Mask < 2 ^ 64 := by decide
theorem Rank7Mask_lt : Rank7Mask < 2 ^ 64 := by decide

/-- The squares of the double-push target set of white. -/
theorem white_doubles_testBit (b : Board) (d : Nat) :
    (shl (shl ((b.pieces .PAWN &&& b.colors .WHITE) &&& Rank2Mask) 8 &&& bnot b.occ) 8 &&&
        bnot b.occ).testBit d = true ↔
      16 ≤ d ∧ (d - 16) / 8 = 1 ∧ (b.pieces .PAWN).testBit (d - 16) = true ∧
        (b.colors .WHITE).testBit (d - 16) = true ∧ b.occ.testBit (d - 8) = false ∧
        b.occ.testBit d = false := by
  simp only [Nat.testBit_and, testBit_shl, testBit_bnot, testBit_Rank2Mask, Bool.and_eq_true,
    decide_eq_true_eq, Bool.not_eq_true']
  constructor
  · rintro ⟨⟨h1, h2, ⟨h3, h4, ⟨h5, h6⟩, h7, h8⟩, h9, h10⟩, h11, h12⟩
    have e : d - 8 - 8 = d - 16 := by omega
    rw [e] at h5 h6 h8
    exact ⟨by omega, h8, h5, h6, h10, h12⟩
  · rintro ⟨h1, h2, h3, h4, h5, h6⟩
    have e : d - 8 - 8 = d - 16 := by omega
    rw [e]
    have hd : d < 64 := by omega
    exact ⟨⟨hd, by omega, ⟨by omega, by omega, ⟨h3, h4⟩, by omega, h2⟩, by omega, h5⟩, hd, h6⟩

/-- The squares of the double-push target set of black. -/
theorem black_doubles_testBit (b : Board) (d : Nat) :
    (shr (shr ((b.pieces .PAWN &&& b.colors .BLACK) &&& Rank7Mask) 8 &&& bnot b.occ) 8 &&&
        bnot b.occ).testBit d = true ↔
      (d + 16) / 8 = 6 ∧ (b.pieces .PAWN).testBit (d + 16) = true ∧
        (b.colors .BLACK).testBit (d + 16) = true ∧ b.occ.testBit (d + 8) = false ∧
        b.occ.testBit d = false := by
  simp only [Nat.testBit_and, testBit_shr, testBit_bnot, testBit_Rank7Mask, Bool.and_eq_true,
    decide_eq_true_eq, Bool.not_eq_true']
  have e : 8 + (8 + d) = d + 16 := by omega
  have e2 : 8 + d = d + 8 := by omega
  rw [e, e2]
  constructor
  · rintro ⟨⟨⟨⟨h5, h6⟩, h7, h8⟩, h9, h10⟩, h11, h12⟩
    exact ⟨h8, h5, h6, h10, h12⟩
  · rintro ⟨h2, h3, h4, h5, h6⟩
    exact ⟨⟨⟨⟨h3, h4⟩, by omega, h2⟩, by omega, h5⟩, by omega, h6⟩

theorem white_doubles_lt (b : Board) :
    shl (shl ((b.pieces .PAWN &&& b.colors .WHITE) &&& Rank2Mask) 8 &&& bnot b.occ) 8 &&&
        bnot b.occ < 2 ^ 64 := and_lt_left _ (shl_lt _ _)

theorem black_doubles_lt (b : Board) :
    shr (shr ((b.pieces .PAWN &&& b.colors .BLACK) &&& Rank7Mask) 8 &&& bnot b.occ) 8 &&&
        bnot b.occ < 2 ^ 64 := and_lt_right _ (bnot_lt _)

theorem genCastle_type (env : Env) (b : Board) (x : Move) (hx : x ∈ genCastle env b []) :
    x.type = .CASTLE := by
  rw [mem_genCastle] at hx
  rcases hx with ⟨_, rfl⟩ | ⟨_, rfl⟩ <;> rfl

/-- A DOUBLE_PUSH move of `GenerateQuiets` comes from the double-push loop of the pawn part. -/
theorem double_push_mem (env : Env) (b : Board) (x : Move) :
    (x ∈ GenerateQuiets env b [] ∧ x.type = .DOUBLE_PUSH) ↔
      match b.side with
      | .WHITE =>
        ∃ d, (shl (shl ((b.pieces .PAWN &&& b.colors .WHITE) &&& Rank2Mask) 8 &&& bnot b.occ) 8
            &&& bnot b.occ).testBit d = true ∧
          x = mkMove env b (d - 16) d .DOUBLE_PUSH .NO_PIECE .WHITE .PAWN
      | .BLACK =>
        ∃ d, (shr (shr ((b.pieces .PAWN &&& b.colors .BLACK) &&& Rank7Mask) 8 &&& bnot b.occ) 8
            &&& bnot b.occ).testBit d = true ∧
          x = mkMove env b (d + 16) d .DOUBLE_PUSH .NO_PIECE .BLACK .PAWN := by
  rw [GenerateQuiets_split, List.mem_append, List.mem_append, genPawnQuiets_eq]
  constructor
  · rintro ⟨(h | h | h), ht⟩
    · cases hs : b.side <;> rw [hs] at h <;>
        simp only [List.mem_append, List.mem_flatMap, List.mem_singleton, List.mem_cons,
          List.mem_nil_iff, or_false] at h
      · rcases h with ⟨d, _, rfl⟩ | ⟨d, hd, rfl⟩ | ⟨d, _, (rfl | rfl | rfl | rfl)⟩
        · simp at ht
        · rw [mem_bitSquares (white_doubles_lt b)] at hd
          exact ⟨d, hd, rfl⟩
        all_goals simp at ht
      · rcases h with ⟨d, _, rfl⟩ | ⟨d, hd, rfl⟩ | ⟨d, _, (rfl | rfl | rfl | rfl)⟩
        · simp at ht
        · rw [mem_bitSquares (black_doubles_lt b)] at hd
          exact ⟨d, hd, rfl⟩
        all_goals simp at ht
    · rw [(pieceQuiets_shape env b x h).1] at ht
      simp at ht
    · rw [genCastle_type env b x h] at ht
      simp at ht
  · intro h
    cases hs : b.side <;> rw [hs] at h <;> obtain ⟨d, hd, rfl⟩ := h
    · refine ⟨Or.inl ?_, rfl⟩
      simp only [List.mem_append, List.mem_flatMap, List.mem_singleton]
      exact Or.inr (Or.inl ⟨d, (mem_bitSquares (white_doubles_lt b) d).mpr hd, rfl⟩)
    · refine ⟨Or.inl ?_, rfl⟩
      simp only [List.mem_append, List.mem_flatMap, List.mem_singleton]
      exact Or.inr (Or.inl ⟨d, (mem_bitSquares (black_doubles_lt b) d).mpr hd, rfl⟩)

theorem double_push_iff (env : Env) (b : Board) (x : Move) :
    (x ∈ GenerateQuiets env b [] ∧ x.type = .DOUBLE_PUSH) ↔
      match b.side with
      | .WHITE =>
        ∃ f, f / 8 = 1 ∧ (b.pieces .PAWN).testBit f = true ∧
          (b.colors .WHITE).testBit f = true ∧ b.occ.testBit (f + 8) = false ∧
          b.occ.testBit (f + 16) = false ∧
          x = mkMove env b f (f + 16) .DOUBLE_PUSH .NO_PIECE .WHITE .PAWN
      | .BLACK =>
        ∃ f, f / 8 = 6 ∧ (b.pieces .PAWN).testBit f = true ∧
          (b.colors .BLACK).testBit f = true ∧ b.occ.testBit (f - 8) = false ∧
          b.occ.testBit (f - 16) = false ∧
          x = mkMove env b f (f - 16) .DOUBLE_PUSH .NO_PIECE .BLACK .PAWN := by
  rw [double_push_mem]
  cases b.side
  · show (∃ d, _) ↔ (∃ f, _)
    simp only [white_doubles_testBit]
    constructor
    · rintro ⟨d, ⟨h1, h2, h3, h4, h5, h6⟩, rfl⟩
      refine ⟨d - 16, h2, h3, h4, ?_, ?_, ?_⟩
      · rw [show d - 16 + 8 = d - 8 by omega]; exact h5
      · rw [show d - 16 + 16 = d by omega]; exact h6
      · rw [show d - 16 + 16 = d by omega]
    · rintro ⟨f, h2, h3, h4, h5, h6, rfl⟩
      refine ⟨f + 16, ⟨by omega, ?_, ?_, ?_, ?_, h6⟩, ?_⟩
      · rw [show f + 16 - 16 = f by omega]; exact h2
      · rw [show f + 16 - 16 = f by omega]; exact h3
      · rw [show f + 16 - 16 = f by omega]; exact h4
      · rw [show f + 16 - 8 = f + 8 by omega]; exact h5
      · rw [show f + 16 - 16 = f by omega]
  · show (∃ d, _) ↔ (∃ f, _)
    simp only [black_doubles_testBit]
    constructor
    · rintro ⟨d, ⟨h2, h3, h4, h5, h6⟩, rfl⟩
      refine ⟨d + 16, h2, h3, h4, ?_, ?_, ?_⟩
      · rw [show d + 16 - 8 = d + 8 by omega]; exact h5
      · rw [show d + 16 - 16 = d by omega]; exact h6
      · rw [show d + 16 - 16 = d by omega]
    · rintro ⟨f, h2, h3, h4, h5, h6, rfl⟩
      have hf : 16 ≤ f := by omega
      refine ⟨f - 16, ⟨?_, ?_, ?_, ?_, h6⟩, ?_⟩
      · rw [show f - 16 + 16 = f by omega]; exact h2
      · rw [show f - 16 + 16 = f by omega]; exact h3
      · rw [show f - 16 + 16 = f by omega]; exact h4
      · rw [show f - 16 + 8 = f - 8 by omega]; exact h5
      · rw [show f - 16 + 16 = f by omega]

/-- C16. With white to move `GenerateQuiets` emits a DOUBLE_PUSH move from `f` to `f + 16`
exactly when `f` is on rank 2 and holds a white pawn and the squares `f + 8` and `f + 16` are
both empty; with black to move it emits a DOUBLE_PUSH from `f` to `f - 16` exactly when `f` is
on rank 7 and holds a black pawn and `f - 8` and `f - 16` are both empty. Every DOUBLE_PUSH
move of the list is one of these. -/
theorem GenerateQuiets_double_push_iff (env : Env) (b : Board) (x : Move) :
    (x ∈ GenerateQuiets env b [] ∧ x.type = .DOUBLE_PUSH) ↔
      match b.side with
      | .WHITE =>
        ∃ f, f / 8 = 1 ∧ (b.pieces .PAWN).testBit f = true ∧
          (b.colors .WHITE).testBit f = true ∧ b.occ.testBit (f + 8) = false ∧
          b.occ.testBit (f + 16) = false ∧
          x = mkMove env b f (f + 16) .DOUBLE_PUSH .NO_PIECE .WHITE .PAWN
      | .BLACK =>
        ∃ f, f / 8 = 6 ∧ (b.pieces .PAWN).testBit f = true ∧
          (b.colors .BLACK).testBit f = true ∧ b.occ.testBit (f - 8) = false ∧
          b.occ.testBit (f - 16) = false ∧
          x = mkMove env b f (f - 16) .DOUBLE_PUSH .NO_PIECE .BLACK .PAWN :=
  double_push_iff env b x

theorem genPawnDir_type (env : Env) (b : Board) (c : Color) (shifted lastRank : Nat)
    (back : Nat → Nat) (x : Move) (hx : x ∈ genPawnDir env b c shifted lastRank back []) :
    x.type = .CAPTURE ∨ x.type = .CAPTURE_PROMOTION := by
  rw [genPawnDir_eq, List.nil_append, List.mem_append] at hx
  simp only [List.mem_flatMap, List.mem_singleton, List.mem_cons, List.mem_nil_iff,
    or_false] at hx
  rcases hx with ⟨d, _, rfl⟩ | ⟨d, _, (rfl | rfl | rfl | rfl)⟩
  · exact Or.inl rfl
  all_goals exact Or.inr rfl

theorem genEnPassant_type (env : Env) (b : Board) (c : Color) (x : Move)
    (hx : x ∈ genEnPassant env b c []) : x.type = .ENPASSANT ∧ x.dest = b.ep ∧ x.piece = .PAWN := by
  rw [mem_genEnPassant] at hx
  obtain ⟨_, f, _, _, _, rfl⟩ := hx
  exact ⟨rfl, rfl, rfl⟩

/-- The ENPASSANT moves of `GenerateCaptures` are the moves of the en-passant block. -/
theorem enpassant_mem (env : Env) (b : Board) (x : Move) :
    (x ∈ GenerateCaptures env b [] ∧ x.type = .ENPASSANT) ↔ x ∈ genEnPassant env b b.side [] := by
  rw [GenerateCaptures_split, List.mem_append, genPawnCaptures_eq, List.nil_append]
  constructor
  · rintro ⟨h | h, ht⟩
    · cases hs : b.side <;> rw [hs] at h <;>
        simp only [List.mem_append] at h <;>
        rcases h with (h | h) | h
      · rcases genPawnDir_type _ _ _ _ _ _ _ h with h2 | h2 <;> rw [h2] at ht <;> simp at ht
      · rcases genPawnDir_type _ _ _ _ _ _ _ h with h2 | h2 <;> rw [h2] at ht <;> simp at ht
      · exact h
      · rcases genPawnDir_type _ _ _ _ _ _ _ h with h2 | h2 <;> rw [h2] at ht <;> simp at ht
      · rcases genPawnDir_type _ _ _ _ _ _ _ h with h2 | h2 <;> rw [h2] at ht <;> simp at ht
      · exact h
    · rw [(pieceCaptures_shape env b x h).1] at ht
      simp at ht
  · intro h
    refine ⟨Or.inl ?_, (genEnPassant_type env b _ x h).1⟩
    cases hs : b.side <;> rw [hs] at h <;> simp only [List.mem_append] <;> exact Or.inr h

theorem enpassant_iff (env : Env) (b : Board) (f : Nat) :
    (∃ m ∈ GenerateCaptures env b [], m.type = .ENPASSANT ∧ m.from_ = f ∧ m.dest = b.ep) ↔
      b.ep ≤ 63 ∧ f < 64 ∧ (b.pieces .PAWN).testBit f = true ∧
        (b.colors b.side).testBit f = true ∧ (PawnAttacks b.side f).testBit b.ep = true := by
  constructor
  · rintro ⟨m, hm, ht, hf, _⟩
    have h := (enpassant_mem env b m).mp ⟨hm, ht⟩
    rw [mem_genEnPassant] at h
    obtain ⟨⟨_, hep⟩, g, h1, h2, h3, rfl⟩ := h
    have hg : g = f := hf
    subst hg
    have hlt : g < 64 := lt_of_testBit (PawnAttacks_lt_pow _ _) h1
    refine ⟨hep, hlt, h2, h3, ?_⟩
    rw [PawnAttacks_opp b.side g b.ep hlt (by omega)]
    exact h1
  · rintro ⟨hep, hlt, h2, h3, h4⟩
    refine ⟨mkMove env b f b.ep .ENPASSANT .NO_PIECE b.side .PAWN, ?_, rfl, rfl, rfl⟩
    refine ((enpassant_mem env b _).mpr ?_).1
    rw [mem_genEnPassant]
    refine ⟨⟨by unfold INVALID; omega, hep⟩, f, ?_, h2, h3, rfl⟩
    rw [← PawnAttacks_opp b.side f b.ep hlt (by omega)]
    exact h4

theorem flatMap_single_length {α β : Type} (g : α → β) (l : List α) :
    (l.flatMap (fun a => [g a])).length = l.length := by
  induction l with
  | nil => rfl
  | cons a l ih => rw [List.flatMap_cons, List.length_append, ih]; simp; omega

theorem bitSquares_length_le {x y : Nat} (hx : x < 2 ^ 64) (hy : y < 2 ^ 64)
    (h : ∀ i, x.testBit i = true → y.testBit i = true) :
    (bitSquares 64 x).length ≤ (bitSquares 64 y).length :=
  List.Subperm.length_le (List.subperm_of_subset (bitSquares_nodup hx)
    (fun d hd => (mem_bitSquares hy d).mpr (h d ((mem_bitSquares hx d).mp hd))))

theorem PawnAttacks_two : ∀ s, s < 64 →
    (bitSquares 64 (PawnAttacks .WHITE s)).length ≤ 2 ∧
      (bitSquares 64 (PawnAttacks .BLACK s)).length ≤ 2 := by decide

theorem genEnPassant_length (env : Env) (b : Board) (c : Color) :
    (genEnPassant env b c []).length ≤ 2 := by
  rw [genEnPassant_eq, List.nil_append]
  by_cases h : b.ep ≠ INVALID ∧ b.ep ≤ 63
  · rw [if_pos h, flatMap_single_length]
    have h2 := PawnAttacks_two b.ep (by omega)
    have hle : (bitSquares 64 ((PawnAttacks c.opp b.ep &&& b.pieces .PAWN) &&& b.colors c)).length ≤
        (bitSquares 64 (PawnAttacks c.opp b.ep)).length :=
      bitSquares_length_le (and_lt_left _ (and_lt_left _ (PawnAttacks_lt_pow _ _)))
        (PawnAttacks_lt_pow _ _) (fun i hi => by
          rw [Nat.testBit_and, Nat.testBit_and, Bool.and_eq_true, Bool.and_eq_true] at hi
          exact hi.1.1)
    cases c
    · exact le_trans hle h2.2
    · exact le_trans hle h2.1
  · rw [if_neg h]; exact Nat.zero_le _

/-- The ENPASSANT moves of `GenerateCaptures` are at most two. -/
theorem enpassant_count (env : Env) (b : Board) :
    ((GenerateCaptures env b []).filter (fun m => decide (m.type = .ENPASSANT))).length ≤ 2 := by
  rw [GenerateCaptures_split, List.filter_append,
    filter_eq_nil_of _ (genPieceCaptures env b []) (fun a ha => by
      rw [(pieceCaptures_shape env b a ha).1]; rfl),
    List.append_nil, genPawnCaptures_eq, List.nil_append]
  have key : ∀ (l1 l2 l3 : List Move),
      (∀ a ∈ l1, a.type = .CAPTURE ∨ a.type = .CAPTURE_PROMOTION) →
      (∀ a ∈ l2, a.type = .CAPTURE ∨ a.type = .CAPTURE_PROMOTION) →
      l3.length ≤ 2 →
      ((l1 ++ l2 ++ l3).filter (fun m => decide (m.type = .ENPASSANT))).length ≤ 2 := by
    intro l1 l2 l3 h1 h2 h3
    rw [List.filter_append, List.filter_append,
      filter_eq_nil_of _ l1 (fun a ha => by rcases h1 a ha with h | h <;> rw [h] <;> rfl),
      filter_eq_nil_of _ l2 (fun a ha => by rcases h2 a ha with h | h <;> rw [h] <;> rfl),
      List.nil_append, List.nil_append]
    exact le_trans (List.length_filter_le _ _) h3
  cases b.side
  · exact key _ _ _ (fun a ha => genPawnDir_type _ _ _ _ _ _ a ha)
      (fun a ha => genPawnDir_type _ _ _ _ _ _ a ha) (genEnPassant_length env b .WHITE)
  · exact key _ _ _ (fun a ha => genPawnDir_type _ _ _ _ _ _ a ha)
      (fun a ha => genPawnDir_type _ _ _ _ _ _ a ha) (genEnPassant_length env b .BLACK)

/-- C18. `GenerateCaptures` emits an ENPASSANT move from the square `f` to `ep` exactly when
`ep ≤ 63` and `f` holds a pawn of the side to move with `ep` in `PawnAttacks side f`; every
ENPASSANT move it emits lands on `ep`; when `ep` is the sentinel INVALID it emits none; and
it never emits more than two. -/
theorem GenerateCaptures_enpassant_iff (env : Env) (b : Board) :
    (∀ f : Nat,
      (∃ m ∈ GenerateCaptures env b [], m.type = .ENPASSANT ∧ m.from_ = f ∧ m.dest = b.ep) ↔
        b.ep ≤ 63 ∧ f < 64 ∧ (b.pieces .PAWN).testBit f = true ∧
          (b.colors b.side).testBit f = true ∧ (PawnAttacks b.side f).testBit b.ep = true) ∧
    (∀ m ∈ GenerateCaptures env b [], m.type = .ENPASSANT → m.dest = b.ep ∧ m.piece = .PAWN) ∧
    (b.ep = INVALID → ∀ m ∈ GenerateCaptures env b [], m.type ≠ .ENPASSANT) ∧
    ((GenerateCaptures env b []).filter (fun m => decide (m.type = .ENPASSANT))).length ≤ 2 := by
  refine ⟨enpassant_iff env b, ?_, ?_, enpassant_count env b⟩
  · intro m hm ht
    exact (genEnPassant_type env b _ m ((enpassant_mem env b m).mp ⟨hm, ht⟩)).2
  · intro hep m hm ht
    have h := (enpassant_mem env b m).mp ⟨hm, ht⟩
    rw [mem_genEnPassant] at h
    exact h.1.1 hep

theorem flatMap_run_of_mem {α β : Type} (g : α → List β) (a : α) :
    ∀ (l : List α), a ∈ l → g a <:+: l.flatMap g := by
  intro l
  induction l with
  | nil => intro h; simp at h
  | cons c l ih =>
    intro h
    rw [List.flatMap_cons]
    rcases List.mem_cons.mp h with rfl | h
    · exact (List.prefix_append _ _).isInfix
    · exact (ih h).trans (List.suffix_append _ _).isInfix

/-- The promotion loop of one pawn direction, filtered for one origin and destination. -/
theorem filter_promos (env : Env) (b : Board) (back : Nat → Nat) (t : MoveType) (c : Color)
    (x : Nat) (hx : x < 2 ^ 64) (f d : Nat) :
    ((bitSquares 64 x).flatMap (fun d1 => promotionMoves env b (back d1) d1 t c)).filter
        (fun m => decide (m.type = t ∧ m.from_ = f ∧ m.dest = d)) =
      if x.testBit d = true ∧ back d = f then promotionMoves env b f d t c else [] := by
  rw [filter_flatMap_single _ _ d _ (bitSquares_nodup hx)]
  · by_cases hd : x.testBit d = true
    · rw [if_pos ((mem_bitSquares hx d).mpr hd)]
      by_cases hf : back d = f
      · rw [if_pos ⟨hd, hf⟩, ← hf]
        simp [promotionMoves]
      · rw [if_neg (fun h => hf h.2)]
        simp [promotionMoves, hf]
    · rw [if_neg (fun h => hd ((mem_bitSquares hx d).mp h)), if_neg (fun h => hd h.1)]
  · intro c1 _ hne
    simp [promotionMoves, hne]

theorem white_promos_testBit (b : Board) (f d : Nat) :
    ((shl ((b.pieces .PAWN &&& b.colors .WHITE) &&& Rank7Mask) 8 &&& bnot b.occ).testBit d = true ∧
        d - 8 = f) ↔
      ((b.pieces .PAWN).testBit f = true ∧ (b.colors .WHITE).testBit f = true ∧
        b.occ.testBit d = false ∧ d / 8 = 7 ∧ d = f + 8) := by
  simp only [Nat.testBit_and, testBit_shl, testBit_bnot, testBit_Rank7Mask, Bool.and_eq_true,
    decide_eq_true_eq, Bool.not_eq_true']
  constructor
  · rintro ⟨⟨⟨h1, h2, ⟨h3, h4⟩, h5, h6⟩, h7, h8⟩, rfl⟩
    exact ⟨h3, h4, h8, by omega, by omega⟩
  · rintro ⟨h3, h4, h8, h9, rfl⟩
    rw [show f + 8 - 8 = f by omega]
    exact ⟨⟨⟨by omega, by omega, ⟨h3, h4⟩, by omega, by omega⟩, by omega, h8⟩, rfl⟩

theorem black_promos_testBit (b : Board) (f d : Nat) :
    ((shr ((b.pieces .PAWN &&& b.colors .BLACK) &&& Rank2Mask) 8 &&& bnot b.occ).testBit d = true ∧
        d + 8 = f) ↔
      ((b.pieces .PAWN).testBit f = true ∧ (b.colors .BLACK).testBit f = true ∧
        b.occ.testBit d = false ∧ d / 8 = 0 ∧ f = d + 8) := by
  simp only [Nat.testBit_and, testBit_shr, testBit_bnot, testBit_Rank2Mask, Bool.and_eq_true,
    decide_eq_true_eq, Bool.not_eq_true']
  rw [show 8 + d = d + 8 by omega]
  constructor
  · rintro ⟨⟨⟨⟨h3, h4⟩, h5, h6⟩, h7, h8⟩, rfl⟩
    exact ⟨h3, h4, h8, by omega, rfl⟩
  · rintro ⟨h3, h4, h8, h9, rfl⟩
    exact ⟨⟨⟨⟨h3, h4⟩, by omega, by omega⟩, by omega, h8⟩, rfl⟩

theorem filter_nil_of_type {l : List Move} {t : MoveType} (f d : Nat)
    (h : ∀ a ∈ l, a.type ≠ t) :
    l.filter (fun m => decide (m.type = t ∧ m.from_ = f ∧ m.dest = d)) = [] :=
  filter_eq_nil_of _ l (fun a ha => by simp [h a ha])

theorem flatMap_single_type {α : Type} (l : List α) (g : α → Move) (t : MoveType)
    (h : ∀ a, (g a).type ≠ t) : ∀ x ∈ l.flatMap (fun a => [g a]), x.type ≠ t := by
  intro x hx
  simp only [List.mem_flatMap, List.mem_singleton] at hx
  obtain ⟨a, _, rfl⟩ := hx
  exact h a

/-- The PROMOTION moves of `GenerateQuiets` from `f` to `d`. -/
theorem filter_promotion (env : Env) (b : Board) (f d : Nat) :
    (GenerateQuiets env b []).filter
        (fun m => decide (m.type = .PROMOTION ∧ m.from_ = f ∧ m.dest = d)) =
      if (b.pieces .PAWN).testBit f = true ∧ (b.colors b.side).testBit f = true ∧
          b.occ.testBit d = false ∧ onLastRank b.side d ∧ pawnStep b.side f d then
        promotionMoves env b f d .PROMOTION b.side
      else [] := by
  rw [GenerateQuiets_split, List.filter_append, List.filter_append,
    filter_nil_of_type (l := genPieceQuiets env b []) f d
      (fun a ha => by rw [(pieceQuiets_shape env b a ha).1]; simp),
    filter_nil_of_type (l := genCastle env b []) f d
      (fun a ha => by rw [genCastle_type env b a ha]; simp),
    List.append_nil, List.append_nil, genPawnQuiets_eq]
  cases b.side
  · simp only [List.filter_append]
    rw [filter_nil_of_type f d (flatMap_single_type _ _ _ (fun a => by simp)),
      filter_nil_of_type f d (flatMap_single_type _ _ _ (fun a => by simp)),
      List.nil_append, List.nil_append]
    have h := filter_promos env b (fun d => d - 8) .PROMOTION .WHITE _
      (and_lt_left (bnot b.occ) (shl_lt ((b.pieces .PAWN &&& b.colors .WHITE) &&& Rank7Mask) 8))
      f d
    simp only [promotionMoves] at h
    rw [h]
    exact if_congr (white_promos_testBit b f d) rfl rfl
  · simp only [List.filter_append]
    rw [filter_nil_of_type f d (flatMap_single_type _ _ _ (fun a => by simp)),
      filter_nil_of_type f d (flatMap_single_type _ _ _ (fun a => by simp)),
      List.nil_append, List.nil_append]
    have h := filter_promos env b (fun d => d + 8) .PROMOTION .BLACK _
      (and_lt_right (shr ((b.pieces .PAWN &&& b.colors .BLACK) &&& Rank2Mask) 8) (bnot_lt b.occ))
      f d
    simp only [promotionMoves] at h
    rw [h]
    exact if_congr (black_promos_testBit b f d) rfl rfl

/-- The CAPTURE_PROMOTION moves of one capture direction from `f` to `d`. -/
theorem genPawnDir_filter (env : Env) (b : Board) (c : Color) (shifted lastRank : Nat)
    (back : Nat → Nat) (hs : shifted < 2 ^ 64) (f d : Nat) :
    (genPawnDir env b c shifted lastRank back []).filter
        (fun m => decide (m.type = .CAPTURE_PROMOTION ∧ m.from_ = f ∧ m.dest = d)) =
      if (shifted.testBit d = true ∧ (b.colors c.opp).testBit d = true ∧ back d = f) ∧
          lastRank.testBit d = true then
        promotionMoves env b f d .CAPTURE_PROMOTION c
      else [] := by
  rw [genPawnDir_eq, List.nil_append, List.filter_append,
    filter_nil_of_type f d (flatMap_single_type _ _ _ (fun a => by simp)), List.nil_append]
  have h := filter_promos env b back .CAPTURE_PROMOTION c _
    (and_lt_left lastRank (and_lt_left (b.colors c.opp) hs)) f d
  simp only [promotionMoves] at h
  rw [h]
  refine if_congr ?_ rfl rfl
  simp only [Nat.testBit_and, Bool.and_eq_true]
  tauto

theorem ite_append_excl {α : Type} (p q : Prop) [Decidable p] [Decidable q] (l : List α)
    (h : ¬ (p ∧ q)) :
    (if p then l else []) ++ (if q then l else []) = if p ∨ q then l else [] := by
  by_cases hp : p <;> by_cases hq : q
  · exact absurd ⟨hp, hq⟩ h
  · simp [hp, hq]
  · simp [hp, hq]
  · simp [hp, hq]

theorem genEnPassant_filter (env : Env) (b : Board) (c : Color) (f d : Nat) :
    (genEnPassant env b c []).filter
        (fun m => decide (m.type = .CAPTURE_PROMOTION ∧ m.from_ = f ∧ m.dest = d)) = [] :=
  filter_nil_of_type f d (fun a ha => by rw [(genEnPassant_type env b c a ha).1]; simp)

theorem no_ep_capture (env : Env) (b : Board) (c : Color) (f d : Nat) :
    ¬ ∃ x ∈ genEnPassant env b c [],
      x.piece = .PAWN ∧ (x.type = .CAPTURE ∨ x.type = .CAPTURE_PROMOTION) ∧
        x.from_ = f ∧ x.dest = d := by
  rintro ⟨x, hx, -, ht, -⟩
  rw [(genEnPassant_type env b c x hx).1] at ht
  rcases ht with h | h <;> exact absurd h (by simp)

/-- The two capture directions of white together reach `d` from `f` exactly when `d` holds a
black piece and is attacked by a white pawn on `f`. -/
theorem pawn_dirs_white (env : Env) (b : Board) (hs : b.side = .WHITE) (f d : Nat) :
    (((shl ((b.pieces .PAWN &&& b.colors .WHITE) &&& bnot FileAMask) 7).testBit d = true ∧
        (b.colors Color.WHITE.opp).testBit d = true ∧ d - 7 = f) ∨
      ((shl ((b.pieces .PAWN &&& b.colors .WHITE) &&& bnot FileHMask) 9).testBit d = true ∧
        (b.colors Color.WHITE.opp).testBit d = true ∧ d - 9 = f)) ↔
      (f < 64 ∧ (b.pieces .PAWN).testBit f = true ∧ (b.colors b.side).testBit f = true ∧
        (b.colors b.side.opp).testBit d = true ∧ (PawnAttacks b.side f).testBit d = true) := by
  rw [← pawnCapture_iff env b f d, genPawnCaptures_eq, hs]
  simp only [List.nil_append]
  rw [exists_mem_append3]
  simp only [no_ep_capture, or_false]
  rw [genPawnDir_capture_iff env b .WHITE _ _ _ (shl_lt _ _),
    genPawnDir_capture_iff env b .WHITE _ _ _ (shl_lt _ _)]

theorem pawn_dirs_black (env : Env) (b : Board) (hs : b.side = .BLACK) (f d : Nat) :
    (((shr ((b.pieces .PAWN &&& b.colors .BLACK) &&& bnot FileAMask) 9).testBit d = true ∧
        (b.colors Color.BLACK.opp).testBit d = true ∧ d + 9 = f) ∨
      ((shr ((b.pieces .PAWN &&& b.colors .BLACK) &&& bnot FileHMask) 7).testBit d = true ∧
        (b.colors Color.BLACK.opp).testBit d = true ∧ d + 7 = f)) ↔
      (f < 64 ∧ (b.pieces .PAWN).testBit f = true ∧ (b.colors b.side).testBit f = true ∧
        (b.colors b.side.opp).testBit d = true ∧ (PawnAttacks b.side f).testBit d = true) := by
  rw [← pawnCapture_iff env b f d, genPawnCaptures_eq, hs]
  simp only [List.nil_append]
  rw [exists_mem_append3]
  simp only [no_ep_capture, or_false]
  rw [genPawnDir_capture_iff env b .BLACK _ _ _ (shr_lt _ (and_lt_right _ (bnot_lt _))),
    genPawnDir_capture_iff env b .BLACK _ _ _ (shr_lt _ (and_lt_right _ (bnot_lt _)))]

/-- The CAPTURE_PROMOTION moves of `GenerateCaptures` from `f` to `d`. -/
theorem filter_capture_promotion (env : Env) (b : Board) (f d : Nat) :
    (GenerateCaptures env b []).filter
        (fun m => decide (m.type = .CAPTURE_PROMOTION ∧ m.from_ = f ∧ m.dest = d)) =
      if (f < 64 ∧ (b.pieces .PAWN).testBit f = true ∧ (b.colors b.side).testBit f = true ∧
          (b.colors b.side.opp).testBit d = true ∧ (PawnAttacks b.side f).testBit d = true) ∧
          onLastRank b.side d then
        promotionMoves env b f d .CAPTURE_PROMOTION b.side
      else [] := by
  rw [GenerateCaptures_split, List.filter_append,
    filter_nil_of_type (l := genPieceCaptures env b []) f d
      (fun a ha => by rw [(pieceCaptures_shape env b a ha).1]; simp),
    List.append_nil, genPawnCaptures_eq, List.nil_append]
  cases hs : b.side
  · have h := pawn_dirs_white env b hs f d
    rw [hs] at h
    simp only [List.filter_append]
    rw [genPawnDir_filter env b .WHITE _ _ _ (shl_lt _ _),
      genPawnDir_filter env b .WHITE _ _ _ (shl_lt _ _), genEnPassant_filter, List.append_nil,
      ite_append_excl]
    · refine if_congr ?_ rfl rfl
      rw [← h, testBit_Rank8Mask]
      simp only [decide_eq_true_eq, onLastRank]
      constructor
      · rintro (⟨h1, h2, h3⟩ | ⟨h1, h2, h3⟩)
        · exact ⟨Or.inl h1, h3⟩
        · exact ⟨Or.inr h1, h3⟩
      · rintro ⟨h1 | h1, h3⟩
        · exact Or.inl ⟨h1, lt_of_testBit (shl_lt _ _) h1.1, h3⟩
        · exact Or.inr ⟨h1, lt_of_testBit (shl_lt _ _) h1.1, h3⟩
    · rintro ⟨⟨⟨h1, _, h2⟩, _⟩, ⟨h3, _, h4⟩, _⟩
      rw [testBit_shl] at h1 h3
      simp only [Bool.and_eq_true, decide_eq_true_eq] at h1 h3
      omega
  · have h := pawn_dirs_black env b hs f d
    rw [hs] at h
    simp only [List.filter_append]
    rw [genPawnDir_filter env b .BLACK _ _ _ (shr_lt _ (and_lt_right _ (bnot_lt _))),
      genPawnDir_filter env b .BLACK _ _ _ (shr_lt _ (and_lt_right _ (bnot_lt _))),
      genEnPassant_filter, List.append_nil, ite_append_excl]
    · refine if_congr ?_ rfl rfl
      rw [← h, testBit_Rank1Mask]
      simp only [decide_eq_true_eq, onLastRank]
      constructor
      · rintro (⟨h1, h2, h3⟩ | ⟨h1, h2, h3⟩)
        · exact ⟨Or.inl h1, h3⟩
        · exact ⟨Or.inr h1, h3⟩
      · rintro ⟨h1 | h1, h3⟩
        · exact Or.inl ⟨h1, by omega, h3⟩
        · exact Or.inr ⟨h1, by omega, h3⟩
    · rintro ⟨⟨⟨_, _, h2⟩, _⟩, ⟨_, _, h4⟩, _⟩
      omega

theorem genCastle_piece (env : Env) (b : Board) (x : Move) (hx : x ∈ genCastle env b []) :
    x.piece = .KING := by
  rw [mem_genCastle] at hx
  rcases hx with ⟨_, rfl⟩ | ⟨_, rfl⟩ <;> rfl

/-- The pawn moves of `GenerateQuiets`: type, and whether the destination is on the last
rank. -/
theorem pawnQuiets_rank (env : Env) (b : Board) (x : Move) (hx : x ∈ genPawnQuiets env b []) :
    (x.type = .QUIET ∧ ¬ onLastRank b.side x.dest) ∨ x.type = .DOUBLE_PUSH ∨
      x.type = .PROMOTION := by
  rw [genPawnQuiets_eq] at hx
  cases hs : b.side <;> rw [hs] at hx <;>
    simp only [List.mem_append, List.mem_flatMap, List.mem_singleton, List.mem_cons,
      List.mem_nil_iff, or_false] at hx
  · rcases hx with ⟨d, hd, rfl⟩ | ⟨d, _, rfl⟩ | ⟨d, _, (rfl | rfl | rfl | rfl)⟩
    · left
      refine ⟨rfl, ?_⟩
      rw [mem_bitSquares (and_lt_right _ (bnot_lt _)), Nat.testBit_and, testBit_bnot,
        testBit_Rank8Mask] at hd
      simp only [Bool.and_eq_true, decide_eq_true_eq, Bool.not_eq_true',
        decide_eq_false_iff_not] at hd
      intro h
      exact hd.2.2 ⟨hd.2.1, h⟩
    · exact Or.inr (Or.inl rfl)
    all_goals exact Or.inr (Or.inr rfl)
  · rcases hx with ⟨d, hd, rfl⟩ | ⟨d, _, rfl⟩ | ⟨d, _, (rfl | rfl | rfl | rfl)⟩
    · left
      refine ⟨rfl, ?_⟩
      rw [mem_bitSquares (and_lt_right _ (bnot_lt _)), Nat.testBit_and, testBit_bnot,
        testBit_Rank1Mask] at hd
      simp only [Bool.and_eq_true, decide_eq_true_eq, Bool.not_eq_true',
        decide_eq_false_iff_not] at hd
      intro h
      exact hd.2.2 ⟨hd.2.1, h⟩
    · exact Or.inr (Or.inl rfl)
    all_goals exact Or.inr (Or.inr rfl)

/-- The move types of `GenerateQuiets`. -/
theorem quiet_types (env : Env) (b : Board) (x : Move) (hx : x ∈ GenerateQuiets env b []) :
    x.type = .QUIET ∨ x.type = .DOUBLE_PUSH ∨ x.type = .PROMOTION ∨ x.type = .CASTLE := by
  rw [GenerateQuiets_split, List.mem_append, List.mem_append] at hx
  rcases hx with h | h | h
  · rcases pawnQuiets_rank env b x h with h | h | h
    · exact Or.inl h.1
    · exact Or.inr (Or.inl h)
    · exact Or.inr (Or.inr (Or.inl h))
  · exact Or.inl (pieceQuiets_shape env b x h).1
  · exact Or.inr (Or.inr (Or.inr (genCastle_type env b x h)))

/-- A pawn move of `GenerateQuiets` to the last rank is a PROMOTION. -/
theorem quiet_last_rank (env : Env) (b : Board) (x : Move) (hx : x ∈ GenerateQuiets env b [])
    (hp : x.piece = .PAWN) (hr : onLastRank b.side x.dest) : x.type = .PROMOTION := by
  rw [GenerateQuiets_split, List.mem_append, List.mem_append] at hx
  rcases hx with h | h | h
  · rcases pawnQuiets_rank env b x h with h | h | h
    · exact absurd hr h.2
    · exfalso
      have hd := (double_push_mem env b x).mp
        ⟨by rw [GenerateQuiets_split]; exact List.mem_append_left _ ‹_›, h⟩
      cases hs : b.side <;> rw [hs] at hd hr <;> obtain ⟨d, hd, rfl⟩ := hd
      · rw [white_doubles_testBit] at hd
        have hr2 : d / 8 = 7 := hr
        omega
      · rw [black_doubles_testBit] at hd
        have hr2 : d / 8 = 0 := hr
        omega
    · exact h
  · exact absurd hp (pieceQuiets_shape env b x h).2
  · rw [genCastle_piece env b x h] at hp
    exact absurd hp (by simp)

/-- The move types of `GenerateCaptures`. -/
theorem capture_types (env : Env) (b : Board) (x : Move) (hx : x ∈ GenerateCaptures env b []) :
    x.type = .CAPTURE ∨ x.type = .CAPTURE_PROMOTION ∨ x.type = .ENPASSANT := by
  by_cases he : x.type = .ENPASSANT
  · exact Or.inr (Or.inr he)
  · rw [GenerateCaptures_split, List.mem_append, genPawnCaptures_eq, List.nil_append] at hx
    rcases hx with h | h
    · cases hs : b.side <;> rw [hs] at h <;> simp only [List.mem_append] at h <;>
        rcases h with (h | h) | h
      · rcases genPawnDir_type _ _ _ _ _ _ _ h with h2 | h2
        · exact Or.inl h2
        · exact Or.inr (Or.inl h2)
      · rcases genPawnDir_type _ _ _ _ _ _ _ h with h2 | h2
        · exact Or.inl h2
        · exact Or.inr (Or.inl h2)
      · exact absurd (genEnPassant_type env b _ x h).1 he
      · rcases genPawnDir_type _ _ _ _ _ _ _ h with h2 | h2
        · exact Or.inl h2
        · exact Or.inr (Or.inl h2)
      · rcases genPawnDir_type _ _ _ _ _ _ _ h with h2 | h2
        · exact Or.inl h2
        · exact Or.inr (Or.inl h2)
      · exact absurd (genEnPassant_type env b _ x h).1 he
    · exact Or.inl (pieceCaptures_shape env b x h).1

theorem genPawnDir_rank (env : Env) (b : Board) (c : Color) (shifted lastRank : Nat)
    (back : Nat → Nat) (hs : shifted < 2 ^ 64) (x : Move)
    (hx : x ∈ genPawnDir env b c shifted lastRank back []) (ht : x.type = .CAPTURE) :
    x.dest < 64 ∧ lastRank.testBit x.dest = false := by
  rw [mem_genPawnDir env b c shifted lastRank back hs] at hx
  obtain ⟨d, h1, _, ⟨h3, rfl⟩ | ⟨_, rfl | rfl | rfl | rfl⟩⟩ := hx
  · exact ⟨lt_of_testBit hs h1, h3⟩
  all_goals simp at ht

/-- A pawn move of `GenerateCaptures` to the last rank is not a plain CAPTURE. -/
theorem capture_last_rank (env : Env) (b : Board) (x : Move)
    (hx : x ∈ GenerateCaptures env b []) (hp : x.piece = .PAWN)
    (hr : onLastRank b.side x.dest) : x.type ≠ .CAPTURE := by
  intro ht
  rw [GenerateCaptures_split, List.mem_append, genPawnCaptures_eq, List.nil_append] at hx
  rcases hx with h | h
  · cases hs : b.side <;> rw [hs] at h hr <;> simp only [List.mem_append] at h <;>
      rcases h with (h | h) | h
    · have := genPawnDir_rank _ _ _ _ _ _ (shl_lt _ _) _ h ht
      rw [testBit_Rank8Mask] at this
      simp only [decide_eq_false_iff_not] at this
      exact this.2 ⟨this.1, hr⟩
    · have := genPawnDir_rank _ _ _ _ _ _ (shl_lt _ _) _ h ht
      rw [testBit_Rank8Mask] at this
      simp only [decide_eq_false_iff_not] at this
      exact this.2 ⟨this.1, hr⟩
    · rw [(genEnPassant_type env b _ x h).1] at ht
      simp at ht
    · have := genPawnDir_rank _ _ _ _ _ _ (shr_lt _ (and_lt_right _ (bnot_lt _))) _ h ht
      rw [testBit_Rank1Mask] at this
      simp only [decide_eq_false_iff_not] at this
      exact this.2 ⟨this.1, hr⟩
    · have := genPawnDir_rank _ _ _ _ _ _ (shr_lt _ (and_lt_right _ (bnot_lt _))) _ h ht
      rw [testBit_Rank1Mask] at this
      simp only [decide_eq_false_iff_not] at this
      exact this.2 ⟨this.1, hr⟩
    · rw [(genEnPassant_type env b _ x h).1] at ht
      simp at ht
  · exact absurd hp (pieceCaptures_shape env b x h).2

theorem mem_promotionMoves (env : Env) (b : Board) (f d : Nat) (t : MoveType) (c : Color)
    (x : Move) (hx : x ∈ promotionMoves env b f d t c) :
    x.piece = .PAWN ∧ x.color = c ∧
      (x.prom = .QUEEN ∨ x.prom = .ROOK ∨ x.prom = .BISHOP ∨ x.prom = .KNIGHT) := by
  simp only [promotionMoves, List.mem_cons, List.mem_nil_iff, or_false] at hx
  rcases hx with rfl | rfl | rfl | rfl
  · exact ⟨rfl, rfl, Or.inl rfl⟩
  · exact ⟨rfl, rfl, Or.inr (Or.inl rfl)⟩
  · exact ⟨rfl, rfl, Or.inr (Or.inr (Or.inl rfl))⟩
  · exact ⟨rfl, rfl, Or.inr (Or.inr (Or.inr rfl))⟩

/-- A PROMOTION move of `GenerateQuiets` is a pawn move to the last rank. -/
theorem promotion_rank (env : Env) (b : Board) (x : Move) (hx : x ∈ GenerateQuiets env b [])
    (ht : x.type = .PROMOTION) : x.piece = .PAWN ∧ onLastRank b.side x.dest := by
  have hm : x ∈ (GenerateQuiets env b []).filter
      (fun m => decide (m.type = .PROMOTION ∧ m.from_ = x.from_ ∧ m.dest = x.dest)) :=
    List.mem_filter.mpr ⟨hx, by simp [ht]⟩
  rw [filter_promotion] at hm
  split_ifs at hm with hc
  · exact ⟨(mem_promotionMoves _ _ _ _ _ _ _ hm).1, hc.2.2.2.1⟩
  · simp at hm

/-- A CAPTURE_PROMOTION move of `GenerateCaptures` is a pawn move to the last rank. -/
theorem capture_promotion_rank (env : Env) (b : Board) (x : Move)
    (hx : x ∈ GenerateCaptures env b []) (ht : x.type = .CAPTURE_PROMOTION) :
    x.piece = .PAWN ∧ onLastRank b.side x.dest := by
  have hm : x ∈ (GenerateCaptures env b []).filter
      (fun m => decide (m.type = .CAPTURE_PROMOTION ∧ m.from_ = x.from_ ∧ m.dest = x.dest)) :=
    List.mem_filter.mpr ⟨hx, by simp [ht]⟩
  rw [filter_capture_promotion] at hm
  split_ifs at hm with hc
  · exact ⟨(mem_promotionMoves _ _ _ _ _ _ _ hm).1, hc.2⟩
  · simp at hm

theorem promo_run_dir (env : Env) (b : Board) (c : Color) (shifted lastRank : Nat)
    (back : Nat → Nat) (hs : shifted < 2 ^ 64) (d : Nat)
    (hd : shifted.testBit d = true ∧ (b.colors c.opp).testBit d = true ∧
      lastRank.testBit d = true) :
    promotionMoves env b (back d) d .CAPTURE_PROMOTION c <:+:
      genPawnDir env b c shifted lastRank back [] := by
  rw [genPawnDir_eq, List.nil_append]
  have hmem : d ∈ bitSquares 64 ((shifted &&& b.colors c.opp) &&& lastRank) := by
    rw [mem_bitSquares (and_lt_left _ (and_lt_left _ hs)), Nat.testBit_and, Nat.testBit_and,
      hd.1, hd.2.1, hd.2.2]
    rfl
  exact (flatMap_run_of_mem
    (fun d1 => promotionMoves env b (back d1) d1 .CAPTURE_PROMOTION c) d _ hmem).trans
    (List.suffix_append _ _).isInfix

/-- The four CAPTURE_PROMOTION moves of a capture onto the last rank stand next to each other
in the list of `GenerateCaptures`. -/
theorem capture_promotion_run (env : Env) (b : Board) (f d : Nat)
    (h : (f < 64 ∧ (b.pieces .PAWN).testBit f = true ∧ (b.colors b.side).testBit f = true ∧
          (b.colors b.side.opp).testBit d = true ∧ (PawnAttacks b.side f).testBit d = true) ∧
          onLastRank b.side d) :
    promotionMoves env b f d .CAPTURE_PROMOTION b.side <:+: GenerateCaptures env b [] := by
  have hd64 : d < 64 := PawnAttacks_lt _ _ _ h.1.2.2.2.2
  rw [GenerateCaptures_split, genPawnCaptures_eq, List.nil_append]
  refine List.IsInfix.trans ?_ (List.prefix_append _ _).isInfix
  cases hs : b.side
  · have hw := (pawn_dirs_white env b hs f d).mpr h.1
    have hr : Rank8Mask.testBit d = true := by
      rw [testBit_Rank8Mask]
      have := h.2
      rw [hs] at this
      simpa using ⟨hd64, this⟩
    rcases hw with ⟨h1, h2, rfl⟩ | ⟨h1, h2, rfl⟩
    · exact (promo_run_dir env b .WHITE _ _ (fun dest => dest - 7) (shl_lt _ _) d
        ⟨h1, h2, hr⟩).trans
        ((List.prefix_append _ _).isInfix.trans (List.prefix_append _ _).isInfix)
    · exact (promo_run_dir env b .WHITE _ _ (fun dest => dest - 9) (shl_lt _ _) d
        ⟨h1, h2, hr⟩).trans
        ((List.suffix_append _ _).isInfix.trans (List.prefix_append _ _).isInfix)
  · have hw := (pawn_dirs_black env b hs f d).mpr h.1
    have hr : Rank1Mask.testBit d = true := by
      rw [testBit_Rank1Mask]
      have := h.2
      rw [hs] at this
      simpa using ⟨hd64, this⟩
    rcases hw with ⟨h1, h2, rfl⟩ | ⟨h1, h2, rfl⟩
    · exact (promo_run_dir env b .BLACK _ _ (fun dest => dest + 9)
        (shr_lt _ (and_lt_right _ (bnot_lt _))) d ⟨h1, h2, hr⟩).trans
        ((List.prefix_append _ _).isInfix.trans (List.prefix_append _ _).isInfix)
    · exact (promo_run_dir env b .BLACK _ _ (fun dest => dest + 7)
        (shr_lt _ (and_lt_right _ (bnot_lt _))) d ⟨h1, h2, hr⟩).trans
        ((List.suffix_append _ _).isInfix.trans (List.prefix_append _ _).isInfix)

/-- The four PROMOTION moves of a push onto the last rank stand next to each other in the
list of `GenerateQuiets`. -/
theorem promotion_run (env : Env) (b : Board) (f d : Nat)
    (h : (b.pieces .PAWN).testBit f = true ∧ (b.colors b.side).testBit f = true ∧
          b.occ.testBit d = false ∧ onLastRank b.side d ∧ pawnStep b.side f d) :
    promotionMoves env b f d .PROMOTION b.side <:+: GenerateQuiets env b [] := by
  rw [GenerateQuiets_split, genPawnQuiets_eq]
  refine List.IsInfix.trans ?_ (List.prefix_append _ _).isInfix
  cases hs : b.side
  · rw [hs] at h
    have hb := (white_promos_testBit b f d).mpr h
    obtain ⟨hb1, rfl⟩ := hb
    exact (flatMap_run_of_mem
      (fun d1 => promotionMoves env b (d1 - 8) d1 .PROMOTION .WHITE) d _
      ((mem_bitSquares (and_lt_right _ (bnot_lt _)) d).mpr hb1)).trans
      ((List.suffix_append _ _).isInfix.trans (List.suffix_append _ _).isInfix)
  · rw [hs] at h
    have hb := (black_promos_testBit b f d).mpr h
    obtain ⟨hb1, rfl⟩ := hb
    exact (flatMap_run_of_mem
      (fun d1 => promotionMoves env b (d1 + 8) d1 .PROMOTION .BLACK) d _
      ((mem_bitSquares (and_lt_right _ (bnot_lt _)) d).mpr hb1)).trans
      ((List.suffix_append _ _).isInfix.trans (List.suffix_append _ _).isInfix)

/-- C17. A pawn move of the side to move onto its last rank (rank 8 for white, rank 1 for
black) is never emitted with type QUIET or CAPTURE. For a step from `f` to `d` onto the last
rank, the PROMOTION moves of `GenerateQuiets` from `f` to `d` are exactly the four moves with
promotion piece QUEEN, ROOK, BISHOP, KNIGHT in that order when `f` holds a pawn of the side to
move and `d` is empty, and none otherwise; the CAPTURE_PROMOTION moves of `GenerateCaptures`
from `f` to `d` are exactly those four moves when the pawn on `f` attacks an opposing piece on
`d`, and none otherwise. In both lists the four moves stand next to each other, and a move of
type PROMOTION or CAPTURE_PROMOTION is always a pawn move onto the last rank. -/
theorem promotions_exact (env : Env) (b : Board) :
    (∀ m ∈ GenerateQuiets env b [], m.piece = .PAWN → onLastRank b.side m.dest →
      m.type ≠ .QUIET ∧ m.type ≠ .CAPTURE) ∧
    (∀ m ∈ GenerateCaptures env b [], m.piece = .PAWN → onLastRank b.side m.dest →
      m.type ≠ .QUIET ∧ m.type ≠ .CAPTURE) ∧
    (∀ f d : Nat,
      (GenerateQuiets env b []).filter
          (fun m => decide (m.type = .PROMOTION ∧ m.from_ = f ∧ m.dest = d)) =
        if (b.pieces .PAWN).testBit f = true ∧ (b.colors b.side).testBit f = true ∧
            b.occ.testBit d = false ∧ onLastRank b.side d ∧ pawnStep b.side f d then
          promotionMoves env b f d .PROMOTION b.side
        else []) ∧
    (∀ f d : Nat,
      ((b.pieces .PAWN).testBit f = true ∧ (b.colors b.side).testBit f = true ∧
          b.occ.testBit d = false ∧ onLastRank b.side d ∧ pawnStep b.side f d) →
        promotionMoves env b f d .PROMOTION b.side <:+: GenerateQuiets env b []) ∧
    (∀ f d : Nat,
      (GenerateCaptures env b []).filter
          (fun m => decide (m.type = .CAPTURE_PROMOTION ∧ m.from_ = f ∧ m.dest = d)) =
        if (f < 64 ∧ (b.pieces .PAWN).testBit f = true ∧ (b.colors b.side).testBit f = true ∧
            (b.colors b.side.opp).testBit d = true ∧
            (PawnAttacks b.side f).testBit d = true) ∧ onLastRank b.side d then
          promotionMoves env b f d .CAPTURE_PROMOTION b.side
        else []) ∧
    (∀ f d : Nat,
      ((f < 64 ∧ (b.pieces .PAWN).testBit f = true ∧ (b.colors b.side).testBit f = true ∧
          (b.colors b.side.opp).testBit d = true ∧
          (PawnAttacks b.side f).testBit d = true) ∧ onLastRank b.side d) →
        promotionMoves env b f d .CAPTURE_PROMOTION b.side <:+: GenerateCaptures env b []) ∧
    (∀ m ∈ GenerateQuiets env b [], m.type = .PROMOTION ∨ m.type = .CAPTURE_PROMOTION →
      m.type = .PROMOTION ∧ m.piece = .PAWN ∧ onLastRank b.side m.dest) ∧
    (∀ m ∈ GenerateCaptures env b [], m.type = .PROMOTION ∨ m.type = .CAPTURE_PROMOTION →
      m.type = .CAPTURE_PROMOTION ∧ m.piece = .PAWN ∧ onLastRank b.side m.dest) := by
  refine ⟨?_, ?_, filter_promotion env b, promotion_run env b, filter_capture_promotion env b,
    capture_promotion_run env b, ?_, ?_⟩
  · intro m hm hp hr
    rw [quiet_last_rank env b m hm hp hr]
    exact ⟨by simp, by simp⟩
  · intro m hm hp hr
    refine ⟨?_, capture_last_rank env b m hm hp hr⟩
    rcases capture_types env b m hm with h | h | h <;> rw [h] <;> simp
  · intro m hm ht
    have hp : m.type = .PROMOTION := by
      rcases ht with h | h
      · exact h
      · rcases quiet_types env b m hm with h2 | h2 | h2 | h2 <;> rw [h2] at h <;> simp at h
    exact ⟨hp, promotion_rank env b m hm hp⟩
  · intro m hm ht
    have hp : m.type = .CAPTURE_PROMOTION := by
      rcases ht with h | h
      · rcases capture_types env b m hm with h2 | h2 | h2 <;> rw [h2] at h <;> simp at h
      · exact h
    exact ⟨hp, capture_promotion_rank env b m hm hp⟩

/-- The hint loop changes the first entry that matches the hint, and only that one. -/
theorem markHint_split (ttm : Move) : ∀ (l : List Move),
    (∃ x ∈ l, x.from_ = ttm.from_ ∧ x.dest = ttm.dest ∧ x.type = ttm.type) →
    ∃ l1 x l2, l = l1 ++ x :: l2 ∧
      (∀ y ∈ l1, ¬ (y.from_ = ttm.from_ ∧ y.dest = ttm.dest ∧ y.type = ttm.type)) ∧
      (x.from_ = ttm.from_ ∧ x.dest = ttm.dest ∧ x.type = ttm.type) ∧
      markHint ttm l = l1 ++ { x with score := 4000 } :: l2 := by
  intro l
  induction l with
  | nil => rintro ⟨x, hx, _⟩; simp at hx
  | cons a l ih =>
    rintro ⟨x, hx, hp⟩
    by_cases ha : a.from_ = ttm.from_ ∧ a.dest = ttm.dest ∧ a.type = ttm.type
    · refine ⟨[], a, l, rfl, by simp, ha, ?_⟩
      unfold markHint
      rw [if_pos ha]
      rfl
    · have hxl : x ∈ l := by
        rcases List.mem_cons.mp hx with rfl | h
        · exact absurd hp ha
        · exact h
      obtain ⟨l1, y, l2, h1, h2, h3, h4⟩ := ih ⟨x, hxl, hp⟩
      refine ⟨a :: l1, y, l2, by rw [h1]; rfl, ?_, h3, ?_⟩
      · intro z hz
        rcases List.mem_cons.mp hz with rfl | h
        · exact ha
        · exact h2 z h
      · unfold markHint
        rw [if_neg ha, h4]
        rfl

/-- The first entry of a sorted buffer in which one entry has the score 4000 and every other
one a lower score. -/
theorem stable_sort_head (l1 l2 : List Move) (x : Move) (hx : x.score = 4000)
    (h1 : ∀ y ∈ l1, y.score < 4000) (h2 : ∀ y ∈ l2, y.score < 4000) :
    (stable_sort (l1 ++ x :: l2)).getD 0 default = x := by
  have hperm := stable_sort_perm (l1 ++ x :: l2)
  have hsorted := stable_sort_sorted (l1 ++ x :: l2)
  cases hS : stable_sort (l1 ++ x :: l2) with
  | nil =>
    rw [hS] at hperm
    have := hperm.length_eq
    simp at this
    omega
  | cons h t =>
    rw [hS] at hperm hsorted
    show h = x
    have hmem : h ∈ l1 ++ x :: l2 := hperm.subset (List.mem_cons_self _ _)
    have hxmem : x ∈ h :: t := hperm.symm.subset (by simp)
    rw [List.mem_append, List.mem_cons] at hmem
    have hge : h.score ≥ 4000 := by
      rcases List.mem_cons.mp hxmem with rfl | ht
      · rw [hx]
      · rw [← hx]
        exact (List.pairwise_cons.mp hsorted).1 x ht
    rcases hmem with h3 | rfl | h3
    · have := h1 h h3
      omega
    · rfl
    · have := h2 h h3
      omega

theorem InitSort_hint (env : Env) (b : Board) (ttm : Move) (hne : ttm.from_ ≠ ttm.dest)
    (hex : ∃ x ∈ GenerateQuiets env b (GenerateCaptures env b []),
      x.from_ = ttm.from_ ∧ x.dest = ttm.dest ∧ x.type = ttm.type) :
    ∃ l1 x l2, GenerateQuiets env b (GenerateCaptures env b []) = l1 ++ x :: l2 ∧
      (∀ y ∈ l1, ¬ (y.from_ = ttm.from_ ∧ y.dest = ttm.dest ∧ y.type = ttm.type)) ∧
      (x.from_ = ttm.from_ ∧ x.dest = ttm.dest ∧ x.type = ttm.type) ∧
      (InitSort env b ttm).m = stable_sort (l1 ++ { x with score := 4000 } :: l2) ∧
      (InitSort env b ttm).movecount = (l1 ++ x :: l2).length ∧
      ((∀ y ∈ GenerateQuiets env b (GenerateCaptures env b []), y.score < 4000) →
        ∃ m s1, NextMove (InitSort env b ttm) = some (m, s1) ∧
          m = { x with score := 4000 } ∧ m.from_ = ttm.from_ ∧ m.dest = ttm.dest ∧
          m.type = ttm.type ∧ m.score = 4000 ∧ s1.i = 1) := by
  obtain ⟨l1, x, l2, h1, h2, h3, h4⟩ := markHint_split ttm _ hex
  have hI : InitSort env b ttm =
      { m := stable_sort (l1 ++ { x with score := 4000 } :: l2),
        movecount := (l1 ++ { x with score := 4000 } :: l2).length, i := 0 } := by
    unfold InitSort
    simp only [ne_eq, hne, not_false_eq_true, if_true, h4]
  refine ⟨l1, x, l2, h1, h2, h3, by rw [hI], by rw [hI]; simp, ?_⟩
  intro hlt
  rw [h1] at hlt
  rw [hI, NextMove_at _ 0 (by simp)]
  refine ⟨_, _, rfl, ?_, ?_⟩
  · exact stable_sort_head l1 l2 { x with score := 4000 } rfl
      (fun y hy => hlt y (by simp [hy])) (fun y hy => hlt y (by simp [hy]))
  · rw [stable_sort_head l1 l2 { x with score := 4000 } rfl
      (fun y hy => hlt y (by simp [hy])) (fun y hy => hlt y (by simp [hy]))]
    exact ⟨h3.1, h3.2.1, h3.2.2, rfl, rfl⟩

/-- C20. For a hint `ttm` with `ttm.from ≠ ttm.dest` that some generated move matches in
`from`, `dest` and `type`: the buffer that `InitSort` sorts is the generated list with the
score of one entry, the first match in generation order, replaced by 4000; and when every
generated score is below 4000, the first call of `NextMove` hands out that entry, which has
the hint's `from`, `dest` and `type` and the score 4000. -/
theorem InitSort_hint_first (env : Env) (b : Board) (ttm : Move) (hne : ttm.from_ ≠ ttm.dest)
    (hex : ∃ x ∈ GenerateQuiets env b (GenerateCaptures env b []),
      x.from_ = ttm.from_ ∧ x.dest = ttm.dest ∧ x.type = ttm.type) :
    ∃ l1 x l2, GenerateQuiets env b (GenerateCaptures env b []) = l1 ++ x :: l2 ∧
      (∀ y ∈ l1, ¬ (y.from_ = ttm.from_ ∧ y.dest = ttm.dest ∧ y.type = ttm.type)) ∧
      (x.from_ = ttm.from_ ∧ x.dest = ttm.dest ∧ x.type = ttm.type) ∧
      (InitSort env b ttm).m = stable_sort (l1 ++ { x with score := 4000 } :: l2) ∧
      (InitSort env b ttm).movecount = (l1 ++ x :: l2).length ∧
      ((∀ y ∈ GenerateQuiets env b (GenerateCaptures env b []), y.score < 4000) →
        ∃ m s1, NextMove (InitSort env b ttm) = some (m, s1) ∧
          m = { x with score := 4000 } ∧ m.from_ = ttm.from_ ∧ m.dest = ttm.dest ∧
          m.type = ttm.type ∧ m.score = 4000 ∧ s1.i = 1) :=
  InitSort_hint env b ttm hne hex

set_option maxRecDepth 100000 in
theorem InitSort_hint_first_witness :
    hintE4.from_ ≠ hintE4.dest ∧
    (∃ x ∈ GenerateQuiets env1 startpos (GenerateCaptures env1 startpos []),
      x.from_ = hintE4.from_ ∧ x.dest = hintE4.dest ∧ x.type = hintE4.type) ∧
    (∀ y ∈ GenerateQuiets env1 startpos (GenerateCaptures env1 startpos []), y.score < 4000) ∧
    ∃ l1 x l2, GenerateQuiets env1 startpos (GenerateCaptures env1 startpos []) = l1 ++ x :: l2 ∧
      (∀ y ∈ l1, ¬ (y.from_ = hintE4.from_ ∧ y.dest = hintE4.dest ∧ y.type = hintE4.type)) ∧
      (x.from_ = hintE4.from_ ∧ x.dest = hintE4.dest ∧ x.type = hintE4.type) ∧
      (InitSort env1 startpos hintE4).m = stable_sort (l1 ++ { x with score := 4000 } :: l2) ∧
      (InitSort env1 startpos hintE4).movecount = (l1 ++ x :: l2).length ∧
      ((∀ y ∈ GenerateQuiets env1 startpos (GenerateCaptures env1 startpos []), y.score < 4000) →
        ∃ m s1, NextMove (InitSort env1 startpos hintE4) = some (m, s1) ∧
          m = { x with score := 4000 } ∧ m.from_ = hintE4.from_ ∧ m.dest = hintE4.dest ∧
          m.type = hintE4.type ∧ m.score = 4000 ∧ s1.i = 1) :=
  ⟨by decide, by decide, by decide,
    InitSort_hint_first env1 startpos hintE4 (by decide) (by decide)⟩

theorem MakeMoveSpec_rescore (env : Env) (b b2 : Board) (x : Move) :
    MakeMoveSpec b (mkMove env b2 x.from_ x.dest x.type x.prom x.color x.piece) =
      MakeMoveSpec b x := rfl

/-- The perft count does not depend on the scoring tables. -/
theorem perft_rescore (env env2 : Env) : ∀ (d : Nat) (b : Board),
    perft (withSpecMoves env) d b = perft (withSpecMoves env2) d b := by
  intro d
  induction d with
  | zero => intro b; rfl
  | succ d ih =>
    intro b
    unfold perft
    rw [allMoves_rescore (withSpecMoves env) (withSpecMoves env2) b, List.map_map]
    congr 1
    apply List.map_congr_left
    intro x _
    show (if IsIllegal (MakeMoveSpec b _).1 = true then 0
      else perft (withSpecMoves env) d (MakeMoveSpec b _).1) = _
    rw [MakeMoveSpec_rescore, ih]
    rfl

set_option maxRecDepth 100000 in
theorem startpos_captures : GenerateCaptures env1 startpos [] = [] := by decide

set_option maxRecDepth 100000 in
theorem startpos_quiets :
    (GenerateQuiets env1 startpos []).map (fun m => (m.from_, m.dest, m.type, m.piece)) =
      [(8, 16, .QUIET, .PAWN), (9, 17, .QUIET, .PAWN), (10, 18, .QUIET, .PAWN),
       (11, 19, .QUIET, .PAWN), (12, 20, .QUIET, .PAWN), (13, 21, .QUIET, .PAWN),
       (14, 22, .QUIET, .PAWN), (15, 23, .QUIET, .PAWN),
       (8, 24, .DOUBLE_PUSH, .PAWN), (9, 25, .DOUBLE_PUSH, .PAWN),
       (10, 26, .DOUBLE_PUSH, .PAWN), (11, 27, .DOUBLE_PUSH, .PAWN),
       (12, 28, .DOUBLE_PUSH, .PAWN), (13, 29, .DOUBLE_PUSH, .PAWN),
       (14, 30, .DOUBLE_PUSH, .PAWN), (15, 31, .DOUBLE_PUSH, .PAWN),
       (1, 16, .QUIET, .KNIGHT), (1, 18, .QUIET, .KNIGHT),
       (6, 21, .QUIET, .KNIGHT), (6, 23, .QUIET, .KNIGHT)] := by decide

set_option maxRecDepth 100000 in
theorem startpos_legal :
    ∀ m ∈ GenerateQuiets env1 startpos [],
      IsAttacked (MakeMoveSpec startpos m).1 .BLACK
          (lsb ((MakeMoveSpec startpos m).1.pieces .KING &&&
            (MakeMoveSpec startpos m).1.colors .WHITE)) = false ∧
        IsIllegal (MakeMoveSpec startpos m).1 = false := by decide

set_option maxRecDepth 100000 in
theorem startpos_perft : perft env1 1 startpos = 20 := by decide

/-- C14. On the standard initial position, whatever the scoring tables: `GenerateCaptures`
emits no move; `GenerateQuiets` emits exactly 20 moves, in generation order the eight single
pawn pushes, the eight double pawn pushes and the four knight moves, and no castle; after
`MakeMove` of each of them the white king is not attacked, so `IsIllegal` rejects none; and
the depth-1 perft count is 20. -/
theorem initial_position_moves (env : Env) :
    GenerateCaptures env startpos [] = [] ∧
    (GenerateQuiets env startpos []).map (fun m => (m.from_, m.dest, m.type, m.piece)) =
      [(8, 16, .QUIET, .PAWN), (9, 17, .QUIET, .PAWN), (10, 18, .QUIET, .PAWN),
       (11, 19, .QUIET, .PAWN), (12, 20, .QUIET, .PAWN), (13, 21, .QUIET, .PAWN),
       (14, 22, .QUIET, .PAWN), (15, 23, .QUIET, .PAWN),
       (8, 24, .DOUBLE_PUSH, .PAWN), (9, 25, .DOUBLE_PUSH, .PAWN),
       (10, 26, .DOUBLE_PUSH, .PAWN), (11, 27, .DOUBLE_PUSH, .PAWN),
       (12, 28, .DOUBLE_PUSH, .PAWN), (13, 29, .DOUBLE_PUSH, .PAWN),
       (14, 30, .DOUBLE_PUSH, .PAWN), (15, 31, .DOUBLE_PUSH, .PAWN),
       (1, 16, .QUIET, .KNIGHT), (1, 18, .QUIET, .KNIGHT),
       (6, 21, .QUIET, .KNIGHT), (6, 23, .QUIET, .KNIGHT)] ∧
    (GenerateQuiets env startpos (GenerateCaptures env startpos [])).length = 20 ∧
    (∀ m ∈ GenerateQuiets env startpos [],
      IsAttacked (MakeMoveSpec startpos m).1 .BLACK
          (lsb ((MakeMoveSpec startpos m).1.pieces .KING &&&
            (MakeMoveSpec startpos m).1.colors .WHITE)) = false ∧
        IsIllegal (MakeMoveSpec startpos m).1 = false) ∧
    perft (withSpecMoves env) 1 startpos = 20 := by
  have hc : GenerateCaptures env startpos [] = [] := by
    rw [GenerateCaptures_rescore env env1, startpos_captures]
    rfl
  have hq : (GenerateQuiets env startpos []).map (fun m => (m.from_, m.dest, m.type, m.piece)) =
      (GenerateQuiets env1 startpos []).map (fun m => (m.from_, m.dest, m.type, m.piece)) := by
    rw [GenerateQuiets_rescore env env1, List.map_map]
    exact List.map_congr_left (fun x _ => rfl)
  refine ⟨hc, hq.trans startpos_quiets, ?_, ?_, ?_⟩
  · rw [hc]
    have := congrArg List.length (hq.trans startpos_quiets)
    rw [List.length_map] at this
    exact this
  · intro m hm
    rw [GenerateQuiets_rescore env env1] at hm
    obtain ⟨x, hx, rfl⟩ := List.mem_map.mp hm
    rw [MakeMoveSpec_rescore]
    exact startpos_legal x hx
  · exact (perft_rescore env env0 1 startpos).trans startpos_perft

theorem Search_checkmated (env : Env) (hU : Restores env) (qfuel d : Nat) (b : Board)
    (alpha beta ply : Int) (pv : PV) (c : Counters)
    (h : ∀ m ∈ (InitSort env b nullMove).yield, IsIllegal (env.MakeMove b m).1 = true)
    (hc : IsInCheck b = true) :
    Search env qfuel (d + 1) b alpha beta ply pv c =
      some ⟨-env.MATE + ply, b, pv, { c with nodes := c.nodes + 1 }⟩ := by
  simp only [Search]
  rw [searchLoop_rejected env hU _ ply b alpha beta pv _ _ _ h, if_pos hc]

set_option maxRecDepth 100000 in
theorem matePos_check : IsInCheck matePos = true := by decide

/-- C15, as amended. Assuming `UnmakeMove` restores the board that preceded the matching
`MakeMove`, and that after `MakeMove` of each move generated for the position
8/8/8/8/8/4k3/4q3/4K3 (white to move) `IsIllegal` holds: for every depth `d + 1 ≥ 1` and every
window, `Search` at ply 0 returns, its value is exactly `-MATE`, which is at most
`-MATE + depth`, and the board and the caller's PV are left as they were. -/
theorem Search_mate_position (env : Env) (hU : Restores env)
    (h : ∀ m ∈ (InitSort env matePos nullMove).yield,
      IsIllegal (env.MakeMove matePos m).1 = true)
    (qfuel d : Nat) (alpha beta : Int) (pv : PV) (c : Counters) :
    ∃ r, Search env qfuel (d + 1) matePos alpha beta 0 pv c = some r ∧
      r.val = -env.MATE ∧ r.val ≤ -env.MATE + ((d + 1 : Nat) : Int) ∧
      r.board = matePos ∧ r.pv = pv := by
  refine ⟨_, Search_checkmated env hU qfuel d matePos alpha beta 0 pv c h matePos_check,
    by simp, ?_, rfl, rfl⟩
  show -env.MATE + 0 ≤ -env.MATE + ((d + 1 : Nat) : Int)
  omega

set_option maxRecDepth 100000 in
theorem Search_mate_position_witness :
    Restores env1 ∧
    (InitSort env1 matePos nullMove).yield.length = 5 ∧
    (∀ m ∈ (InitSort env1 matePos nullMove).yield,
      IsIllegal (env1.MakeMove matePos m).1 = true) ∧
    ∃ r, Search env1 2 3 matePos (-20000) 20000 0 pv0 c0 = some r ∧
      r.val = -env1.MATE ∧ r.val ≤ -env1.MATE + ((3 : Nat) : Int) ∧
      r.board = matePos ∧ r.pv = pv0 :=
  ⟨Restores_spec env0, by decide, by decide,
    Search_mate_position env1 (Restores_spec env0) (by decide) 2 2 (-20000) 20000 pv0 c0⟩

set_option maxRecDepth 100000 in
/-- C15 as stated fails at depth 0: on the valid position 8/8/8/8/8/4k3/4q3/4K3 with white to
move, where white is in check and every generated move is rejected after `MakeMove`, `Search`
at depth 0 with the window `(-20000, 20000)` hands the position to `Quies` and returns the
static evaluation 0, which is above `-MATE + 0 = -10000`. -/
theorem Search_mate_depth_zero_counterexample :
    matePos.valid ∧ IsInCheck matePos = true ∧
    (∀ m ∈ GenerateQuiets env1 matePos (GenerateCaptures env1 matePos []),
      IsIllegal (env1.MakeMove matePos m).1 = true) ∧
    (Search env1 2 0 matePos (-20000) 20000 0 pv0 c0).map SOut.val = some 0 ∧
    ¬ ((0 : Int) ≤ -env1.MATE + ((0 : Nat) : Int)) := by
  decide

set_option maxRecDepth 100000 in
/-- C19 fails on the code. On the valid position 7k/8/6KP/8/8/8/8/8 with white to move, at
depth 2 with the window `(-20000, 20000)` and an empty caller PV, the first move handed out
is the pawn push h6-h7, which stalemates black: the child call returns 0 without writing its
PV record, whose count is still what the frame's memory held (1000 here), and the root copies
that many moves: `Search` returns 0, strictly inside the window, with `pv.count = 1001 > 2`.
On the mate position 8/8/8/8/8/4k3/4q3/4K3 at depth 1 the root itself returns `-MATE`, inside
the window, and leaves the caller's count 5 as it was. -/
theorem Search_pv_count_unbounded :
    stalePos.valid ∧
    ((InitSort envG stalePos nullMove).yield.head?.map (fun m => (m.from_, m.dest))) =
      some (47, 55) ∧
    (Search envG 2 2 stalePos (-20000) 20000 0 pv0 c0).map (fun r => (r.val, r.pv.count)) =
      some (0, 1001) ∧
    ¬ (1001 ≤ 2) ∧
    matePos.valid ∧
    (Search env1 2 1 matePos (-20000) 20000 0 ⟨5, fun _ => nullMove⟩ c0).map
      (fun r => (r.val, r.pv.count)) = some (-10000, 5) ∧
    ¬ (5 ≤ 1) := by
  decide

theorem and_63_of_lt (d : Nat) (h : d < 64) : d &&& 63 = d := by
  have : (63 : Nat) = 2 ^ 6 - 1 := by decide
  rw [this, Nat.and_pow_two_sub_one_eq_mod]
  exact Nat.mod_eq_of_lt h

/-- The score of a move to a square `dest < 64`: the PST difference, plus the value of the
piece kind found on `dest`, minus the code of the moving piece. -/
theorem MoveValue_eq (env : Env) (b : Board) (m : Move) (hd : m.dest < 64) :
    MoveValue env b m =
      pstDelta env b m + (env.piecevals (b.kindAt m.dest) - m.piece.code) := by
  unfold MoveValue pstDelta Board.kindAt
  simp only [and_63_of_lt m.dest hd, one_shl_and_ne_zero, hd, true_and]

/-- Every move of the generators carries the score that `MoveValue` gives it. -/
theorem score_eq_MoveValue (env : Env) (b : Board) (m : Move)
    (hm : m ∈ GenerateQuiets env b (GenerateCaptures env b [])) :
    m.score = MoveValue env b m := by
  rw [allMoves_rescore env env b] at hm
  obtain ⟨x, _, rfl⟩ := List.mem_map.mp hm
  rfl

theorem genPiece_dest_lt (env : Env) (b : Board) (pcs : Nat) (A : Nat → Nat) (target : Nat)
    (t : MoveType) (k : Piece) (hA : ∀ f, A f < 2 ^ 64) (x : Move)
    (hx : x ∈ genPiece env b pcs A target t k []) : x.dest < 64 := by
  rw [genPiece_eq] at hx
  simp only [List.nil_append, List.mem_flatMap, List.mem_singleton] at hx
  obtain ⟨f, _, d, hd, rfl⟩ := hx
  rw [mem_bitSquares (and_lt_left _ (hA f)), Nat.testBit_and, Bool.and_eq_true] at hd
  exact lt_of_testBit (hA f) hd.1

theorem genPawnDir_dest_lt (env : Env) (b : Board) (c : Color) (shifted lastRank : Nat)
    (back : Nat → Nat) (hs : shifted < 2 ^ 64) (x : Move)
    (hx : x ∈ genPawnDir env b c shifted lastRank back []) : x.dest < 64 := by
  rw [mem_genPawnDir env b c shifted lastRank back hs] at hx
  obtain ⟨d, h1, _, ⟨_, rfl⟩ | ⟨_, rfl | rfl | rfl | rfl⟩⟩ := hx <;>
    exact lt_of_testBit hs h1

/-- A move of `GenerateCaptures` that is not an en-passant capture lands on a square below
64. -/
theorem capture_dest_lt (env : Env) (b : Board) (m : Move)
    (hm : m ∈ GenerateCaptures env b []) (ht : m.type ≠ .ENPASSANT) : m.dest < 64 := by
  rw [GenerateCaptures_split, List.mem_append, genPawnCaptures_eq, List.nil_append,
    genPieceCaptures_eq, List.nil_append] at hm
  rcases hm with h | h
  · cases hs : b.side <;> rw [hs] at h <;> simp only [List.mem_append] at h <;>
      rcases h with (h | h) | h
    · exact genPawnDir_dest_lt _ _ _ _ _ _ (shl_lt _ _) _ h
    · exact genPawnDir_dest_lt _ _ _ _ _ _ (shl_lt _ _) _ h
    · exact absurd (genEnPassant_type env b _ m h).1 ht
    · exact genPawnDir_dest_lt _ _ _ _ _ _ (shr_lt _ (and_lt_right _ (bnot_lt _))) _ h
    · exact genPawnDir_dest_lt _ _ _ _ _ _ (shr_lt _ (and_lt_right _ (bnot_lt _))) _ h
    · exact absurd (genEnPassant_type env b _ m h).1 ht
  · simp only [List.mem_append] at h
    rcases h with (((h | h) | h) | h) | h
    · exact genPiece_dest_lt _ _ _ KnightAttacks _ _ _ (fun s => jumpSet_lt_pow knightJumps s) _ h
    · exact genPiece_dest_lt _ _ _ _ _ _ _ (fun s => BishopAttacks_lt_pow s b.occ) _ h
    · exact genPiece_dest_lt _ _ _ _ _ _ _ (fun s => RookAttacks_lt_pow s b.occ) _ h
    · exact genPiece_dest_lt _ _ _ _ _ _ _ (fun s => QueenAttacks_lt_pow s b.occ) _ h
    · exact genPiece_dest_lt _ _ _ KingAttacks _ _ _ (fun s => jumpSet_lt_pow kingSteps s) _ h

/-- In a list sorted by descending score, an entry with the higher score comes before an
entry with the lower score, and never after it. -/
theorem sorted_before : ∀ (l : List Move), l.Pairwise (fun a c => a.score ≥ c.score) →
    ∀ (x y : Move), x ∈ l → y ∈ l → x.score > y.score →
      List.Sublist [x, y] l ∧ ¬ List.Sublist [y, x] l := by
  intro l hs x y hx hy hlt
  refine ⟨?_, ?_⟩
  · induction l with
    | nil => simp at hx
    | cons a t ih =>
      rw [List.pairwise_cons] at hs
      by_cases hax : a = x
      · subst hax
        have hyt : y ∈ t := by
          rcases List.mem_cons.mp hy with h | h
          · rw [h] at hlt; exact absurd hlt (lt_irrefl _)
          · exact h
        exact List.Sublist.cons₂ _ (List.singleton_sublist.mpr hyt)
      · have hxt : x ∈ t := by
          rcases List.mem_cons.mp hx with h | h
          · exact absurd h.symm hax
          · exact h
        have hyt : y ∈ t := by
          rcases List.mem_cons.mp hy with h | h
          · have := hs.1 x hxt
            rw [← h] at this
            omega
          · exact h
        exact List.Sublist.cons _ (ih hs.2 hxt hyt)
  · intro hsub
    have := hs.sublist hsub
    rw [List.pairwise_cons] at this
    have := this.1 x (by simp)
    omega

theorem capture_score_lt (env : Env) (b : Board) (m1 m2 : Move)
    (h1 : m1 ∈ GenerateCaptures env b []) (h2 : m2 ∈ GenerateCaptures env b [])
    (ht1 : m1.type ≠ .ENPASSANT) (ht2 : m2.type ≠ .ENPASSANT)
    (hv : env.piecevals (capturedKind b m1) = env.piecevals (capturedKind b m2))
    (hp : pstDelta env b m1 = pstDelta env b m2)
    (hc : m1.piece.code < m2.piece.code) :
    MoveValue env b m1 > MoveValue env b m2 ∧ m1.score = MoveValue env b m1 ∧
      m2.score = MoveValue env b m2 := by
  have hall : ∀ m ∈ GenerateCaptures env b [],
      m ∈ GenerateQuiets env b (GenerateCaptures env b []) := by
    intro m hm
    rw [GenerateQuiets_append]
    exact List.mem_append_left _ hm
  have hk : ∀ m ∈ GenerateCaptures env b [], m.type ≠ .ENPASSANT →
      capturedKind b m = b.kindAt m.dest := by
    intro m hm ht
    unfold capturedKind
    rcases capture_types env b m hm with h | h | h
    · rw [h]
    · rw [h]
    · exact absurd h ht
  rw [hk m1 h1 ht1, hk m2 h2 ht2] at hv
  refine ⟨?_, score_eq_MoveValue env b m1 (hall m1 h1), score_eq_MoveValue env b m2 (hall m2 h2)⟩
  rw [MoveValue_eq env b m1 (capture_dest_lt env b m1 h1 ht1),
    MoveValue_eq env b m2 (capture_dest_lt env b m2 h2 ht2), hv, hp]
  omega

/-- C21, as amended. For every board and any two moves of type CAPTURE or CAPTURE_PROMOTION
emitted by `GenerateCaptures` whose captured pieces have the same piece value and whose PST
differences are equal: the move of the cheaper attacker (smaller piece kind) gets a strictly
higher score from `MoveValue`, which is the score it carries, and it is handed out before the
other move, and never after it, by `NextMove` after `InitSortQuies` and after `InitSort` with
a hint that names no move. -/
theorem cheaper_attacker_first (env : Env) (b : Board) (m1 m2 : Move)
    (h1 : m1 ∈ GenerateCaptures env b []) (h2 : m2 ∈ GenerateCaptures env b [])
    (ht1 : m1.type ≠ .ENPASSANT) (ht2 : m2.type ≠ .ENPASSANT)
    (hv : env.piecevals (capturedKind b m1) = env.piecevals (capturedKind b m2))
    (hp : pstDelta env b m1 = pstDelta env b m2)
    (hc : m1.piece.code < m2.piece.code) :
    MoveValue env b m1 > MoveValue env b m2 ∧ m1.score > m2.score ∧
    (List.Sublist [m1, m2] (InitSortQuies env b).yield ∧
      ¬ List.Sublist [m2, m1] (InitSortQuies env b).yield) ∧
    (∀ ttm : Move, ttm.from_ = ttm.dest →
      List.Sublist [m1, m2] (InitSort env b ttm).yield ∧
        ¬ List.Sublist [m2, m1] (InitSort env b ttm).yield) := by
  obtain ⟨hlt, hs1, hs2⟩ := capture_score_lt env b m1 m2 h1 h2 ht1 ht2 hv hp hc
  have hsc : m1.score > m2.score := by rw [hs1, hs2]; exact hlt
  refine ⟨hlt, hsc, ?_, ?_⟩
  · rw [InitSortQuies_yield]
    exact sorted_before _ (stable_sort_sorted _) m1 m2
      ((stable_sort_perm _).mem_iff.mpr h1) ((stable_sort_perm _).mem_iff.mpr h2) hsc
  · intro ttm hnull
    rw [InitSort_null env b ttm hnull, yield_of_start]
    exact sorted_before _ (stable_sort_sorted _) m1 m2
      ((stable_sort_perm _).mem_iff.mpr (List.mem_append_left _ h1))
      ((stable_sort_perm _).mem_iff.mpr (List.mem_append_left _ h2)) hsc

set_option maxRecDepth 100000 in
theorem cheaper_attacker_first_witness :
    lvaPos.valid ∧
    mkMove envV lvaPos 28 35 .CAPTURE .NO_PIECE .WHITE .PAWN ∈ GenerateCaptures envV lvaPos [] ∧
    mkMove envV lvaPos 18 35 .CAPTURE .NO_PIECE .WHITE .KNIGHT ∈
      GenerateCaptures envV lvaPos [] ∧
    MoveValue envV lvaPos (mkMove envV lvaPos 28 35 .CAPTURE .NO_PIECE .WHITE .PAWN) = 100 ∧
    MoveValue envV lvaPos (mkMove envV lvaPos 18 35 .CAPTURE .NO_PIECE .WHITE .KNIGHT) = 99 ∧
    List.Sublist
      [mkMove envV lvaPos 28 35 .CAPTURE .NO_PIECE .WHITE .PAWN,
        mkMove envV lvaPos 18 35 .CAPTURE .NO_PIECE .WHITE .KNIGHT]
      (InitSortQuies envV lvaPos).yield :=
  ⟨by decide, by decide, by decide, by decide, by decide,
    (cheaper_attacker_first envV lvaPos
      (mkMove envV lvaPos 28 35 .CAPTURE .NO_PIECE .WHITE .PAWN)
      (mkMove envV lvaPos 18 35 .CAPTURE .NO_PIECE .WHITE .KNIGHT)
      (by decide) (by decide) (by decide) (by decide) (by decide) (by decide)
      (by decide)).2.2.1.1⟩

set_option maxRecDepth 100000 in
/-- C21 as stated fails in three ways. With a PST that gives a knight 10 points per rank, on
`lvaPos` the knight's capture of the pawn d5 scores 119 and the pawn's capture of the same
pawn scores 100, and the knight's capture is handed out first. With a PST that is 0
everywhere, on `epPos` the en-passant capture of a pawn by a pawn scores 0, because
`MoveValue` finds no piece on its destination, and the knight's capture of a pawn scores 99
and is handed out first. And after `InitSort` with the knight's capture as the hint, that
capture carries the score 4000 and is handed out first. -/
theorem cheaper_attacker_first_counterexample :
    (lvaPos.valid ∧
      (GenerateCaptures envP lvaPos []).map (fun m => (m.from_, m.dest, m.type, m.piece)) =
        [(28, 35, .CAPTURE, .PAWN), (18, 35, .CAPTURE, .KNIGHT)] ∧
      (InitSortQuies envP lvaPos).yield.map (fun m => (m.piece, m.score)) =
        [(.KNIGHT, 119), (.PAWN, 100)]) ∧
    (epPos.valid ∧
      (GenerateCaptures envV epPos []).map (fun m => (m.from_, m.dest, m.type, m.piece)) =
        [(36, 43, .ENPASSANT, .PAWN), (21, 38, .CAPTURE, .KNIGHT)] ∧
      envV.piecevals (epPos.kindAt 35) = envV.piecevals (epPos.kindAt 38) ∧
      (InitSortQuies envV epPos).yield.map (fun m => (m.piece, m.score)) =
        [(.KNIGHT, 99), (.PAWN, 0)]) ∧
    ((InitSort envV lvaPos
        { nullMove with from_ := 18, dest := 35, type := .CAPTURE }).yield.take 2).map
      (fun m => (m.piece, m.score)) = [(.KNIGHT, 4000), (.PAWN, 100)] := by
  decide

/-! ## The reference does not depend on the order of the moves -/

theorem max_swap (a x y : Int) : max (max a x) y = max (max a y) x := by omega

theorem quiesRefLoop_perm (env : Env) (self : Board → Option Int) (b : Board) :
    ∀ (l1 l2 : List Move), l1.Perm l2 → ∀ acc : Int,
      quiesRefLoop env self l1 b acc = quiesRefLoop env self l2 b acc := by
  intro l1 l2 h
  induction h with
  | nil => intro acc; rfl
  | cons x _ ih =>
    intro acc
    simp only [quiesRefLoop]
    by_cases hx : IsIllegal (env.MakeMove b x).1 = true
    · rw [if_pos hx, if_pos hx]
      exact ih acc
    · rw [if_neg hx, if_neg hx]
      cases self (env.MakeMove b x).1 with
      | none => rfl
      | some v => exact ih _
  | swap x y l =>
    intro acc
    simp only [quiesRefLoop]
    by_cases hx : IsIllegal (env.MakeMove b x).1 = true <;>
      by_cases hy : IsIllegal (env.MakeMove b y).1 = true
    · simp only [if_pos hx, if_pos hy]
    · simp only [if_pos hx, if_neg hy]
    · simp only [if_neg hx, if_pos hy]
    · simp only [if_neg hx, if_neg hy]
      cases self (env.MakeMove b x).1 with
      | none =>
        cases self (env.MakeMove b y).1 with
        | none => rfl
        | some vy => rfl
      | some vx =>
        cases self (env.MakeMove b y).1 with
        | none => rfl
        | some vy =>
          simp only []
          rw [max_swap]
  | trans _ _ ih1 ih2 => intro acc; rw [ih1, ih2]

theorem negamaxLoop_perm (env : Env) (self : Board → Option Int) (b : Board) :
    ∀ (l1 l2 : List Move), l1.Perm l2 → ∀ best : Option Int,
      negamaxLoop env self l1 b best = negamaxLoop env self l2 b best := by
  intro l1 l2 h
  induction h with
  | nil => intro best; rfl
  | cons x _ ih =>
    intro best
    simp only [negamaxLoop]
    by_cases hx : IsIllegal (env.MakeMove b x).1 = true
    · rw [if_pos hx, if_pos hx]
      exact ih best
    · rw [if_neg hx, if_neg hx]
      cases self (env.MakeMove b x).1 with
      | none => rfl
      | some v => exact ih _
  | swap x y l =>
    intro best
    simp only [negamaxLoop]
    by_cases hx : IsIllegal (env.MakeMove b x).1 = true <;>
      by_cases hy : IsIllegal (env.MakeMove b y).1 = true
    · simp only [if_pos hx, if_pos hy]
    · simp only [if_pos hx, if_neg hy]
    · simp only [if_neg hx, if_pos hy]
    · simp only [if_neg hx, if_neg hy]
      cases self (env.MakeMove b x).1 with
      | none =>
        cases self (env.MakeMove b y).1 with
        | none => rfl
        | some vy => rfl
      | some vx =>
        cases self (env.MakeMove b y).1 with
        | none => rfl
        | some vy =>
          cases best with
          | none =>
            simp only []
            rw [max_comm]
          | some a =>
            simp only []
            rw [max_swap]
  | trans _ _ ih1 ih2 => intro best; rw [ih1, ih2]

theorem quiesRefLoop_ge (env : Env) (self : Board → Option Int) (b : Board) :
    ∀ (ms : List Move) (acc v : Int), quiesRefLoop env self ms b acc = some v → acc ≤ v := by
  intro ms
  induction ms with
  | nil =>
    intro acc v h
    simp only [quiesRefLoop, Option.some.injEq] at h
    omega
  | cons m ms ih =>
    intro acc v h
    simp only [quiesRefLoop] at h
    by_cases hill : IsIllegal (env.MakeMove b m).1 = true
    · rw [if_pos hill] at h
      exact ih _ _ h
    · rw [if_neg hill] at h
      cases hs : self (env.MakeMove b m).1 with
      | none => rw [hs] at h; exact absurd h (by simp)
      | some v1 =>
        rw [hs] at h
        have := ih _ _ h
        omega

/-! ## `Quies` against the reference -/

theorem quiesLoop_ref (env : Env) (hU : Restores env) (n : Nat)
    (hself : ∀ b1 a1 be1 c1 v1, a1 < be1 → quiesRef env n b1 = some v1 →
      ∃ r1, Quies env n b1 a1 be1 c1 = some r1 ∧ r1.val = clamp a1 be1 v1)
    (b : Board) (beta : Int) :
    ∀ (ms : List Move) (acc alpha : Int) (c : Counters) (v : Int),
      alpha < beta → acc ≤ alpha →
      quiesRefLoop env (quiesRef env n) ms b acc = some v →
      ∃ r, quiesLoop env (Quies env n) ms b alpha beta c = some r ∧
        r.val = clamp alpha beta v := by
  intro ms
  induction ms with
  | nil =>
    intro acc alpha c v hab hacc h
    simp only [quiesRefLoop, Option.some.injEq] at h
    refine ⟨⟨alpha, b, c⟩, rfl, ?_⟩
    show alpha = clamp alpha beta v
    unfold clamp
    omega
  | cons m ms ih =>
    intro acc alpha c v hab hacc h
    simp only [quiesRefLoop] at h
    simp only [quiesLoop]
    by_cases hill : IsIllegal (env.MakeMove b m).1 = true
    · rw [if_pos hill] at h
      rw [if_pos hill, hU]
      exact ih acc alpha c v hab hacc h
    · rw [if_neg hill] at h
      rw [if_neg hill]
      cases hs : quiesRef env n (env.MakeMove b m).1 with
      | none => rw [hs] at h; exact absurd h (by simp)
      | some v1 =>
        rw [hs] at h
        simp only [] at h
        obtain ⟨r1, hr1, hv1⟩ := hself (env.MakeMove b m).1 (-beta) (-alpha) c v1 (by omega) hs
        rw [hr1]
        simp only []
        have hb1 : env.UnmakeMove r1.board (env.MakeMove b m).2 m = b := by
          rw [Quies_board env hU _ _ _ _ _ _ hr1, hU]
        rw [hb1]
        have hge := quiesRefLoop_ge env _ b ms _ v h
        unfold clamp at hv1
        by_cases h1 : -r1.val ≥ beta
        · rw [if_pos h1]
          refine ⟨_, rfl, ?_⟩
          show beta = clamp alpha beta v
          unfold clamp
          omega
        · rw [if_neg h1]
          by_cases h2 : -r1.val > alpha
          · rw [if_pos h2]
            obtain ⟨r, hr, hv⟩ := ih (max acc (-v1)) (-r1.val) r1.ctr v (by omega) (by omega) h
            refine ⟨r, hr, ?_⟩
            rw [hv]
            unfold clamp
            omega
          · rw [if_neg h2]
            exact ih (max acc (-v1)) alpha r1.ctr v hab (by omega) h

/-- `Quies` returns the reference quiescence value clamped into the window, whenever the
reference value exists within the nesting budget. -/
theorem Quies_ref (env : Env) (hU : Restores env) :
    ∀ (n : Nat) (b : Board) (alpha beta : Int) (c : Counters) (v : Int),
      alpha < beta → quiesRef env n b = some v →
      ∃ r, Quies env n b alpha beta c = some r ∧ r.val = clamp alpha beta v := by
  intro n
  induction n with
  | zero => intro b alpha beta c v _ h; simp [quiesRef] at h
  | succ n ih =>
    intro b alpha beta c v hab h
    simp only [quiesRef] at h
    have hperm : (InitSortQuies env b).yield.Perm (GenerateCaptures env b []) := by
      rw [InitSortQuies_yield]
      exact stable_sort_perm _
    rw [← quiesRefLoop_perm env _ b _ _ hperm] at h
    have hge := quiesRefLoop_ge env _ b _ _ v h
    simp only [Quies]
    by_cases h1 : env.Eval b ≥ beta
    · rw [if_pos h1]
      refine ⟨_, rfl, ?_⟩
      show beta = clamp alpha beta v
      unfold clamp
      omega
    · rw [if_neg h1]
      by_cases h2 : env.Eval b > alpha
      · rw [if_pos h2]
        obtain ⟨r, hr, hv⟩ := quiesLoop_ref env hU n ih b beta _ (env.Eval b) (env.Eval b)
          { c with nodes := c.nodes + 1 } v (by omega) (le_refl _) h
        refine ⟨r, hr, ?_⟩
        rw [hv]
        unfold clamp
        omega
      · rw [if_neg h2]
        exact quiesLoop_ref env hU n ih b beta _ (env.Eval b) alpha
          { c with nodes := c.nodes + 1 } v hab (by omega) h

/-! ## `Search` against the reference -/

theorem negamaxLoop_some (env : Env) (self : Board → Option Int) (b : Board) :
    ∀ (ms : List Move) (a : Int) (res : Option Int),
      negamaxLoop env self ms b (some a) = some res → ∃ v, res = some v ∧ a ≤ v := by
  intro ms
  induction ms with
  | nil =>
    intro a res h
    simp only [negamaxLoop, Option.some.injEq] at h
    exact ⟨a, h.symm, le_refl _⟩
  | cons m ms ih =>
    intro a res h
    simp only [negamaxLoop] at h
    by_cases hill : IsIllegal (env.MakeMove b m).1 = true
    · rw [if_pos hill] at h
      exact ih a res h
    · rw [if_neg hill] at h
      cases hs : self (env.MakeMove b m).1 with
      | none => rw [hs] at h; exact absurd h (by simp)
      | some v1 =>
        rw [hs] at h
        simp only [] at h
        obtain ⟨v, hv, hle⟩ := ih _ res h
        exact ⟨v, hv, by omega⟩

theorem negamaxLoop_legal (env : Env) (self : Board → Option Int) (b : Board) :
    ∀ (ms : List Move) (best res : Option Int) (m : Move), m ∈ ms →
      IsIllegal (env.MakeMove b m).1 = false →
      negamaxLoop env self ms b best = some res → ∃ v, res = some v := by
  intro ms
  induction ms with
  | nil => intro best res m hm; exact absurd hm (List.not_mem_nil _)
  | cons x xs ih =>
    intro best res m hm hleg h
    simp only [negamaxLoop] at h
    by_cases hill : IsIllegal (env.MakeMove b x).1 = true
    · rw [if_pos hill] at h
      rcases List.mem_cons.mp hm with rfl | hm1
      · rw [hill] at hleg; exact absurd hleg (by simp)
      · exact ih best res m hm1 hleg h
    · rw [if_neg hill] at h
      cases hs : self (env.MakeMove b x).1 with
      | none => rw [hs] at h; exact absurd h (by simp)
      | some v1 =>
        rw [hs] at h
        simp only [] at h
        obtain ⟨v, hv, _⟩ := negamaxLoop_some env self b xs _ res h
        exact ⟨v, hv⟩

theorem best_step (best : Option Int) (v1 alpha : Int) :
    ∃ nb : Int, (match best with | none => -v1 | some a => max a (-v1)) = nb ∧
      -v1 ≤ nb ∧ ((∀ a, best = some a → a ≤ alpha) → nb ≤ max alpha (-v1)) := by
  cases best with
  | none => exact ⟨-v1, rfl, le_refl _, fun _ => le_max_right _ _⟩
  | some a =>
    refine ⟨max a (-v1), rfl, le_max_right _ _, fun h => ?_⟩
    have := h a rfl
    omega

theorem searchLoop_ref (env : Env) (hU : Restores env)
    (self : Board → Int → Int → PV → Counters → Option SOut) (ref : Board → Option Int)
    (ply : Int)
    (hself : ∀ b1 a1 be1 p c1 v1, a1 < be1 → ref b1 = some v1 →
      ∃ r1, self b1 a1 be1 p c1 = some r1 ∧ r1.board = b1 ∧
        (r1.val = clamp a1 be1 v1 ∨ r1.val = v1))
    (b : Board) (beta : Int) :
    ∀ (ms : List Move) (best : Option Int) (alpha : Int) (moves : Nat) (pv cpv : PV)
      (c : Counters) (res : Option Int),
      alpha < beta →
      (match best with
        | none => moves = 0
        | some a => moves ≠ 0 ∧ a ≤ alpha) →
      negamaxLoop env ref ms b best = some res →
      ∃ r, searchLoop env self ply ms b alpha beta moves pv cpv c = some r ∧
        r.val = (match res with
          | none => (if IsInCheck b then -env.MATE + ply else 0)
          | some v => clamp alpha beta v) := by
  intro ms
  induction ms with
  | nil =>
    intro best alpha moves pv cpv c res hab hinv h
    simp only [negamaxLoop, Option.some.injEq] at h
    subst h
    simp only [searchLoop]
    cases best with
    | none =>
      simp only [] at hinv
      rw [if_pos hinv]
      by_cases hc : IsInCheck b = true
      · rw [if_pos hc]; exact ⟨_, rfl, by simp only [if_pos hc]⟩
      · rw [if_neg hc]; exact ⟨_, rfl, by simp only [if_neg hc]⟩
    | some a =>
      simp only [] at hinv
      rw [if_neg hinv.1]
      refine ⟨_, rfl, ?_⟩
      show alpha = clamp alpha beta a
      unfold clamp
      omega
  | cons m ms ih =>
    intro best alpha moves pv cpv c res hab hinv h
    simp only [negamaxLoop] at h
    simp only [searchLoop]
    by_cases hill : IsIllegal (env.MakeMove b m).1 = true
    · rw [if_pos hill] at h
      rw [if_pos hill, hU]
      exact ih best alpha moves pv cpv c res hab hinv h
    · rw [if_neg hill] at h
      rw [if_neg hill]
      cases hs : ref (env.MakeMove b m).1 with
      | none => rw [hs] at h; exact absurd h (by simp)
      | some v1 =>
        rw [hs] at h
        simp only [] at h
        obtain ⟨r1, hr1, hb1, hv1⟩ :=
          hself (env.MakeMove b m).1 (-beta) (-alpha) cpv c v1 (by omega) hs
        rw [hr1]
        simp only []
        rw [hb1, hU]
        obtain ⟨nb, hnb, hnb1, hnb2⟩ := best_step best v1 alpha
        have hnb2 : nb ≤ max alpha (-v1) := by
          apply hnb2
          intro a ha
          subst ha
          exact hinv.2
        replace h : negamaxLoop env ref ms b (some nb) = some res := by
          rw [← hnb]; exact h
        obtain ⟨v, hres, hge⟩ := negamaxLoop_some env ref b ms nb res h
        unfold clamp at hv1
        by_cases h1 : -r1.val ≥ beta
        · rw [if_pos h1]
          refine ⟨_, rfl, ?_⟩
          rw [hres]
          show beta = clamp alpha beta v
          unfold clamp
          omega
        · rw [if_neg h1]
          by_cases h2 : -r1.val > alpha
          · rw [if_pos h2]
            obtain ⟨r, hr, hv⟩ := ih (some nb) (-r1.val) (moves + 1) (pv.update m r1.pv)
              r1.pv r1.ctr res (by omega)
              (show moves + 1 ≠ 0 ∧ nb ≤ -r1.val from ⟨Nat.succ_ne_zero _, by omega⟩) h
            refine ⟨r, hr, ?_⟩
            rw [hv, hres]
            show clamp (-r1.val) beta v = clamp alpha beta v
            unfold clamp
            omega
          · rw [if_neg h2]
            exact ih (some nb) alpha (moves + 1) pv r1.pv r1.ctr res hab
              (show moves + 1 ≠ 0 ∧ nb ≤ alpha from ⟨Nat.succ_ne_zero _, by omega⟩) h

theorem yield_perm (env : Env) (b : Board) :
    (InitSort env b nullMove).yield.Perm (GenerateQuiets env b (GenerateCaptures env b [])) := by
  rw [InitSort_null env b nullMove rfl, yield_of_start,
    GenerateQuiets_append env b (GenerateCaptures env b [])]
  exact stable_sort_perm _

/-- One node of `Search` above depth 0, with the moves tried in any order `l`. -/
theorem searchRoot_ref (env : Env) (hU : Restores env) (qfuel d : Nat)
    (ih : ∀ (b : Board) (alpha beta ply : Int) (pv : PV) (c : Counters) (v : Int),
      alpha < beta → negamax env qfuel d b ply = some v →
      ∃ r, Search env qfuel d b alpha beta ply pv c = some r ∧
        (r.val = clamp alpha beta v ∨ r.val = v))
    (b : Board) (alpha beta ply : Int) (pv cpv : PV) (c : Counters) (v : Int)
    (l : List Move) (hl : l.Perm (GenerateQuiets env b (GenerateCaptures env b [])))
    (hab : alpha < beta) (href : negamax env qfuel (d + 1) b ply = some v) :
    ∃ r, searchLoop env
        (fun b1 a1 be1 cpv1 c1 => Search env qfuel d b1 a1 be1 (ply + 1) cpv1 c1)
        ply l b alpha beta 0 pv cpv c = some r ∧
      (r.val = clamp alpha beta v ∨ r.val = v) ∧
      ((∃ m ∈ l, IsIllegal (env.MakeMove b m).1 = false) → r.val = clamp alpha beta v) := by
  simp only [negamax] at href
  rw [← negamaxLoop_perm env _ b l _ hl none] at href
  cases hn : negamaxLoop env (fun b1 => negamax env qfuel d b1 (ply + 1)) l b none with
  | none => rw [hn] at href; exact absurd href (by simp)
  | some res =>
    rw [hn] at href
    obtain ⟨r, hr, hv⟩ := searchLoop_ref env hU
      (fun b1 a1 be1 cpv1 c1 => Search env qfuel d b1 a1 be1 (ply + 1) cpv1 c1)
      (fun b1 => negamax env qfuel d b1 (ply + 1)) ply
      (fun b1 a1 be1 p c1 v1 h1 h2 => by
        obtain ⟨r1, hr1, hv1⟩ := ih b1 a1 be1 (ply + 1) p c1 v1 h1 h2
        exact ⟨r1, hr1, Search_board env hU qfuel d _ _ _ _ _ _ _ hr1, hv1⟩)
      b beta l none alpha 0 pv cpv c res hab rfl hn
    refine ⟨r, hr, ?_⟩
    cases res with
    | none =>
      simp only [Option.some.injEq] at href
      simp only [] at hv
      refine ⟨Or.inr (hv.trans href), ?_⟩
      rintro ⟨m, hm, hleg⟩
      obtain ⟨w, hw⟩ := negamaxLoop_legal env _ b l none none m hm hleg hn
      exact absurd hw (by simp)
    | some w =>
      simp only [Option.some.injEq] at href
      simp only [] at hv
      subst href
      exact ⟨Or.inl hv, fun _ => hv⟩

theorem Search_ref (env : Env) (hU : Restores env) (qfuel : Nat) :
    ∀ (d : Nat) (b : Board) (alpha beta ply : Int) (pv : PV) (c : Counters) (v : Int),
      alpha < beta → negamax env qfuel d b ply = some v →
      ∃ r, Search env qfuel d b alpha beta ply pv c = some r ∧
        (r.val = clamp alpha beta v ∨ r.val = v) ∧
        ((d = 0 ∨ ∃ m ∈ (InitSort env b nullMove).yield,
            IsIllegal (env.MakeMove b m).1 = false) → r.val = clamp alpha beta v) := by
  intro d
  induction d with
  | zero =>
    intro b alpha beta ply pv c v hab href
    simp only [negamax] at href
    obtain ⟨q, hq, hv⟩ := Quies_ref env hU qfuel b alpha beta
      { c with nodes := c.nodes + 1 } v hab href
    simp only [Search]
    rw [hq]
    exact ⟨_, rfl, Or.inl hv, fun _ => hv⟩
  | succ d ih =>
    intro b alpha beta ply pv c v hab href
    simp only [Search]
    obtain ⟨r, hr, h1, h2⟩ := searchRoot_ref env hU qfuel d
      (fun b1 a1 be1 p1 pv1 c1 v1 hab1 href1 => by
        obtain ⟨r1, hr1, hv1, _⟩ := ih b1 a1 be1 p1 pv1 c1 v1 hab1 href1
        exact ⟨r1, hr1, hv1⟩)
      b alpha beta ply pv (env.stackPV ply) { c with nodes := c.nodes + 1 } v
      (InitSort env b nullMove).yield (yield_perm env b) hab href
    refine ⟨r, hr, h1, ?_⟩
    rintro (h0 | hleg)
    · exact absurd h0 (Nat.succ_ne_zero d)
    · exact h2 hleg

theorem Restores_envM : Restores envM := fun b m => Restores_spec env0 b m

/-! ## Captures take a piece off the board -/

theorem colors_lt (b : Board) (hok : b.ok) (c : Color) : b.colors c < 2 ^ 64 := by
  cases c
  · exact hok.2.2.2.2.2.2.1
  · exact hok.2.2.2.2.2.2.2

theorem genPiece_facts (env : Env) (b : Board) (hok : b.ok) (k : Piece) (A : Nat → Nat)
    (hA : ∀ f, A f < 2 ^ 64) (x : Move)
    (hx : x ∈ genPiece env b (b.pieces k &&& b.colors b.side) A (b.colors b.side.opp)
      .CAPTURE k []) :
    x.color = b.side ∧ x.from_ < 64 ∧ (b.colors b.side).testBit x.from_ = true ∧
      x.type = .CAPTURE ∧ x.dest < 64 ∧ (b.colors b.side.opp).testBit x.dest = true := by
  rw [mem_genPiece env b _ A _ _ _ (and_lt_right _ (colors_lt b hok _)) hA] at hx
  obtain ⟨f, d, hf, hd, ht, rfl⟩ := hx
  rw [Nat.testBit_and, Bool.and_eq_true] at hf
  exact ⟨rfl, lt_of_testBit (colors_lt b hok _) hf.2, hf.2, rfl, lt_of_testBit (hA f) hd, ht⟩

/-- What `GenerateCaptures` guarantees about each move it emits: the mover is the side to
move and stands on `from`; the move is a CAPTURE or CAPTURE_PROMOTION onto a square held by
the opponent, or an ENPASSANT move onto the en-passant square. -/
theorem capture_facts (env : Env) (b : Board) (hok : b.ok) (m : Move)
    (hm : m ∈ GenerateCaptures env b []) :
    m.color = b.side ∧ m.from_ < 64 ∧ (b.colors b.side).testBit m.from_ = true ∧
      (((m.type = .CAPTURE ∨ m.type = .CAPTURE_PROMOTION) ∧ m.dest < 64 ∧
          (b.colors b.side.opp).testBit m.dest = true) ∨
        (m.type = .ENPASSANT ∧ m.dest = b.ep ∧ b.ep ≠ INVALID ∧ b.ep ≤ 63)) := by
  rw [GenerateCaptures_split, List.mem_append, genPawnCaptures_eq, List.nil_append,
    genPieceCaptures_eq, List.nil_append] at hm
  rcases hm with h | h
  · cases hs : b.side <;> rw [hs] at h <;> simp only [List.mem_append] at h <;>
      rcases h with (h | h) | h
    · rw [mem_genPawnDir env b _ _ _ _ (shl_lt _ _)] at h
      obtain ⟨d, h1, h2, hx⟩ := h
      have hf := (pawn_dirs_white env b hs (d - 7) d).mp (Or.inl ⟨h1, h2, rfl⟩)
      rw [hs] at hf
      have hd := lt_of_testBit (shl_lt _ _) h1
      rcases hx with ⟨_, rfl⟩ | ⟨_, rfl | rfl | rfl | rfl⟩ <;>
        exact ⟨rfl, hf.1, hf.2.2.1, Or.inl ⟨by simp [mkMove], hd, hf.2.2.2.1⟩⟩
    · rw [mem_genPawnDir env b _ _ _ _ (shl_lt _ _)] at h
      obtain ⟨d, h1, h2, hx⟩ := h
      have hf := (pawn_dirs_white env b hs (d - 9) d).mp (Or.inr ⟨h1, h2, rfl⟩)
      rw [hs] at hf
      have hd := lt_of_testBit (shl_lt _ _) h1
      rcases hx with ⟨_, rfl⟩ | ⟨_, rfl | rfl | rfl | rfl⟩ <;>
        exact ⟨rfl, hf.1, hf.2.2.1, Or.inl ⟨by simp [mkMove], hd, hf.2.2.2.1⟩⟩
    · rw [mem_genEnPassant] at h
      obtain ⟨⟨he1, he2⟩, f, _, _, hc, rfl⟩ := h
      exact ⟨rfl, lt_of_testBit (colors_lt b hok _) hc, hc, Or.inr ⟨rfl, rfl, he1, he2⟩⟩
    · rw [mem_genPawnDir env b _ _ _ _ (shr_lt _ (and_lt_right _ (bnot_lt _)))] at h
      obtain ⟨d, h1, h2, hx⟩ := h
      have hf := (pawn_dirs_black env b hs (d + 9) d).mp (Or.inl ⟨h1, h2, rfl⟩)
      rw [hs] at hf
      have hd := lt_of_testBit (shr_lt _ (and_lt_right _ (bnot_lt _))) h1
      rcases hx with ⟨_, rfl⟩ | ⟨_, rfl | rfl | rfl | rfl⟩ <;>
        exact ⟨rfl, hf.1, hf.2.2.1, Or.inl ⟨by simp [mkMove], hd, hf.2.2.2.1⟩⟩
    · rw [mem_genPawnDir env b _ _ _ _ (shr_lt _ (and_lt_right _ (bnot_lt _)))] at h
      obtain ⟨d, h1, h2, hx⟩ := h
      have hf := (pawn_dirs_black env b hs (d + 7) d).mp (Or.inr ⟨h1, h2, rfl⟩)
      rw [hs] at hf
      have hd := lt_of_testBit (shr_lt _ (and_lt_right _ (bnot_lt _))) h1
      rcases hx with ⟨_, rfl⟩ | ⟨_, rfl | rfl | rfl | rfl⟩ <;>
        exact ⟨rfl, hf.1, hf.2.2.1, Or.inl ⟨by simp [mkMove], hd, hf.2.2.2.1⟩⟩
    · rw [mem_genEnPassant] at h
      obtain ⟨⟨he1, he2⟩, f, _, _, hc, rfl⟩ := h
      exact ⟨rfl, lt_of_testBit (colors_lt b hok _) hc, hc, Or.inr ⟨rfl, rfl, he1, he2⟩⟩
  · simp only [List.mem_append] at h
    have key : ∀ (k : Piece) (A : Nat → Nat), (∀ f, A f < 2 ^ 64) →
        m ∈ genPiece env b (b.pieces k &&& b.colors b.side) A (b.colors b.side.opp)
          .CAPTURE k [] →
        m.color = b.side ∧ m.from_ < 64 ∧ (b.colors b.side).testBit m.from_ = true ∧
          (((m.type = .CAPTURE ∨ m.type = .CAPTURE_PROMOTION) ∧ m.dest < 64 ∧
              (b.colors b.side.opp).testBit m.dest = true) ∨
            (m.type = .ENPASSANT ∧ m.dest = b.ep ∧ b.ep ≠ INVALID ∧ b.ep ≤ 63)) := by
      intro k A hA hx
      obtain ⟨h1, h2, h3, h4, h5, h6⟩ := genPiece_facts env b hok k A hA m hx
      exact ⟨h1, h2, h3, Or.inl ⟨Or.inl h4, h5, h6⟩⟩
    rcases h with (((h | h) | h) | h) | h
    · exact key _ KnightAttacks (fun s => jumpSet_lt_pow knightJumps s) h
    · exact key _ _ (fun s => BishopAttacks_lt_pow s b.occ) h
    · exact key _ _ (fun s => RookAttacks_lt_pow s b.occ) h
    · exact key _ _ (fun s => QueenAttacks_lt_pow s b.occ) h
    · exact key _ KingAttacks (fun s => jumpSet_lt_pow kingSteps s) h

/-! ## Counting squares -/

theorem popcount_eq_card {x : Nat} (hx : x < 2 ^ 64) :
    popcount x = ((Finset.range 64).filter (fun s => x.testBit s = true)).card := by
  unfold popcount
  rw [← List.toFinset_card_of_nodup (bitSquares_nodup hx)]
  congr 1
  ext s
  rw [List.mem_toFinset, mem_bitSquares hx, Finset.mem_filter, Finset.mem_range]
  exact ⟨fun h => ⟨lt_of_testBit hx h, h⟩, fun h => h.2⟩

theorem popcount_le_of_move {x y : Nat} (hx : x < 2 ^ 64) (hy : y < 2 ^ 64) (f d : Nat)
    (hf : x.testBit f = true)
    (h : ∀ i, y.testBit i = true → i = d ∨ (x.testBit i = true ∧ i ≠ f)) :
    popcount y ≤ popcount x := by
  rw [popcount_eq_card hx, popcount_eq_card hy]
  have hfm : f ∈ (Finset.range 64).filter (fun s => x.testBit s = true) := by
    rw [Finset.mem_filter, Finset.mem_range]
    exact ⟨lt_of_testBit hx hf, hf⟩
  have hsub : (Finset.range 64).filter (fun s => y.testBit s = true) ⊆
      insert d (((Finset.range 64).filter (fun s => x.testBit s = true)).erase f) := by
    intro i hi
    rw [Finset.mem_filter, Finset.mem_range] at hi
    rw [Finset.mem_insert, Finset.mem_erase, Finset.mem_filter, Finset.mem_range]
    rcases h i hi.2 with h1 | h1
    · exact Or.inl h1
    · exact Or.inr ⟨h1.2, hi.1, h1.1⟩
  have h1 := Finset.card_le_card hsub
  have h2 := Finset.card_insert_le d
    (((Finset.range 64).filter (fun s => x.testBit s = true)).erase f)
  have h3 := Finset.card_erase_of_mem hfm
  have h4 : 0 < ((Finset.range 64).filter (fun s => x.testBit s = true)).card :=
    Finset.card_pos.mpr ⟨f, hfm⟩
  omega

theorem popcount_lt_of_take {x y : Nat} (hx : x < 2 ^ 64) (hy : y < 2 ^ 64) (v : Nat)
    (hv : x.testBit v = true)
    (h : ∀ i, y.testBit i = true → x.testBit i = true ∧ i ≠ v) :
    popcount y < popcount x := by
  rw [popcount_eq_card hx, popcount_eq_card hy]
  have hvm : v ∈ (Finset.range 64).filter (fun s => x.testBit s = true) := by
    rw [Finset.mem_filter, Finset.mem_range]
    exact ⟨lt_of_testBit hx hv, hv⟩
  have hsub : (Finset.range 64).filter (fun s => y.testBit s = true) ⊆
      ((Finset.range 64).filter (fun s => x.testBit s = true)).erase v := by
    intro i hi
    rw [Finset.mem_filter, Finset.mem_range] at hi
    rw [Finset.mem_erase, Finset.mem_filter, Finset.mem_range]
    exact ⟨(h i hi.2).2, hi.1, (h i hi.2).1⟩
  have h1 := Finset.card_le_card hsub
  have h3 := Finset.card_erase_of_mem hvm
  have h4 : 0 < ((Finset.range 64).filter (fun s => x.testBit s = true)).card :=
    Finset.card_pos.mpr ⟨v, hvm⟩
  omega

theorem or_lt_pow {x y : Nat} (hx : x < 2 ^ 64) (hy : y < 2 ^ 64) : x ||| y < 2 ^ 64 :=
  Nat.or_lt_two_pow hx hy

theorem popcount_or_le {x y : Nat} (hx : x < 2 ^ 64) (hy : y < 2 ^ 64) :
    popcount (x ||| y) ≤ popcount x + popcount y := by
  rw [popcount_eq_card hx, popcount_eq_card hy, popcount_eq_card (or_lt_pow hx hy)]
  have : (Finset.range 64).filter (fun s => (x ||| y).testBit s = true) =
      (Finset.range 64).filter (fun s => x.testBit s = true) ∪
        (Finset.range 64).filter (fun s => y.testBit s = true) := by
    ext s
    simp only [Finset.mem_filter, Finset.mem_range, Finset.mem_union, Nat.testBit_or,
      Bool.or_eq_true]
    tauto
  rw [this]
  exact Finset.card_union_le _ _

theorem popcount_or_eq {x y : Nat} (hx : x < 2 ^ 64) (hy : y < 2 ^ 64) (hd : x &&& y = 0) :
    popcount (x ||| y) = popcount x + popcount y := by
  rw [popcount_eq_card hx, popcount_eq_card hy, popcount_eq_card (or_lt_pow hx hy)]
  have : (Finset.range 64).filter (fun s => (x ||| y).testBit s = true) =
      (Finset.range 64).filter (fun s => x.testBit s = true) ∪
        (Finset.range 64).filter (fun s => y.testBit s = true) := by
    ext s
    simp only [Finset.mem_filter, Finset.mem_range, Finset.mem_union, Nat.testBit_or,
      Bool.or_eq_true]
    tauto
  rw [this]
  apply Finset.card_union_of_disjoint
  rw [Finset.disjoint_left]
  intro s h1 h2
  rw [Finset.mem_filter] at h1 h2
  have h3 : (x &&& y).testBit s = true := by
    rw [Nat.testBit_and, h1.2, h2.2]; rfl
  rw [hd, Nat.zero_testBit] at h3
  exact absurd h3 (by simp)

/-! ## A capture lowers the number of pieces -/

theorem opp_ne (c : Color) : c.opp ≠ c := by cases c <;> decide

theorem rookMask_capture (m : Move)
    (ht : m.type = .CAPTURE ∨ m.type = .CAPTURE_PROMOTION ∨ m.type = .ENPASSANT) :
    rookMask m = 0 := by
  unfold rookMask
  rcases ht with h | h | h <;> rw [h]

theorem colorMask_own (m : Move)
    (ht : m.type = .CAPTURE ∨ m.type = .CAPTURE_PROMOTION ∨ m.type = .ENPASSANT) :
    colorMask m m.color = shl 1 m.from_ ^^^ shl 1 m.dest := by
  unfold colorMask
  rw [if_pos rfl, if_neg (fun h => opp_ne m.color h.2), rookMask_capture m ht, Nat.xor_zero,
    Nat.xor_zero]

theorem colorMask_opp (m : Move)
    (ht : m.type = .CAPTURE ∨ m.type = .CAPTURE_PROMOTION ∨ m.type = .ENPASSANT) :
    colorMask m m.color.opp = shl 1 (victimSquare m) := by
  unfold colorMask
  rw [if_neg (fun h => opp_ne m.color h.symm)]
  have : takes m = true := by
    unfold takes
    rcases ht with h | h | h <;> rw [h]
  rw [if_pos ⟨this, rfl⟩, Nat.zero_xor]

theorem rookMask_lt (m : Move) : rookMask m < 2 ^ 64 := by
  unfold rookMask
  split
  · split <;> exact Nat.xor_lt_two_pow (shl_lt _ _) (shl_lt _ _)
  · exact Nat.two_pow_pos 64

theorem ite_shl_lt (p : Prop) [Decidable p] (x : Nat) (hx : x < 2 ^ 64) :
    (if p then x else 0) < 2 ^ 64 := by
  split
  · exact hx
  · exact Nat.two_pow_pos 64

theorem pieceMask_lt (m : Move) (cap k : Piece) : pieceMask m cap k < 2 ^ 64 := by
  unfold pieceMask
  exact Nat.xor_lt_two_pow (Nat.xor_lt_two_pow (Nat.xor_lt_two_pow (Nat.xor_lt_two_pow
    (ite_shl_lt _ _ (Nat.xor_lt_two_pow (shl_lt _ _) (shl_lt _ _)))
    (ite_shl_lt _ _ (shl_lt _ _))) (ite_shl_lt _ _ (shl_lt _ _)))
    (ite_shl_lt _ _ (shl_lt _ _))) (ite_shl_lt _ _ (rookMask_lt m))

theorem colorMask_lt (m : Move) (c : Color) : colorMask m c < 2 ^ 64 := by
  unfold colorMask
  exact Nat.xor_lt_two_pow
    (ite_shl_lt _ _ (Nat.xor_lt_two_pow (Nat.xor_lt_two_pow (shl_lt _ _) (shl_lt _ _))
      (rookMask_lt m)))
    (ite_shl_lt _ _ (shl_lt _ _))

/-- The modelled `MakeMove` keeps the bitboards 64-bit words. -/
theorem MakeMoveSpec_ok (b : Board) (hok : b.ok) (m : Move) : (MakeMoveSpec b m).1.ok := by
  obtain ⟨h1, h2, h3, h4, h5, h6, h7, h8⟩ := hok
  exact ⟨Nat.xor_lt_two_pow h1 (pieceMask_lt _ _ _), Nat.xor_lt_two_pow h2 (pieceMask_lt _ _ _),
    Nat.xor_lt_two_pow h3 (pieceMask_lt _ _ _), Nat.xor_lt_two_pow h4 (pieceMask_lt _ _ _),
    Nat.xor_lt_two_pow h5 (pieceMask_lt _ _ _), Nat.xor_lt_two_pow h6 (pieceMask_lt _ _ _),
    Nat.xor_lt_two_pow h7 (colorMask_lt _ _), Nat.xor_lt_two_pow h8 (colorMask_lt _ _)⟩

theorem MakeMoveSpec_colors (b : Board) (m : Move) (c : Color) :
    (MakeMoveSpec b m).1.colors c = b.colors c ^^^ colorMask m c := by
  cases c <;> rfl

theorem pieceCount_eq (b : Board) (c : Color) :
    pieceCount b = popcount (b.colors c) + popcount (b.colors c.opp) := by
  cases c
  · rfl
  · exact Nat.add_comm _ _

theorem victim_held (env : Env) (b : Board) (h : b.epOk) (m : Move)
    (hm : m ∈ GenerateCaptures env b []) :
    (b.colors b.side.opp).testBit (victimSquare m) = true := by
  obtain ⟨hc, _, _, ⟨ht, _, hd⟩ | ⟨ht, hd, he, _⟩⟩ := capture_facts env b h.1 m hm
  · have : victimSquare m = m.dest := by
      unfold victimSquare
      rcases ht with h1 | h1 <;> rw [h1]
    rw [this]; exact hd
  · have : victimSquare m = (match b.side with
        | .WHITE => b.ep - 8
        | .BLACK => b.ep + 8) := by
      unfold victimSquare
      rw [ht, hc, hd]
      cases b.side <;> rfl
    rw [this]; exact h.2 he

/-- A move of `GenerateCaptures`, once made by the modelled `MakeMove`, leaves a board with
fewer pieces, on which the en-passant square is unset. -/
theorem capture_lowers (env : Env) (b : Board) (h : b.epOk) (m : Move)
    (hm : m ∈ GenerateCaptures env b []) :
    (MakeMoveSpec b m).1.epOk ∧ pieceCount (MakeMoveSpec b m).1 < pieceCount b := by
  have hok := MakeMoveSpec_ok b h.1 m
  have hty := capture_types env b m hm
  obtain ⟨hc, hf, hown, _⟩ := capture_facts env b h.1 m hm
  have hv := victim_held env b h m hm
  refine ⟨⟨hok, ?_⟩, ?_⟩
  · intro he
    exfalso
    apply he
    show (if m.type = .DOUBLE_PUSH then (m.from_ + m.dest) / 2 else INVALID) = INVALID
    rw [if_neg]
    rcases hty with h1 | h1 | h1 <;> rw [h1] <;> decide
  · rw [pieceCount_eq b b.side, pieceCount_eq _ b.side]
    have h1 : popcount ((MakeMoveSpec b m).1.colors b.side) ≤ popcount (b.colors b.side) := by
      apply popcount_le_of_move (colors_lt b h.1 _) (colors_lt _ hok _) m.from_ m.dest hown
      intro i hi
      rw [MakeMoveSpec_colors, ← hc, colorMask_own m hty, hc, Nat.testBit_xor, Nat.testBit_xor,
        testBit_one_shl, testBit_one_shl] at hi
      by_cases hid : i = m.dest
      · exact Or.inl hid
      · right
        by_cases hif : i = m.from_
        · subst hif
          rw [hown] at hi
          simp [hf, hid] at hi
        · simpa [hif, hid] using hi
    have h2 : popcount ((MakeMoveSpec b m).1.colors b.side.opp) <
        popcount (b.colors b.side.opp) := by
      apply popcount_lt_of_take (colors_lt b h.1 _) (colors_lt _ hok _) (victimSquare m) hv
      intro i hi
      rw [MakeMoveSpec_colors, ← hc, colorMask_opp m hty, hc, Nat.testBit_xor,
        testBit_one_shl] at hi
      by_cases hiv : i = victimSquare m
      · subst hiv
        rw [hv] at hi
        simp [lt_of_testBit (colors_lt b h.1 _) hv] at hi
      · exact ⟨by simpa [hiv] using hi, hiv⟩
    omega

theorem and_comm_zero (b : Board) (c : Color) :
    b.colors c &&& b.colors c.opp = 0 ↔ b.colors .WHITE &&& b.colors .BLACK = 0 := by
  cases c
  · exact Iff.rfl
  · show b.black &&& b.white = 0 ↔ b.white &&& b.black = 0
    rw [Nat.land_comm]

theorem occ_testBit (b : Board) (c : Color) (i : Nat) (h : (b.colors c).testBit i = true) :
    b.occ.testBit i = true := by
  unfold Board.occ
  rw [Nat.testBit_or]
  cases c
  · rw [h]; rfl
  · rw [h]; simp

/-- A move of `GenerateCaptures`, once made by the modelled `MakeMove`, leaves the colour sets
disjoint when they were and the en-passant square, if set, was empty. -/
theorem capture_disjoint (env : Env) (b : Board) (h : b.epOk)
    (hd : b.colors .WHITE &&& b.colors .BLACK = 0)
    (he : b.ep ≠ INVALID → b.occ.testBit b.ep = false) (m : Move)
    (hm : m ∈ GenerateCaptures env b []) :
    (MakeMoveSpec b m).1.colors .WHITE &&& (MakeMoveSpec b m).1.colors .BLACK = 0 := by
  rw [← and_comm_zero _ b.side]
  rw [← and_comm_zero b b.side] at hd
  have hty := capture_types env b m hm
  obtain ⟨hc, hf, hown, hcase⟩ := capture_facts env b h.1 m hm
  have hv := victim_held env b h m hm
  by_contra hne
  obtain ⟨i, hi1, hi2⟩ := (and_ne_zero_iff _ _).mp hne
  rw [MakeMoveSpec_colors, ← hc, colorMask_own m hty, hc, Nat.testBit_xor, Nat.testBit_xor,
    testBit_one_shl, testBit_one_shl] at hi1
  rw [MakeMoveSpec_colors, ← hc, colorMask_opp m hty, hc, Nat.testBit_xor,
    testBit_one_shl] at hi2
  have hdis : ∀ j, (b.colors b.side).testBit j = true → (b.colors b.side.opp).testBit j = true →
      False := by
    intro j h1 h2
    have : (b.colors b.side &&& b.colors b.side.opp).testBit j = true := by
      rw [Nat.testBit_and, h1, h2]; rfl
    rw [hd, Nat.zero_testBit] at this
    exact absurd this (by simp)
  by_cases hiv : i = victimSquare m
  · subst hiv
    rw [hv] at hi2
    simp [lt_of_testBit (colors_lt b h.1 _) hv] at hi2
  · have ho : (b.colors b.side.opp).testBit i = true := by simpa [hiv] using hi2
    have hif : i ≠ m.from_ := fun hif => hdis i (hif ▸ hown) ho
    have hno : (b.colors b.side).testBit i = false := by
      cases hx : (b.colors b.side).testBit i
      · rfl
      · exact (hdis i hx ho).elim
    rw [hno] at hi1
    have hid : i = m.dest := by
      by_contra hid
      simp [hif, hid] at hi1
    rcases hcase with ⟨ht, _, _⟩ | ⟨ht, hde, hep, _⟩
    · apply hiv
      rw [hid]
      unfold victimSquare
      rcases ht with h1 | h1 <;> rw [h1]
    · have := occ_testBit b _ i ho
      rw [hid, hde, he hep] at this
      exact absurd this (by simp)

/-! ## `Quies` terminates -/

theorem quiesLoop_returns (env : Env) (hU : Restores env) (n : Nat) (b : Board) (beta : Int) :
    ∀ (ms : List Move),
      (∀ m ∈ ms, ∀ a be c, ∃ r, Quies env n (env.MakeMove b m).1 a be c = some r) →
      ∀ (alpha : Int) (c : Counters),
        ∃ r, quiesLoop env (Quies env n) ms b alpha beta c = some r := by
  intro ms
  induction ms with
  | nil => intro _ alpha c; exact ⟨_, rfl⟩
  | cons m ms ih =>
    intro hch alpha c
    have ih1 := ih (fun x hx => hch x (List.mem_cons_of_mem _ hx))
    simp only [quiesLoop]
    by_cases hill : IsIllegal (env.MakeMove b m).1 = true
    · rw [if_pos hill, hU]
      exact ih1 alpha c
    · rw [if_neg hill]
      obtain ⟨r1, hr1⟩ := hch m (List.mem_cons_self _ _) (-beta) (-alpha) c
      rw [hr1]
      simp only []
      rw [Quies_board env hU _ _ _ _ _ _ hr1, hU]
      by_cases h1 : -r1.val ≥ beta
      · rw [if_pos h1]; exact ⟨_, rfl⟩
      · rw [if_neg h1]
        by_cases h2 : -r1.val > alpha
        · rw [if_pos h2]; exact ih1 _ _
        · rw [if_neg h2]; exact ih1 _ _

/-- With the modelled `MakeMove`, `Quies` returns on every board that meets `epOk` as soon as
the nesting budget exceeds the number of pieces. -/
theorem Quies_returns (env : Env) :
    ∀ (n : Nat) (b : Board), b.epOk → pieceCount b < n → ∀ (alpha beta : Int) (c : Counters),
      ∃ r, Quies (withSpecMoves env) n b alpha beta c = some r := by
  intro n
  induction n with
  | zero => intro b _ h; exact absurd h (Nat.not_lt_zero _)
  | succ n ih =>
    intro b hb hn alpha beta c
    simp only [Quies]
    by_cases h1 : (withSpecMoves env).Eval b ≥ beta
    · rw [if_pos h1]; exact ⟨_, rfl⟩
    · rw [if_neg h1]
      apply quiesLoop_returns (withSpecMoves env) (Restores_spec env) n b beta
      intro m hm a be c1
      rw [InitSortQuies_yield] at hm
      have hm1 : m ∈ GenerateCaptures (withSpecMoves env) b [] :=
        (stable_sort_perm _).mem_iff.mp hm
      obtain ⟨hk, hlt⟩ := capture_lowers (withSpecMoves env) b hb m hm1
      exact ih (MakeMoveSpec b m).1 hk (by omega) a be c1

theorem pieceCount_occ (b : Board) (hok : b.ok)
    (hd : b.colors .WHITE &&& b.colors .BLACK = 0) : popcount b.occ = pieceCount b :=
  popcount_or_eq (colors_lt b hok .WHITE) (colors_lt b hok .BLACK) hd

theorem occ_le_pieceCount (b : Board) (hok : b.ok) : popcount b.occ ≤ pieceCount b :=
  popcount_or_le (colors_lt b hok .WHITE) (colors_lt b hok .BLACK)

theorem capture_occ_lt (env : Env) (b : Board) (h : b.epOk)
    (hd : b.colors .WHITE &&& b.colors .BLACK = 0) (m : Move)
    (hm : m ∈ GenerateCaptures env b []) :
    popcount (MakeMoveSpec b m).1.occ < popcount b.occ := by
  obtain ⟨hk, hlt⟩ := capture_lowers env b h m hm
  have := occ_le_pieceCount _ hk.1
  rw [pieceCount_occ b h.1 hd]
  omega

theorem capture_ep (env : Env) (b : Board) (m : Move) (hm : m ∈ GenerateCaptures env b []) :
    (MakeMoveSpec b m).1.ep = INVALID := by
  show (if m.type = .DOUBLE_PUSH then (m.from_ + m.dest) / 2 else INVALID) = INVALID
  rw [if_neg]
  rcases capture_types env b m hm with h1 | h1 | h1 <;> rw [h1] <;> decide

/-- C22. With `MakeMove` as modelled from its contract (the captured piece, also the pawn
captured en passant, is removed): on a board with 64-bit bitboards, disjoint colour sets and
an en-passant square that, when set, lies behind a piece of the side not to move, every move
emitted by `GenerateCaptures` leaves, once made, strictly fewer occupied squares, on a board
that again has 64-bit bitboards, no en-passant square and (when the en-passant square of `b`
was empty) disjoint colour sets; and `Quies` returns for every window as soon as the nesting
budget exceeds the number of occupied squares of `b`. -/
theorem Quies_terminates (env : Env) (b : Board) (h : b.epOk)
    (hd : b.colors .WHITE &&& b.colors .BLACK = 0) :
    (∀ m ∈ GenerateCaptures (withSpecMoves env) b [],
      popcount (MakeMoveSpec b m).1.occ < popcount b.occ ∧
      (MakeMoveSpec b m).1.epOk ∧ (MakeMoveSpec b m).1.ep = INVALID ∧
      ((b.ep ≠ INVALID → b.occ.testBit b.ep = false) →
        (MakeMoveSpec b m).1.colors .WHITE &&& (MakeMoveSpec b m).1.colors .BLACK = 0)) ∧
    (∀ n : Nat, popcount b.occ < n → ∀ (alpha beta : Int) (c : Counters),
      ∃ r, Quies (withSpecMoves env) n b alpha beta c = some r) := by
  refine ⟨fun m hm => ⟨capture_occ_lt _ b h hd m hm, (capture_lowers _ b h m hm).1,
    capture_ep _ b m hm, fun he => capture_disjoint _ b h hd he m hm⟩, ?_⟩
  intro n hn alpha beta c
  rw [pieceCount_occ b h.1 hd] at hn
  exact Quies_returns env n b h hn alpha beta c

set_option maxRecDepth 100000 in
theorem Quies_terminates_witness :
    epPos.epOk ∧ epPos.colors .WHITE &&& epPos.colors .BLACK = 0 ∧ popcount epPos.occ = 6 ∧
    (GenerateCaptures (withSpecMoves envM) epPos []).length = 2 ∧
    ∃ r, Quies (withSpecMoves envM) 7 epPos (-1000) 1000 c0 = some r :=
  ⟨by decide, by decide, by decide, by decide,
    (Quies_terminates envM epPos (by decide) (by decide)).2 7 (by decide) (-1000) 1000 c0⟩

/-! ## The search with `int` arithmetic agrees with the search on integers -/

theorem wrap32_of_range (x : Int) (h1 : INT_MIN ≤ x) (h2 : x ≤ INT_MAX) : wrap32 x = x := by
  unfold INT_MIN at h1
  unfold INT_MAX at h2
  unfold wrap32
  omega

theorem neg32_of_negatable (x : Int) (h : negatable x) : neg32 x = -x := by
  unfold negatable INT_MAX at h
  unfold neg32 wrap32
  omega

theorem negatable_neg (x : Int) (h : negatable x) : negatable (-x) := by
  unfold negatable at *
  omega

theorem core_eq_none {α β : Type} (f : α → β) (x : Option α) (h : x.map f = none) :
    x = none := by
  cases x with
  | none => rfl
  | some a => simp at h

theorem core_eq_some {α β : Type} (f : α → β) (x : Option α) (y : β)
    (h : x.map f = some y) : ∃ a, x = some a ∧ f a = y := by
  cases x with
  | none => simp at h
  | some a => exact ⟨a, rfl, by simpa using h⟩

theorem quiesLoop32_agree (env : Env)
    (self32 self : Board → Int → Int → Counters → Option QOut)
    (hself : ∀ b a be c c2, negatable a → negatable be → a ≤ be →
      (self32 b a be c).map QOut.core = (self b a be c2).map QOut.core)
    (hrange : ∀ b a be c r, negatable a → negatable be → a ≤ be →
      self b a be c = some r → negatable r.val)
    (beta : Int) (hbe : negatable beta) :
    ∀ (ms : List Move) (b : Board) (alpha : Int) (c c2 : Counters),
      negatable alpha → alpha ≤ beta →
      (quiesLoop32 env self32 ms b alpha beta c).map QOut.core =
        (quiesLoop env self ms b alpha beta c2).map QOut.core := by
  intro ms
  induction ms with
  | nil => intro b alpha c c2 _ _; rfl
  | cons m ms ih =>
    intro b alpha c c2 hal hab
    simp only [quiesLoop32, quiesLoop]
    by_cases hill : IsIllegal (env.MakeMove b m).1 = true
    · rw [if_pos hill, if_pos hill]
      exact ih _ _ _ _ hal hab
    · rw [if_neg hill, if_neg hill, neg32_of_negatable _ hbe, neg32_of_negatable _ hal]
      have hs := hself (env.MakeMove b m).1 (-beta) (-alpha) c c2 (negatable_neg _ hbe)
        (negatable_neg _ hal) (by omega)
      cases h2 : self (env.MakeMove b m).1 (-beta) (-alpha) c2 with
      | none =>
        rw [h2] at hs
        rw [core_eq_none _ _ hs]
      | some r2 =>
        rw [h2] at hs
        obtain ⟨r, hr, hc⟩ := core_eq_some _ _ _ hs
        rw [hr]
        simp only []
        have hv : r.val = r2.val := congrArg Prod.fst hc
        have hb : r.board = r2.board := congrArg Prod.snd hc
        have hrg := hrange _ _ _ _ _ (negatable_neg _ hbe) (negatable_neg _ hal) (by omega) h2
        rw [hv, hb, neg32_of_negatable _ hrg]
        by_cases h1 : -r2.val ≥ beta
        · rw [if_pos h1, if_pos h1]; rfl
        · rw [if_neg h1, if_neg h1]
          by_cases h3 : -r2.val > alpha
          · rw [if_pos h3, if_pos h3]
            exact ih _ _ _ _ (negatable_neg _ hrg) (by omega)
          · rw [if_neg h3, if_neg h3]
            exact ih _ _ _ _ hal hab

theorem Quies_negatable (env : Env) (n : Nat) (b : Board)
    (alpha beta : Int) (c : Counters) (r : QOut) (hal : negatable alpha)
    (hbe : negatable beta) (hab : alpha ≤ beta) (h : Quies env n b alpha beta c = some r) :
    negatable r.val := by
  have := Quies_window env n b alpha beta c r hab h
  unfold negatable at *
  omega

theorem Quies32_agree (env : Env) :
    ∀ (n : Nat) (b : Board) (alpha beta : Int) (c c2 : Counters),
      negatable alpha → negatable beta → alpha ≤ beta →
      (Quies32 env n b alpha beta c).map QOut.core =
        (Quies env n b alpha beta c2).map QOut.core := by
  intro n
  induction n with
  | zero => intro b alpha beta c c2 _ _ _; rfl
  | succ n ih =>
    intro b alpha beta c c2 hal hbe hab
    simp only [Quies32, Quies]
    by_cases h1 : env.Eval b ≥ beta
    · rw [if_pos h1, if_pos h1]; rfl
    · rw [if_neg h1, if_neg h1]
      apply quiesLoop32_agree env _ _ ih
        (fun b1 a1 be1 c1 r1 h2 h3 h4 h5 => Quies_negatable env n b1 a1 be1 c1 r1 h2 h3 h4 h5)
        beta hbe
      · by_cases h3 : env.Eval b > alpha
        · rw [if_pos h3]
          unfold negatable at *
          omega
        · rw [if_neg h3]; exact hal
      · by_cases h3 : env.Eval b > alpha
        · rw [if_pos h3]; omega
        · rw [if_neg h3]; exact hab

theorem searchLoop32_agree (env : Env) (hM : 0 ≤ env.MATE ∧ env.MATE ≤ INT_MAX)
    (self32 self : Board → Int → Int → PV → Counters → Option SOut)
    (hself : ∀ b a be p c c2, negatable a → negatable be → a ≤ be →
      (self32 b a be p c).map SOut.core = (self b a be p c2).map SOut.core)
    (hrange : ∀ b a be p c r, negatable a → negatable be → a ≤ be →
      self b a be p c = some r → negatable r.val)
    (ply : Int) (hp : 0 ≤ ply ∧ ply ≤ INT_MAX) (beta : Int) (hbe : negatable beta) :
    ∀ (ms : List Move) (b : Board) (alpha : Int) (moves : Nat) (pv cpv : PV)
      (c c2 : Counters), negatable alpha → alpha ≤ beta →
      (searchLoop32 env self32 ply ms b alpha beta moves pv cpv c).map SOut.core =
        (searchLoop env self ply ms b alpha beta moves pv cpv c2).map SOut.core := by
  intro ms
  induction ms with
  | nil =>
    intro b alpha moves pv cpv c c2 _ _
    simp only [searchLoop32, searchLoop]
    have hm : wrap32 (neg32 env.MATE + ply) = -env.MATE + ply := by
      have h1 : neg32 env.MATE = -env.MATE := by
        apply neg32_of_negatable
        unfold negatable
        unfold INT_MAX at *
        omega
      rw [h1]
      apply wrap32_of_range
      · unfold INT_MIN; unfold INT_MAX at *; omega
      · unfold INT_MAX at *; omega
    rw [hm]
    by_cases h0 : moves = 0
    · rw [if_pos h0, if_pos h0]
      by_cases hc : IsInCheck b = true
      · rw [if_pos hc, if_pos hc]; rfl
      · rw [if_neg hc, if_neg hc]; rfl
    · rw [if_neg h0, if_neg h0]; rfl
  | cons m ms ih =>
    intro b alpha moves pv cpv c c2 hal hab
    simp only [searchLoop32, searchLoop]
    by_cases hill : IsIllegal (env.MakeMove b m).1 = true
    · rw [if_pos hill, if_pos hill]
      exact ih _ _ _ _ _ _ _ hal hab
    · rw [if_neg hill, if_neg hill, neg32_of_negatable _ hbe, neg32_of_negatable _ hal]
      have hs := hself (env.MakeMove b m).1 (-beta) (-alpha) cpv c c2 (negatable_neg _ hbe)
        (negatable_neg _ hal) (by omega)
      cases h2 : self (env.MakeMove b m).1 (-beta) (-alpha) cpv c2 with
      | none =>
        rw [h2] at hs
        rw [core_eq_none _ _ hs]
      | some r2 =>
        rw [h2] at hs
        obtain ⟨r, hr, hc⟩ := core_eq_some _ _ _ hs
        rw [hr]
        simp only []
        have hv : r.val = r2.val := congrArg Prod.fst hc
        have hb : r.board = r2.board := congrArg (fun x => x.2.1) hc
        have hpv : r.pv = r2.pv := congrArg (fun x => x.2.2) hc
        have hrg := hrange _ _ _ _ _ _ (negatable_neg _ hbe) (negatable_neg _ hal)
          (by omega) h2
        rw [hv, hb, hpv, neg32_of_negatable _ hrg]
        by_cases h1 : -r2.val ≥ beta
        · rw [if_pos h1, if_pos h1]; rfl
        · rw [if_neg h1, if_neg h1]
          by_cases h3 : -r2.val > alpha
          · rw [if_pos h3, if_pos h3]
            exact ih _ _ _ _ _ _ _ (negatable_neg _ hrg) (by omega)
          · rw [if_neg h3, if_neg h3]
            exact ih _ _ _ _ _ _ _ hal hab

theorem searchLoop_negatable (env : Env) (hM : 0 ≤ env.MATE ∧ env.MATE ≤ INT_MAX)
    (self : Board → Int → Int → PV → Counters → Option SOut)
    (hrange : ∀ b a be p c r, negatable a → negatable be → a ≤ be →
      self b a be p c = some r → negatable r.val)
    (ply : Int) (hp : 0 ≤ ply ∧ ply ≤ INT_MAX) (beta : Int) (hbe : negatable beta) :
    ∀ (ms : List Move) (b : Board) (alpha : Int) (moves : Nat) (pv cpv : PV)
      (c : Counters) (r : SOut), negatable alpha → alpha ≤ beta →
      searchLoop env self ply ms b alpha beta moves pv cpv c = some r → negatable r.val := by
  intro ms
  induction ms with
  | nil =>
    intro b alpha moves pv cpv c r hal _ h
    simp only [searchLoop] at h
    by_cases h0 : moves = 0
    · rw [if_pos h0] at h
      by_cases hc : IsInCheck b = true
      · rw [if_pos hc] at h
        simp only [Option.some.injEq] at h
        rw [← h]
        show negatable (-env.MATE + ply)
        unfold negatable
        unfold INT_MAX at *
        omega
      · rw [if_neg hc] at h
        simp only [Option.some.injEq] at h
        rw [← h]
        show negatable 0
        decide
    · rw [if_neg h0] at h
      simp only [Option.some.injEq] at h
      rw [← h]
      exact hal
  | cons m ms ih =>
    intro b alpha moves pv cpv c r hal hab h
    simp only [searchLoop] at h
    by_cases hill : IsIllegal (env.MakeMove b m).1 = true
    · rw [if_pos hill] at h
      exact ih _ _ _ _ _ _ _ hal hab h
    · rw [if_neg hill] at h
      cases h2 : self (env.MakeMove b m).1 (-beta) (-alpha) cpv c with
      | none => rw [h2] at h; exact absurd h (by simp)
      | some r2 =>
        rw [h2] at h
        simp only [] at h
        have hrg := hrange _ _ _ _ _ _ (negatable_neg _ hbe) (negatable_neg _ hal)
          (by omega) h2
        by_cases h1 : -r2.val ≥ beta
        · rw [if_pos h1] at h
          simp only [Option.some.injEq] at h
          rw [← h]
          exact hbe
        · rw [if_neg h1] at h
          by_cases h3 : -r2.val > alpha
          · rw [if_pos h3] at h
            exact ih _ _ _ _ _ _ _ (negatable_neg _ hrg) (by omega) h
          · rw [if_neg h3] at h
            exact ih _ _ _ _ _ _ _ hal hab h

theorem Search_negatable (env : Env) (hM : 0 ≤ env.MATE ∧ env.MATE ≤ INT_MAX) (qfuel : Nat) :
    ∀ (d : Nat) (b : Board) (alpha beta ply : Int) (pv : PV) (c : Counters) (r : SOut),
      negatable alpha → negatable beta → alpha ≤ beta → 0 ≤ ply → ply + d ≤ INT_MAX →
      Search env qfuel d b alpha beta ply pv c = some r → negatable r.val := by
  intro d
  induction d with
  | zero =>
    intro b alpha beta ply pv c r hal hbe hab _ _ h
    simp only [Search] at h
    cases hq : Quies env qfuel b alpha beta { c with nodes := c.nodes + 1 } with
    | none => rw [hq] at h; exact absurd h (by simp)
    | some q =>
      rw [hq] at h
      simp only [Option.some.injEq] at h
      rw [← h]
      exact Quies_negatable env qfuel b alpha beta _ q hal hbe hab hq
  | succ d ih =>
    intro b alpha beta ply pv c r hal hbe hab hp hd h
    simp only [Search] at h
    exact searchLoop_negatable env hM _
      (fun b1 a1 be1 p1 c1 r1 h1 h2 h3 h4 =>
        ih b1 a1 be1 (ply + 1) p1 c1 r1 h1 h2 h3 (by omega) (by push_cast at hd; omega) h4)
      ply ⟨hp, by push_cast at hd; omega⟩ beta hbe _ _ _ _ _ _ _ _ hal hab h

/-- `Search32` and `Search` leave the same value, board and PV whenever the window bounds can
be negated as an `int`, `MATE` is a non-negative `int`, and the plies `ply .. ply + depth` are
non-negative `int`s. -/
theorem Search32_agree (env : Env)
    (hM : 0 ≤ env.MATE ∧ env.MATE ≤ INT_MAX) (qfuel : Nat) :
    ∀ (d : Nat) (b : Board) (alpha beta ply : Int) (pv : PV) (c c2 : Counters),
      negatable alpha → negatable beta → alpha ≤ beta → 0 ≤ ply → ply + d ≤ INT_MAX →
      (Search32 env qfuel d b alpha beta ply pv c).map SOut.core =
        (Search env qfuel d b alpha beta ply pv c2).map SOut.core := by
  intro d
  induction d with
  | zero =>
    intro b alpha beta ply pv c c2 hal hbe hab _ _
    simp only [Search32, Search]
    have hq := Quies32_agree env qfuel b alpha beta { c with nodes := wrap32 (c.nodes + 1) }
      { c2 with nodes := c2.nodes + 1 } hal hbe hab
    cases h2 : Quies env qfuel b alpha beta { c2 with nodes := c2.nodes + 1 } with
    | none =>
      rw [h2] at hq
      rw [core_eq_none _ _ hq]
    | some q2 =>
      rw [h2] at hq
      obtain ⟨q, hq1, hc⟩ := core_eq_some _ _ _ hq
      rw [hq1]
      have hv : q.val = q2.val := congrArg Prod.fst hc
      have hb : q.board = q2.board := congrArg Prod.snd hc
      simp only [Option.map_some', SOut.core, hv, hb]
  | succ d ih =>
    intro b alpha beta ply pv c c2 hal hbe hab hp hd
    simp only [Search32, Search]
    have hw : wrap32 (ply + 1) = ply + 1 := by
      apply wrap32_of_range
      · unfold INT_MIN; omega
      · push_cast at hd; omega
    rw [hw]
    exact searchLoop32_agree env hM _ _
      (fun b1 a1 be1 p1 c1 c3 h1 h2 h3 =>
        ih b1 a1 be1 (ply + 1) p1 c1 c3 h1 h2 h3 (by omega) (by push_cast at hd; omega))
      (fun b1 a1 be1 p1 c1 r1 h1 h2 h3 h4 =>
        Search_negatable env hM qfuel d b1 a1 be1 (ply + 1) p1 c1 r1 h1 h2 h3 (by omega)
          (by push_cast at hd; omega) h4)
      ply ⟨hp, by push_cast at hd; omega⟩ beta hbe _ _ _ _ _ _ _ _ hal hab

/-- C23, as amended. With the arithmetic of `int` (`Search32`), assuming `UnmakeMove` undoes
`MakeMove`, `MATE` is a non-negative `int` and the plies `ply .. ply + depth` are non-negative
`int`s: for every board, depth and window `-INT_MAX ≤ alpha < beta ≤ INT_MAX` such that the
depth is 0 or some move yielded by `InitSort` is legal, whenever the recursion without cutoffs
on the full window (`negamax`: the best of the negated child values over the moves in
generation order, the stand-pat capture search `quiesRef` at depth 0, `-MATE + ply` or `0` at
a position without legal move) has the value `v` within the nesting budget, `Search32` returns
with the same budget and its value is `v` clamped into `[alpha, beta]`. The value does not
depend on the order of the moves: at a depth above 0 the move loop run over any rearrangement
of the yielded moves returns the same value. -/
theorem Search32_eq_negamax (env : Env) (hU : Restores env)
    (hM : 0 ≤ env.MATE ∧ env.MATE ≤ INT_MAX) (qfuel d : Nat) (b : Board)
    (alpha beta ply : Int) (pv : PV) (c : Counters) (v : Int)
    (hal : -INT_MAX ≤ alpha) (hab : alpha < beta) (hbe : beta ≤ INT_MAX)
    (hp : 0 ≤ ply) (hd : ply + d ≤ INT_MAX)
    (hlegal : d = 0 ∨ ∃ m ∈ (InitSort env b nullMove).yield,
      IsIllegal (env.MakeMove b m).1 = false)
    (href : negamax env qfuel d b ply = some v) :
    (∃ r, Search32 env qfuel d b alpha beta ply pv c = some r ∧ r.val = clamp alpha beta v) ∧
    (∀ d1 : Nat, d = d1 + 1 → ∀ l : List Move, l.Perm (InitSort env b nullMove).yield →
      ∃ r, searchLoop32 env
          (fun b1 a1 be1 cpv1 c1 =>
            Search32 env qfuel d1 b1 a1 be1 (wrap32 (ply + 1)) cpv1 c1)
          ply l b alpha beta 0 pv (env.stackPV ply)
          { c with nodes := wrap32 (c.nodes + 1) } = some r ∧
        r.val = clamp alpha beta v) := by
  have hna : negatable alpha := ⟨hal, by omega⟩
  have hnb : negatable beta := ⟨by omega, hbe⟩
  constructor
  · obtain ⟨r, hr, _, h2⟩ := Search_ref env hU qfuel d b alpha beta ply pv c v hab href
    have hag := Search32_agree env hM qfuel d b alpha beta ply pv c c hna hnb (le_of_lt hab)
      hp hd
    rw [hr] at hag
    obtain ⟨r3, hr3, hc⟩ := core_eq_some _ _ _ hag
    refine ⟨r3, hr3, ?_⟩
    have hv : r3.val = r.val := congrArg Prod.fst hc
    rw [hv]
    exact h2 hlegal
  · intro d1 hd1 l hl
    subst hd1
    obtain ⟨r, hr, _, h2⟩ := searchRoot_ref env hU qfuel d1
      (fun b1 a1 be1 p1 pv1 c1 v1 hab1 href1 => by
        obtain ⟨r1, hr1, hv1, _⟩ := Search_ref env hU qfuel d1 b1 a1 be1 p1 pv1 c1 v1 hab1 href1
        exact ⟨r1, hr1, hv1⟩)
      b alpha beta ply pv (env.stackPV ply) { c with nodes := c.nodes + 1 } v l
      (hl.trans (yield_perm env b)) hab href
    have hw : wrap32 (ply + 1) = ply + 1 := by
      apply wrap32_of_range
      · unfold INT_MIN; omega
      · push_cast at hd; omega
    have hag := searchLoop32_agree env hM
      (fun b1 a1 be1 cpv1 c1 => Search32 env qfuel d1 b1 a1 be1 (wrap32 (ply + 1)) cpv1 c1)
      (fun b1 a1 be1 cpv1 c1 => Search env qfuel d1 b1 a1 be1 (ply + 1) cpv1 c1)
      (fun b1 a1 be1 p1 c1 c3 h1 h3 h4 => by
        rw [hw]
        exact Search32_agree env hM qfuel d1 b1 a1 be1 (ply + 1) p1 c1 c3 h1 h3 h4 (by omega)
          (by push_cast at hd; omega))
      (fun b1 a1 be1 p1 c1 r1 h1 h3 h4 h5 =>
        Search_negatable env hM qfuel d1 b1 a1 be1 (ply + 1) p1 c1 r1 h1 h3 h4 (by omega)
          (by push_cast at hd; omega) h5)
      ply ⟨hp, by push_cast at hd; omega⟩ beta hnb l b alpha 0 pv (env.stackPV ply)
      { c with nodes := wrap32 (c.nodes + 1) } { c with nodes := c.nodes + 1 } hna
      (le_of_lt hab)
    rw [hr] at hag
    obtain ⟨r3, hr3, hc⟩ := core_eq_some _ _ _ hag
    refine ⟨r3, hr3, ?_⟩
    have hv : r3.val = r.val := congrArg Prod.fst hc
    rw [hv]
    apply h2
    rcases hlegal with h0 | ⟨m, hm, hleg⟩
    · exact absurd h0 (Nat.succ_ne_zero d1)
    · exact ⟨m, hl.mem_iff.mpr hm, hleg⟩

set_option maxRecDepth 100000 in
theorem Search32_eq_negamax_witness :
    negamax envM 3 1 lvaPos 0 = some 400 ∧
    (∃ r, Search32 envM 3 1 lvaPos 0 250 0 pv0 c0 = some r ∧ r.val = clamp 0 250 400) ∧
    ∃ r, Search32 envM 3 1 lvaPos (-INT_MAX) INT_MAX 0 pv0 c0 = some r ∧
      r.val = clamp (-INT_MAX) INT_MAX 400 :=
  ⟨by decide,
    (Search32_eq_negamax envM Restores_envM (by decide) 3 1 lvaPos 0 250 0 pv0 c0 400
      (by decide) (by decide) (by decide) (by decide) (by decide)
      (Or.inr ⟨mkMove envM lvaPos 28 35 .CAPTURE .NO_PIECE .WHITE .PAWN, by decide, by decide⟩)
      (by decide)).1,
    (Search32_eq_negamax envM Restores_envM (by decide) 3 1 lvaPos (-INT_MAX) INT_MAX 0 pv0 c0
      400 (by decide) (by decide) (by decide) (by decide) (by decide)
      (Or.inr ⟨mkMove envM lvaPos 28 35 .CAPTURE .NO_PIECE .WHITE .PAWN, by decide, by decide⟩)
      (by decide)).1⟩

set_option maxRecDepth 100000 in
/-- C23 as stated fails for the window that starts at `INT_MIN`, whose negation is not an
`int`. On the initial position at depth 1 with the window `(INT_MIN, INT_MAX)` and an
evaluation that is 0 everywhere, every child is searched with the window
`(-INT_MAX, INT_MIN)` and returns `INT_MIN`, whose negation is again `INT_MIN` and does not
exceed `alpha`: `Search32` returns `INT_MIN` with an empty PV, while the recursion without
cutoffs has the value 0, which is also its value clamped into the window. -/
theorem Search32_eq_negamax_counterexample :
    Restores env1 ∧ startpos.valid ∧ INT_MIN < INT_MAX ∧
    (∃ m ∈ (InitSort env1 startpos nullMove).yield,
      IsIllegal (env1.MakeMove startpos m).1 = false) ∧
    negamax env1 2 1 startpos 0 = some 0 ∧ clamp INT_MIN INT_MAX 0 = 0 ∧
    (Search32 env1 2 1 startpos INT_MIN INT_MAX 0 pv0 c0).map (fun r => (r.val, r.pv.count)) =
      some (INT_MIN, 0) ∧
    INT_MIN ≠ clamp INT_MIN INT_MAX 0 :=
  ⟨Restores_spec env0, by decide, by decide, by decide, by decide, by decide, by decide,
    by decide⟩

/-! ## Bounds along a forced line -/

end Hoarfrost
